import Mathlib

/-!
# Verification of the rzstd Zstandard decompressor core

Shallow embedding of the rzstd crates (`rzstd_io`, `rzstd_fse`, `rzstd_huff0`,
`rzstd_decompress`) into Lean 4, with theorems settling the frozen claims
C1-C10 about the natural-language specification.

Machine integers are modelled as `Nat` with explicit `% 2^w` where wrapping
matters.  Bytes are `Nat` values with `< 256` well-formedness hypotheses.
Fallible Rust code returns `Except`; code that can panic (out-of-bounds
indexing, arithmetic underflow in debug builds) returns `Option (Except ..)`
with `none` denoting a panic.
-/

set_option maxRecDepth 10000

deriving instance DecidableEq for Except

namespace RZstd

/-- Helper for `ilog2` / `leading_zeros`-style computations: the floor base-2
logarithm, by structural recursion on a fuel so the kernel can evaluate it
(`Nat.log2` itself is defined by well-founded recursion and does not
reduce).  Fuel 64 covers every machine-word input. -/
def log2Go : Nat → Nat → Nat
  | 0, _ => 0
  | fuel + 1, n => if n ≥ 2 then log2Go fuel (n / 2) + 1 else 0

def log2w (n : Nat) : Nat := log2Go 64 n

/-- The low `k` bits of `x`, LSB first, as 0/1 values. -/
def lowBits (x k : Nat) : List Nat :=
  (List.range k).map (fun i => if x.testBit i then 1 else 0)

/-- The low 8 bits of a byte, LSB first, as 0/1 values. -/
def byteBitsLE (b : Nat) : List Nat :=
  lowBits b 8

/-- The little-endian value of a byte list (head = least significant byte). -/
def bytesValLE : List Nat → Nat
  | [] => 0
  | b :: rest => b + 256 * bytesValLE rest

/-! ## rzstd_io: errors -/

/-- Errors of the reverse bit reader (`rzstd_io::Error` as used by
`reverse_bit_reader.rs`, whose `NotEnoughBits` carries no payload). -/
inductive RevErr where
  | emptyStream
  | missingSentinel
  | notEnoughBits
deriving DecidableEq

/-- Errors of the forward bit reader (`rzstd_io::Error` as used by
`bit_reader.rs`, whose `NotEnoughBits` carries `requested`/`remaining`). -/
inductive FwdErr where
  | emptyStream
  | notEnoughBits (requested remaining : Nat)
deriving DecidableEq

/-! ## rzstd_io: ReverseBitReader

`src` is the byte slice (head = first byte), `buf` the 64-bit register,
`bitCount` the number of valid low bits of `buf`. -/

structure ReverseBitReader where
  src : List Nat
  buf : Nat
  bitCount : Nat
deriving DecidableEq

namespace ReverseBitReader

/-- `ReverseBitReader::new`: take the last byte, reject empty input and a zero
last byte, locate the sentinel as the highest set bit (`bit_count` is its
position, i.e. `Nat.log2 last`), and keep the bits below it in the register. -/
def new (src : List Nat) : Except RevErr ReverseBitReader :=
  match src.getLast? with
  | none => .error .emptyStream
  | some last =>
    if last = 0 then .error .missingSentinel
    else
      let bitCount := log2w last
      -- (last as u64) & ((1 << bit_count) - 1)
      .ok { src := src.dropLast, buf := last % 2 ^ bitCount, bitCount := bitCount }

/-- `bits_remaining()`. -/
def bitsRemaining (s : ReverseBitReader) : Nat :=
  s.bitCount + s.src.length * 8

/-- The fold of `refill_cold`'s loop:
`buf |= (byte as u64) << (bit_count + idx * 8)` over the reversed byte slice. -/
def orBytes (buf bc : Nat) : List Nat → Nat
  | [] => buf
  | b :: rest => orBytes (buf ||| (b <<< bc)) (bc + 8) rest

/-- `ReverseBitReader::refill_cold`: pull the trailing `count` bytes of `src`
into the high end of the register, tail byte first. -/
def refillCold (s : ReverseBitReader) (count : Nat) : ReverseBitReader :=
  let avail := s.src.length
  let toRead := min count avail
  let start := avail - toRead
  { src := s.src.take start
    buf := orBytes s.buf s.bitCount (s.src.drop start).reverse
    bitCount := s.bitCount + toRead * 8 }

/-- `u64::from_be_bytes`. -/
def fromBeBytes (bytes : List Nat) : Nat :=
  bytes.foldl (fun acc b => acc * 256 + b) 0

/-- `ReverseBitReader::refill`.  The hot path (8 whole bytes) is only reached
with `bit_count == 0` (its `assert_eq!` is provably unreachable, since
`(64 - bit_count) / 8 >= 8` forces `bit_count = 0`). -/
def refill (s : ReverseBitReader) : ReverseBitReader :=
  let count := (64 - s.bitCount) / 8
  if count = 0 then s
  else
    let toRead := min count s.src.length
    if toRead < 8 then refillCold s toRead
    else
      let start := s.src.length - 8
      { src := s.src.take start
        buf := fromBeBytes (s.src.drop start)
        bitCount := 64 }

/-- `ensure_bits`. -/
def ensureBits (s : ReverseBitReader) (nBits : Nat) :
    Except RevErr ReverseBitReader :=
  if s.bitCount < nBits then
    let s' := refill s
    if s'.bitCount < nBits then .error .notEnoughBits else .ok s'
  else .ok s

/-- `peek`: the low `n_bits` of the register (`buf & ((1 << n) - 1)`). -/
def peek (s : ReverseBitReader) (nBits : Nat) : Nat :=
  s.buf % 2 ^ nBits

/-- `consume_unchecked`. -/
def consumeUnchecked (s : ReverseBitReader) (nBits : Nat) : ReverseBitReader :=
  { s with buf := s.buf >>> nBits, bitCount := s.bitCount - nBits }

/-- `read(n_bits)`: ensure, peek, consume.  `none` models the
`assert!(n_bits <= 56)` panic. -/
def read (s : ReverseBitReader) (nBits : Nat) :
    Option (Except RevErr (Nat × ReverseBitReader)) :=
  if nBits > 56 then none
  else some (do
    let s ← ensureBits s nBits
    .ok (peek s nBits, consumeUnchecked s nBits))

/-- `read_padded(n_bits)`: refill if short, then return whatever is available
(zero-padded by construction).  `none` models the `assert!(n_bits <= 56)`
panic. -/
def readPadded (s : ReverseBitReader) (nBits : Nat) :
    Option (Nat × ReverseBitReader) :=
  if nBits > 56 then none
  else
    let s := if s.bitCount < nBits then refill s else s
    let toRead := min s.bitCount nBits
    some (peek s toRead, consumeUnchecked s toRead)

/-- Well-formedness of a reader state: the register holds `bitCount` live
bits, at most 64, and the slice holds bytes. -/
def wf (s : ReverseBitReader) : Prop :=
  s.buf < 2 ^ s.bitCount ∧ s.bitCount ≤ 64 ∧ ∀ b ∈ s.src, b < 256

/-- The stream of bits a reader state will produce when read one bit at a
time: the register bits LSB-first, then the slice bytes tail-to-head, each
LSB-first. -/
def denot (s : ReverseBitReader) : List Nat :=
  lowBits s.buf s.bitCount ++ s.src.reverse.flatMap byteBitsLE

/-- Read `k` single bits, collecting the values (each 0 or 1). -/
def readBits (s : ReverseBitReader) : Nat → Except RevErr (List Nat)
  | 0 => .ok []
  | k + 1 =>
    match read s 1 with
    | none => .error .notEnoughBits
    | some (.error e) => .error e
    | some (.ok (b, s')) =>
      match readBits s' k with
      | .error e => .error e
      | .ok rest => .ok (b :: rest)

end ReverseBitReader

/-! ## rzstd_io: BitReader (forward) -/

structure BitReader where
  src : List Nat
  buf : Nat
  bitCount : Nat
  index : Nat
deriving DecidableEq

namespace BitReader

/-- The fold of `BitReader::refill_cold`'s loop (head byte first). -/
def orBytesF (buf bc : Nat) : List Nat → Nat
  | [] => buf
  | b :: rest => orBytesF (buf ||| (b <<< bc)) (bc + 8) rest

/-- `u64::from_le_bytes`. -/
def fromLeBytes (bytes : List Nat) : Nat :=
  bytes.foldr (fun b acc => acc * 256 + b) 0

/-- `BitReader::refill_cold`. -/
def refillCold (s : BitReader) (count : Nat) : BitReader :=
  let toRead := min count s.src.length
  { src := s.src.drop toRead
    buf := orBytesF s.buf s.bitCount (s.src.take toRead)
    bitCount := s.bitCount + toRead * 8
    index := s.index + toRead }

/-- `BitReader::refill` (hot path reads 8 little-endian bytes; its
`assert_eq!(bit_count, 0)` is unreachable as in the reverse reader). -/
def refill (s : BitReader) : BitReader :=
  let count := (64 - s.bitCount) / 8
  if count = 0 then s
  else
    let toRead := min count s.src.length
    if toRead < 8 then refillCold s toRead
    else
      { src := s.src.drop 8
        buf := fromLeBytes (s.src.take 8)
        bitCount := 64
        index := s.index + 8 }

/-- `BitReader::new`: reject the empty slice, then refill once. -/
def new (src : List Nat) : Except FwdErr BitReader :=
  if src.isEmpty then .error .emptyStream
  else .ok (refill { src := src, buf := 0, bitCount := 0, index := 0 })

/-- `peek`. -/
def peek (s : BitReader) (nBits : Nat) : Nat :=
  s.buf % 2 ^ nBits

/-- `read(n_bits)`. -/
def read (s : BitReader) (nBits : Nat) : Except FwdErr (Nat × BitReader) :=
  let step := fun (s : BitReader) =>
    (peek s nBits, { s with buf := s.buf >>> nBits, bitCount := s.bitCount - nBits })
  if s.bitCount < nBits then
    let s' := refill s
    if s'.bitCount < nBits then
      .error (.notEnoughBits nBits (s'.bitCount + s'.src.length * 8))
    else .ok (step s')
  else .ok (step s)

/-- `ensure_bits` used by the FSE distribution parser: refill on demand,
error when still short. -/
def ensureBits (s : BitReader) (nBits : Nat) : Except FwdErr BitReader :=
  if s.bitCount < nBits then
    let s' := refill s
    if s'.bitCount < nBits then
      .error (.notEnoughBits nBits (s'.bitCount + s'.src.length * 8))
    else .ok s'
  else .ok s

/-- `consume` (peek already checked the bound). -/
def consume (s : BitReader) (nBits : Nat) : BitReader :=
  { s with buf := s.buf >>> nBits, bitCount := s.bitCount - nBits }

/-- `bytes_consumed()`. -/
def bytesConsumed (s : BitReader) : Nat :=
  s.index - s.bitCount / 8

end BitReader

/-! ## rzstd_fse: errors, normalized distributions, decoding tables -/

/-- `rzstd_fse::Error` (the `IO` variant is split by source reader). -/
inductive FseErr where
  | ioR (e : RevErr)
  | ioF (e : FwdErr)
  | invalidAccuracyLog (a : Nat)
  | accuracyLogMismatch (maxLog gotLog : Nat)
  | tooManySymbols
  | sumMismatch (remaining : Int)
  | fastSpreadAlignmentError (pos : Nat)
  | tableUnderfilled
  | invalidState
  | corruption
deriving DecidableEq

/-- `NormalizedDistribution`: the fixed 256-entry `final_counts` /
`symbol_state` arrays plus `symbol_count`, `has_low_prob`, `accuracy_log`. -/
structure NormalizedDistribution where
  finalCounts : List Int
  symbolState : List Nat
  symbolCount : Nat
  hasLowProb : Bool
  accuracyLog : Nat
deriving DecidableEq

namespace NormalizedDistribution

/-- The skip loop for `prob == 0` symbols: read 2-bit codes, advancing
`symbol_idx`, until a code below 3.  Each pass consumes 2 bits, so the fuel
(total bits of the reader) can never run out before `read` fails. -/
def skipZeroProb (fuel : Nat) (src : BitReader) (symbolIdx : Nat) :
    Except FseErr (Nat × BitReader) :=
  match fuel with
  | 0 => .error (.ioF (.notEnoughBits 2 0))
  | fuel + 1 =>
    match src.read 2 with
    | .error e => .error (.ioF e)
    | .ok (skip, src) =>
      let symbolIdx := symbolIdx + skip
      if skip ≠ 3 then .ok (symbolIdx, src) else skipZeroProb fuel src symbolIdx

/-- One pass of `NormalizedDistribution::read`'s main loop; the fuel mirrors
the `symbol_idx >= MAX_SYMBOLS` guard (each pass advances `symbol_idx` by at
least one, so with fuel 256 the zero-fuel branch is unreachable — it reports
the same `TooManySymbols` the guard would). -/
def readGo (fuel : Nat) (src : BitReader) (symbolIdx : Nat)
    (finalCounts : List Int) (symbolState : List Nat) (hasLowProb : Bool)
    (remaining : Int) :
    Except FseErr (List Int × List Nat × Nat × Bool × Int × BitReader) :=
  if remaining ≤ 0 then .ok (finalCounts, symbolState, symbolIdx, hasLowProb, remaining, src)
  else if symbolIdx ≥ 256 then .error .tooManySymbols
  else match fuel with
  | 0 => .error .tooManySymbols
  | fuel + 1 =>
    let maxVal : Int := remaining + 1
    -- n_bits = 32 - max_val.leading_zeros(), i.e. the bit length of max_val
    let nBits : Nat := log2w maxVal.toNat + 1
    match src.ensureBits nBits with
    | .error e => .error (.ioF e)
    | .ok src =>
      let val : Int := src.peek nBits
      let mask : Int := (2 ^ (nBits - 1) : Nat) - 1
      let threshold : Int := (2 ^ nBits : Nat) - maxVal - 1
      let small : Int := val % ((2 ^ (nBits - 1) : Nat) : Int)
      let (val, src) :=
        if small < threshold then (small, src.consume (nBits - 1))
        else if val > mask then (val - threshold, src.consume nBits)
        else (val, src.consume nBits)
      let prob : Int := val - 1
      let hasLowProb := hasLowProb || val == 0
      let state : Int := if prob = -1 then 1 else prob
      let finalCounts := finalCounts.set symbolIdx prob
      let symbolState := symbolState.set symbolIdx ((state % 65536).toNat)
      let symbolIdx := symbolIdx + 1
      if prob ≠ 0 then
        readGo fuel src symbolIdx finalCounts symbolState hasLowProb (remaining - state)
      else
        match skipZeroProb (src.bitCount + 8 * src.src.length) src symbolIdx with
        | .error e => .error e
        | .ok (symbolIdx, src) =>
          readGo fuel src symbolIdx finalCounts symbolState hasLowProb remaining

/-- `NormalizedDistribution::read::<N>` over a forward bit reader.  `none`
models the `assert!(N.is_power_of_two())` panic. -/
def read (N : Nat) (src : BitReader) :
    Option (Except FseErr (NormalizedDistribution × BitReader)) :=
  if ¬ (N ≠ 0 ∧ N &&& (N - 1) = 0) then none
  else
    -- max_accuracy_log = N.trailing_zeros(), i.e. log2 of the power of two N
    let maxAccuracyLog := log2w N
    some (do
      let (raw, src) ← (src.read 4).mapError FseErr.ioF
      let accuracyLog := 5 + raw
      if accuracyLog > maxAccuracyLog then
        .error (.accuracyLogMismatch maxAccuracyLog accuracyLog)
      else
        let (finalCounts, symbolState, symbolIdx, hasLowProb, remaining, src) ←
          readGo 256 src 0 (List.replicate 256 0) (List.replicate 256 0) false
            ((2 : Int) ^ accuracyLog)
        if remaining ≠ 0 then .error (.sumMismatch remaining)
        else
          .ok ({ finalCounts := finalCounts, symbolState := symbolState,
                 symbolCount := symbolIdx, hasLowProb := hasLowProb,
                 accuracyLog := accuracyLog }, src))

/-- `NormalizedDistribution::from_predefined`. -/
def fromPredefinedGo :
    List Int → Nat → List Int → List Nat → Bool →
    Except FseErr (List Int × List Nat × Nat × Bool)
  | [], idx, fc, ss, low => .ok (fc, ss, idx, low)
  | count :: rest, idx, fc, ss, low =>
    if idx ≥ 256 then .error .tooManySymbols
    else
      let fc := fc.set idx count
      if count = -1 then fromPredefinedGo rest (idx + 1) fc (ss.set idx 1) true
      else fromPredefinedGo rest (idx + 1) fc (ss.set idx ((count % 65536).toNat)) low

def fromPredefined (counts : List Int) (accuracyLog : Nat) :
    Except FseErr NormalizedDistribution :=
  match fromPredefinedGo counts 0 (List.replicate 256 0) (List.replicate 256 0) false with
  | .error e => .error e
  | .ok (fc, ss, symbolCount, low) =>
    .ok { finalCounts := fc, symbolState := ss, symbolCount := symbolCount,
          hasLowProb := low, accuracyLog := accuracyLog }

end NormalizedDistribution

/-- An FSE table entry `{baseline: u16, n_bits: u8, symbol: u8}`. -/
structure FseEntry where
  baseline : Nat
  nBits : Nat
  symbol : Nat
deriving DecidableEq

/-- `rzstd_fse::DecodingTable<N>`: `entries` has the const-generic length `N`;
the live part is the first `1 << accuracy_log` entries. -/
structure FseDecodingTable where
  entries : List FseEntry
  accuracyLog : Nat
deriving DecidableEq

namespace FseDecodingTable

/-- `DecodingTable::rle`. -/
def rle (N : Nat) (symbol : Nat) : FseDecodingTable :=
  { entries := List.replicate N { baseline := 0, nBits := 0, symbol := symbol },
    accuracyLog := 0 }

/-- `DecodingTable::table()`. -/
def table (t : FseDecodingTable) : List FseEntry :=
  t.entries.take (2 ^ t.accuracyLog)

/-- The `while remaining >= 4` unrolled stretch of `spread_weights`. -/
def spreadQuads (e : FseEntry) (step mask : Nat) :
    Nat → List FseEntry → Nat → List FseEntry × Nat × Nat
  | r + 4, table, pos =>
    let table := table.set pos e
    let table := table.set ((pos + step) &&& mask) e
    let table := table.set ((pos + step * 2) &&& mask) e
    let table := table.set ((pos + step * 3) &&& mask) e
    spreadQuads e step mask r table ((pos + step * 4) &&& mask)
  | r, table, pos => (table, pos, r)

/-- The trailing `while remaining > 0` stretch of `spread_weights`. -/
def spreadSingles (e : FseEntry) (step mask : Nat) :
    Nat → List FseEntry → Nat → List FseEntry × Nat
  | 0, table, pos => (table, pos)
  | r + 1, table, pos =>
    spreadSingles e step mask r (table.set pos e) ((pos + step) &&& mask)

/-- All `count` writes for one symbol in `spread_weights`. -/
def spreadOne (e : FseEntry) (step mask : Nat) (count : Nat)
    (table : List FseEntry) (pos : Nat) : List FseEntry × Nat :=
  let (table, pos, r) := spreadQuads e step mask count table pos
  spreadSingles e step mask r table pos

/-- The per-symbol loop of `spread_weights`. -/
def spreadWeightsGo (step mask : Nat) :
    List Int → Nat → List FseEntry → Nat → List FseEntry × Nat
  | [], _, table, pos => (table, pos)
  | c :: rest, sym, table, pos =>
    if c ≤ 0 then spreadWeightsGo step mask rest (sym + 1) table pos
    else
      let e : FseEntry := { baseline := 0, nBits := 0xFF, symbol := sym % 256 }
      let (table, pos) := spreadOne e step mask c.toNat table pos
      spreadWeightsGo step mask rest (sym + 1) table pos

/-- `DecodingTable::spread_weights` (fast path, no low-probability symbol). -/
def spreadWeights (dist : NormalizedDistribution) (table : List FseEntry) :
    Except FseErr (List FseEntry) :=
  let n := table.length
  let step := (n >>> 1) + (n >>> 3) + 3
  let mask := n - 1
  let (table, pos) :=
    spreadWeightsGo step mask (dist.finalCounts.take dist.symbolCount) 0 table 0
  if pos ≠ 0 then .error (.fastSpreadAlignmentError pos) else .ok table

/-- First loop of `spread_symbols_low_prob`: give each `-1` symbol the highest
unused slot. -/
def lowProbTop : List Int → Nat → Nat → List FseEntry → Nat × List FseEntry
  | [], _, ht, table => (ht, table)
  | c :: rest, sym, ht, table =>
    if c = -1 then
      let ht := ht - 1
      lowProbTop rest (sym + 1) ht
        (table.set ht { baseline := 0, nBits := 0xFF, symbol := sym % 256 })
    else lowProbTop rest (sym + 1) ht table

/-- The `while pos >= high_threshold` skip loop; `none` models its
non-termination (unreachable whenever some slot lies below `ht`). -/
def skipWhile (step mask ht : Nat) : Nat → Nat → Option Nat
  | 0, _ => none
  | fuel + 1, pos =>
    if pos ≥ ht then skipWhile step mask ht fuel ((pos + step) &&& mask)
    else some pos

/-- The `count` writes for one positive symbol in the low-probability path. -/
def lowSpreadCount (step mask ht : Nat) (e : FseEntry) (fuel : Nat) :
    Nat → List FseEntry → Nat → Option (List FseEntry × Nat)
  | 0, table, pos => some (table, pos)
  | c + 1, table, pos =>
    let table := table.set pos e
    match skipWhile step mask ht fuel ((pos + step) &&& mask) with
    | none => none
    | some pos => lowSpreadCount step mask ht e fuel c table pos

/-- The per-symbol loop of `spread_symbols_low_prob`. -/
def lowSpreadGo (step mask ht fuel : Nat) :
    List Int → Nat → List FseEntry → Nat → Option (List FseEntry × Nat)
  | [], _, table, pos => some (table, pos)
  | c :: rest, sym, table, pos =>
    if c ≤ 0 then lowSpreadGo step mask ht fuel rest (sym + 1) table pos
    else
      match lowSpreadCount step mask ht
          { baseline := 0, nBits := 0xFF, symbol := sym % 256 } fuel c.toNat table pos with
      | none => none
      | some (table, pos) => lowSpreadGo step mask ht fuel rest (sym + 1) table pos

/-- `DecodingTable::spread_symbols_low_prob`. -/
def spreadSymbolsLowProb (dist : NormalizedDistribution) (table : List FseEntry) :
    Option (Except FseErr (List FseEntry)) :=
  let n := table.length
  let step := (n >>> 1) + (n >>> 3) + 3
  let mask := n - 1
  let (ht, table) := lowProbTop (dist.finalCounts.take dist.symbolCount) 0 n table
  match lowSpreadGo step mask ht n (dist.finalCounts.take dist.symbolCount) 0 table 0 with
  | none => none
  | some (table, pos) =>
    if ht = n ∧ pos ≠ 0 then some (.error (.fastSpreadAlignmentError pos))
    else some (.ok table)

/-- `u16::leading_zeros`. -/
def clz16 (x : Nat) : Nat :=
  if x = 0 then 16 else 16 - (log2w x + 1)

/-- Body of `finalize_table` over a single entry list; `n` is the full table
length (`table.len() as u16`). -/
def finalizeGo (accuracyLog n : Nat) :
    List FseEntry → List Nat → Except FseErr (List FseEntry × List Nat)
  | [], states => .ok ([], states)
  | e :: rest, states =>
    if e.nBits = 0 then .error .tableUnderfilled
    else
      let state := states.getD e.symbol 0
      if state = 0 then .error .invalidState
      else
        let states := states.set e.symbol ((state + 1) % 2 ^ 16)
        let nBits := accuracyLog + clz16 state - 15
        -- (state << n_bits).wrapping_sub(n as u16)
        let baseline := ((state <<< nBits) % 2 ^ 16 + (2 ^ 16 - n % 2 ^ 16)) % 2 ^ 16
        match finalizeGo accuracyLog n rest states with
        | .error err => .error err
        | .ok (rest, states) =>
          .ok ({ baseline := baseline, nBits := nBits, symbol := e.symbol } :: rest, states)

/-- `DecodingTable::finalize_table`.  `chunks_exact_mut(4).flatten()` visits
only the first `4 * (len / 4)` entries; the remainder is untouched. -/
def finalizeTable (accuracyLog : Nat) (table : List FseEntry) (states : List Nat) :
    Except FseErr (List FseEntry × List Nat) :=
  let n := table.length
  let m := n / 4 * 4
  match finalizeGo accuracyLog n (table.take m) states with
  | .error e => .error e
  | .ok (done, states) => .ok (done ++ table.drop m, states)

/-- `DecodingTable::from_distribution::<N>`.  `none` models the
`assert!(N.is_power_of_two())` panic and the `entries[..1 << accuracy_log]`
slice panic when `1 << accuracy_log > N`. -/
def fromDistribution (N : Nat) (dist : NormalizedDistribution) :
    Option (Except FseErr FseDecodingTable) :=
  if ¬ (N ≠ 0 ∧ N &&& (N - 1) = 0) then none
  else
    let accuracyLog := dist.accuracyLog
    if ¬ (5 ≤ accuracyLog ∧ accuracyLog ≤ 15) then
      some (.error (.invalidAccuracyLog accuracyLog))
    else if 2 ^ accuracyLog > N then none
    else
      let entries :=
        List.replicate N ({ baseline := 0, nBits := 0, symbol := 0 } : FseEntry)
      let tbl := entries.take (2 ^ accuracyLog)
      let spreadRes : Option (Except FseErr (List FseEntry)) :=
        if ¬ dist.hasLowProb then some (spreadWeights dist tbl)
        else spreadSymbolsLowProb dist tbl
      match spreadRes with
      | none => none
      | some (.error e) => some (.error e)
      | some (.ok tbl) =>
        match finalizeTable accuracyLog tbl dist.symbolState with
        | .error e => some (.error e)
        | .ok (tbl, _) =>
          some (.ok { entries := tbl ++ entries.drop (2 ^ accuracyLog),
                      accuracyLog := accuracyLog })

/-- `DecodingTable::read::<N>` (parse a distribution, bound the consumed
bytes by `count`, then build the table). -/
def readTable (N : Nat) (r : BitReader) (count : Nat) :
    Option (Except FseErr (FseDecodingTable × BitReader)) :=
  match NormalizedDistribution.read N r with
  | none => none
  | some (.error e) => some (.error e)
  | some (.ok (dist, r)) =>
    if r.bytesConsumed > count then some (.error .corruption)
    else
      match fromDistribution N dist with
      | none => none
      | some (.error e) => some (.error e)
      | some (.ok t) => some (.ok (t, r))

end FseDecodingTable

/-- `rzstd_fse::Decoder`: a 16-bit state into a decoding table. -/
structure FseDecoder where
  state : Nat
deriving DecidableEq

namespace FseDecoder

/-- `Decoder::new`: read `accuracy_log` bits from the reverse stream. -/
def new (t : FseDecodingTable) (src : ReverseBitReader) :
    Option (Except FseErr (FseDecoder × ReverseBitReader)) :=
  match src.read t.accuracyLog with
  | none => none
  | some (.error e) => some (.error (.ioR e))
  | some (.ok (v, src)) => some (.ok ({ state := v % 2 ^ 16 }, src))

/-- `Decoder::peek`: `table.entries[state].symbol`. -/
def peekSym (t : FseDecodingTable) (d : FseDecoder) : Nat :=
  (t.entries.getD d.state { baseline := 0, nBits := 0, symbol := 0 }).symbol

/-- `Decoder::update`: read `entry.n_bits` and move to `baseline + bits`. -/
def update (t : FseDecodingTable) (d : FseDecoder) (src : ReverseBitReader) :
    Option (Except FseErr (FseDecoder × ReverseBitReader)) :=
  let entry := t.entries.getD d.state { baseline := 0, nBits := 0, symbol := 0 }
  match src.read entry.nBits with
  | none => none
  | some (.error e) => some (.error (.ioR e))
  | some (.ok (bits, src)) =>
    some (.ok ({ state := (entry.baseline + bits) % 2 ^ 16 }, src))

/-- `Decoder::bits_required`. -/
def bitsRequired (t : FseDecodingTable) (d : FseDecoder) : Nat :=
  (t.entries.getD d.state { baseline := 0, nBits := 0, symbol := 0 }).nBits

end FseDecoder

/-! ## rzstd_huff0 -/

/-- `rzstd_huff0::Error` (with `TableUnderflow` as written in `decode.rs`). -/
inductive HuffErr where
  | ioR (e : RevErr)
  | ioF (e : FwdErr)
  | fse (e : FseErr)
  | corruption
  | weightTooLarge (w maxBits : Nat)
  | zeroWeightSum
  | invalidInferredWeight (remainder : Nat)
  | tableUnderflow
deriving DecidableEq

/-- A Huff0 table entry `{symbol: u8, n_bits: u8}`. -/
structure HuffEntry where
  symbol : Nat
  nBits : Nat
deriving DecidableEq

/-- `rzstd_huff0::DecodingTable<N>` (default `N = TABLE_SIZE = 1 << 11`). -/
structure HuffDecodingTable where
  entries : List HuffEntry
  nEntries : Nat
  maxBits : Nat
deriving DecidableEq

namespace HuffDecodingTable

/-- `MAX_BITS` of `rzstd_huff0::decode`. -/
def MAX_BITS : Nat := 11

/-- `TABLE_SIZE = 1 << MAX_BITS`. -/
def TABLE_SIZE : Nat := 2 ^ MAX_BITS

/-- First loop of `from_weights`: accumulate `sum`, `max_w` and the
`bit_rank` histogram (a 12-entry array).  `none` models the panic on
`bit_rank[w]` for `w >= 12` (and subsumes the `1 << (w - 1)` shift-overflow
panic for `w >= 33`, which can only occur after the index panic anyway). -/
def weightStats : List Nat → Nat → Nat → List Nat → Option (Nat × Nat × List Nat)
  | [], sum, maxW, bitRank => some (sum, maxW, bitRank)
  | w :: rest, sum, maxW, bitRank =>
    if w = 0 then weightStats rest sum maxW bitRank
    else if w ≥ 12 then none
    else
      weightStats rest (sum + 2 ^ (w - 1)) (max maxW w)
        (bitRank.set w (bitRank.getD w 0 + 1))

/-- The `for w in 1..=max_bits` loop building `next_code` (12-entry array);
`none` models the `next_code[w]` panic for `w >= 12`. -/
def nextCodeGo (bitRank : List Nat) : Nat → Nat → List Nat → Nat →
    Option (List Nat × Nat)
  | 0, _, nextCode, curr => some (nextCode, curr)
  | k + 1, w, nextCode, curr =>
    if w ≥ 12 then none
    else
      nextCodeGo bitRank k (w + 1) (nextCode.set w curr)
        (curr + bitRank.getD w 0 * 2 ^ (w - 1))

/-- Write `count` consecutive entries starting at `start`. -/
def writeSlots : List HuffEntry → Nat → Nat → HuffEntry → List HuffEntry
  | entries, _, 0, _ => entries
  | entries, start, k + 1, e => writeSlots (entries.set start e) (start + 1) k e

/-- The canonical-assignment loop of `from_weights` over
`weights.iter().chain(once(&inferred_weight)).enumerate()`.  `none` models the
`entries[idx]` panic when a slot index reaches past the `N`-entry array. -/
def assignGo (maxBits : Nat) :
    List Nat → Nat → List Nat → List HuffEntry → Option (List Nat × List HuffEntry)
  | [], _, nextCode, entries => some (nextCode, entries)
  | w :: rest, sym, nextCode, entries =>
    if w = 0 then assignGo maxBits rest (sym + 1) nextCode entries
    else if w ≥ 12 then none
    else
      let codeStart := nextCode.getD w 0
      let nBits := maxBits - (w - 1)
      let numSlots := 2 ^ (w - 1)
      if codeStart + numSlots > entries.length then none
      else
        let entries := writeSlots entries codeStart numSlots
          { symbol := sym % 256, nBits := nBits }
        assignGo maxBits rest (sym + 1) (nextCode.set w (codeStart + numSlots)) entries

/-- `DecodingTable::from_weights::<N>`.  `none` models a panic. -/
def fromWeights (N : Nat) (weights : List Nat) :
    Option (Except HuffErr HuffDecodingTable) :=
  match weightStats weights 0 0 (List.replicate 12 0) with
  | none => none
  | some (sum, _, bitRank) =>
    if sum = 0 then some (.error .zeroWeightSum)
    else
      let maxBits := log2w sum + 1
      let target := 2 ^ maxBits
      let remainder := target - sum
      if remainder = 0 ∨ ¬ (remainder ≠ 0 ∧ remainder &&& (remainder - 1) = 0) then
        some (.error (.invalidInferredWeight remainder))
      else
        let inferredWeight := log2w remainder + 1
        if inferredWeight ≥ 12 then none
        else
          let bitRank := bitRank.set inferredWeight (bitRank.getD inferredWeight 0 + 1)
          match nextCodeGo bitRank maxBits 1 (List.replicate 12 0) 0 with
          | none => none
          | some (nextCode, curr) =>
            if curr ≠ target then some (.error .tableUnderflow)
            else
              let entries :=
                List.replicate N ({ symbol := 0, nBits := 0 } : HuffEntry)
              match assignGo maxBits (weights ++ [inferredWeight]) 0 nextCode entries with
              | none => none
              | some (_, entries) =>
                some (.ok { entries := entries, nEntries := target, maxBits := maxBits })

/-- `entries()`: the logical `n_entries`-long prefix. -/
def entriesView (t : HuffDecodingTable) : List HuffEntry :=
  t.entries.take t.nEntries

end HuffDecodingTable

/-- `rzstd_huff0::Decoder`: a `max_bits`-wide state. -/
structure HuffDecoder where
  state : Nat
deriving DecidableEq

namespace HuffDecoder

/-- `Decoder::new`: `read_padded(max_bits)` for the initial state. -/
def new (t : HuffDecodingTable) (r : ReverseBitReader) :
    Option (HuffDecoder × ReverseBitReader) :=
  match r.readPadded t.maxBits with
  | none => none
  | some (v, r) => some ({ state := v }, r)

/-- `Decoder::decode`: look up the entry at `state`, `read_padded` its
`n_bits`, shift them into the state modulo the table size. -/
def decode (t : HuffDecodingTable) (d : HuffDecoder) (r : ReverseBitReader) :
    Option (Nat × HuffDecoder × ReverseBitReader) :=
  let e := t.entries.getD d.state { symbol := 0, nBits := 0 }
  match r.readPadded e.nBits with
  | none => none
  | some (newBits, r) =>
    let state := (d.state <<< e.nBits) &&& (t.nEntries - 1)
    some (e.symbol, { state := state ||| newBits }, r)

end HuffDecoder

/-! ## rzstd_decompress: constants, errors, window -/

/-- `MAX_BLOCK_SIZE = 128 * 1024`. -/
def MAX_BLOCK_SIZE : Nat := 128 * 1024

/-- `CHUNK = 64 * 1024` (decoder flush threshold). -/
def CHUNK : Nat := 64 * 1024

/-- `MAGIC_NUM`. -/
def MAGIC_NUM : Nat := 0xFD2FB528

/-- `rzstd_decompress::Error` (the variants used by the embedded code). -/
inductive DErr where
  | copiedSizeOutOfBounds
  | zeroOffset
  | extraBitsInStream (n : Nat)
  | jumpTableError
  | literalsBufferTooSmall
  | missingHuffTable
  | checksumMismatch
  | invalidMagicNum (m : Nat)
  | reservedBitSet
  | missingTableForRepeat
  | emptyRLESource
  | missingSeqTable
  | missingModes
  | ioR (e : RevErr)
  | ioF (e : FwdErr)
  | fse (e : FseErr)
  | huff (e : HuffErr)
deriving DecidableEq

/-- `slice::copy_within(src..src+len, dst)`: a memmove through a temporary
(indices beyond the list clamp; all theorem instances are in-bounds). -/
def listCopyWithin (l : List Nat) (src len dst : Nat) : List Nat :=
  l.take dst ++ (l.drop src).take len ++ l.drop (dst + len)

/-- `slice::fill` on `l[start..start+len]`. -/
def listFill (l : List Nat) (start len : Nat) (val : Nat) : List Nat :=
  l.take start ++ List.replicate len val ++ l.drop (start + len)

/-- `rzstd_decompress::window::Window`. -/
structure Window where
  buf : List Nat
  size : Nat
  index : Nat
deriving DecidableEq

namespace Window

/-- `Window::shift`: keep the trailing `size` bytes. -/
def shift (w : Window) : Window :=
  if w.index ≤ w.size then w
  else
    { w with buf := listCopyWithin w.buf (w.index - w.size) w.size 0
             index := w.size }

/-- The power-of-two expansion loop of `copy_within`
(`while copied < n_bytes`).  When `copy_len = 0` the Rust loop would never
terminate; that situation is unreachable (the branch has `copied >= 2`).
The fuel only bounds the iteration count; `copied` grows by at least one per
pass, so fuel `n` (as supplied by `expandLoop`) never runs out. -/
def expandLoopGo : Nat → List Nat → Nat → Nat → Nat → List Nat
  | 0, buf, _, _, _ => buf
  | fuel + 1, buf, index, n, copied =>
    if copied < n then
      let copyLen := min copied (n - copied)
      if copyLen = 0 then buf
      else
        expandLoopGo fuel (listCopyWithin buf index copyLen (index + copied))
          index n (copied + copyLen)
    else buf

def expandLoop (buf : List Nat) (index n copied : Nat) : List Nat :=
  expandLoopGo n buf index n copied

/-- `Window::copy_within`. -/
def copyWithin (w : Window) (offset nBytes : Nat) : Except DErr Window :=
  let w := if w.index + nBytes > w.buf.length then w.shift else w
  let available := min w.index w.size
  if offset = 0 ∨ offset > available then .error .copiedSizeOutOfBounds
  else
    let start := w.index - offset
    if offset ≥ nBytes then
      .ok { w with buf := listCopyWithin w.buf start nBytes w.index
                   index := w.index + nBytes }
    else if offset = 1 then
      let val := w.buf.getD start 0
      .ok { w with buf := listFill w.buf w.index nBytes val
                   index := w.index + nBytes }
    else
      let initialCopy := min offset nBytes
      let buf := listCopyWithin w.buf start initialCopy w.index
      .ok { w with buf := expandLoop buf w.index nBytes initialCopy
                   index := w.index + nBytes }

end Window

/-! ## rzstd_decompress: sequence execution (offset history) -/

/-- `update_offset_hist`: resolve an offset code against the history
`(h0, h1, h2)` and rotate it.  `usize` subtraction wraps modulo `2^64`
(release semantics; a debug build would panic instead of producing the
wrapped value). -/
def updateOffsetHist (h0 h1 h2 : Nat) (offset : Nat) (litLen : Nat) :
    Except DErr (Nat × (Nat × Nat × Nat)) :=
  let nextOffset :=
    if litLen > 0 then
      if 1 ≤ offset ∧ offset ≤ 3 then
        if offset = 1 then h0 else if offset = 2 then h1 else h2
      else (offset + 2 ^ 64 - 3) % 2 ^ 64
    else
      if 1 ≤ offset ∧ offset ≤ 2 then
        (if offset = 1 then h1 else h2)
      else if offset = 3 then (h0 + 2 ^ 64 - 1) % 2 ^ 64
      else (offset + 2 ^ 64 - 3) % 2 ^ 64
  let hist :=
    if litLen > 0 then
      if offset = 1 then (h0, h1, h2)
      else if offset = 2 then (nextOffset, h0, h2)
      else (nextOffset, h0, h1)
    else
      if offset = 1 then (nextOffset, h0, h2)
      else (nextOffset, h0, h1)
  .ok (nextOffset, hist)

/-! ## rzstd_decompress: sequences section -/

/-- A decoded `(lit_len, offset, match_len)` triple. -/
structure Sequence where
  litLen : Nat
  offset : Nat
  matchLen : Nat
deriving DecidableEq

/-- `LL_TABLE`: RFC baseline / extra-bit pairs for literal-length codes. -/
def LL_TABLE : List (Nat × Nat) :=
  [(0,0),(1,0),(2,0),(3,0),(4,0),(5,0),(6,0),(7,0),(8,0),(9,0),(10,0),(11,0),
   (12,0),(13,0),(14,0),(15,0),(16,1),(18,1),(20,1),(22,1),(24,2),(28,2),
   (32,3),(40,3),(48,4),(64,6),(128,7),(256,8),(512,9),(1024,10),(2048,11),
   (4096,12),(8192,13),(16384,14),(32768,15),(65536,16)]

/-- `ML_TABLE`: RFC baseline / extra-bit pairs for match-length codes. -/
def ML_TABLE : List (Nat × Nat) :=
  [(3,0),(4,0),(5,0),(6,0),(7,0),(8,0),(9,0),(10,0),(11,0),(12,0),(13,0),
   (14,0),(15,0),(16,0),(17,0),(18,0),(19,0),(20,0),(21,0),(22,0),(23,0),
   (24,0),(25,0),(26,0),(27,0),(28,0),(29,0),(30,0),(31,0),(32,0),(33,0),
   (34,0),(35,1),(37,1),(39,1),(41,1),(43,2),(47,2),(51,3),(59,3),(67,4),
   (83,4),(99,5),(131,7),(259,8),(515,9),(1027,10),(2051,11),(4099,12),
   (8195,13),(16387,14),(32771,15),(65539,16)]

/-- `decode_ll`: `LL_TABLE[code & 63]` (an index past the 36 entries would
panic in Rust; modelled by `none`). -/
def decodeLl (code : Nat) (r : ReverseBitReader) :
    Option (Except DErr (Nat × ReverseBitReader)) :=
  if code &&& 63 ≥ LL_TABLE.length then none
  else
    let (baseline, nBits) := LL_TABLE.getD (code &&& 63) (0, 0)
    if nBits = 0 then some (.ok (baseline, r))
    else
      match r.read nBits with
      | none => none
      | some (.error e) => some (.error (.ioR e))
      | some (.ok (v, r)) => some (.ok (baseline + v, r))

/-- `decode_ml`: `ML_TABLE[code & 63]`. -/
def decodeMl (code : Nat) (r : ReverseBitReader) :
    Option (Except DErr (Nat × ReverseBitReader)) :=
  if code &&& 63 ≥ ML_TABLE.length then none
  else
    let (baseline, nBits) := ML_TABLE.getD (code &&& 63) (0, 0)
    if nBits = 0 then some (.ok (baseline, r))
    else
      match r.read nBits with
      | none => none
      | some (.error e) => some (.error (.ioR e))
      | some (.ok (v, r)) => some (.ok (baseline + v, r))

/-- `decode_of`: read `code` extra bits, `(1 << (code & 0x1F)) + extra`. -/
def decodeOf (code : Nat) (r : ReverseBitReader) :
    Option (Except DErr (Nat × ReverseBitReader)) :=
  match r.read code with
  | none => none
  | some (.error e) => some (.error (.ioR e))
  | some (.ok (extra, r)) =>
    some (.ok ((2 ^ (code &&& 0x1F) + extra) % 2 ^ 32, r))

/-- Instrumentation event for the sequence-decoding loop: which decoder is
refreshed, and when a triple is emitted. -/
inductive SeqEvent where
  | updateLL
  | updateML
  | updateOF
  | emit
deriving DecidableEq

/-- Decode one triple from the already-peeked symbols, in source order
OF, ML, LL. -/
def decodeTriple (ll of ml : Nat) (r : ReverseBitReader) :
    Option (Except DErr (Sequence × ReverseBitReader)) :=
  match decodeOf of r with
  | none => none
  | some (.error e) => some (.error e)
  | some (.ok (offset, r)) =>
    match decodeMl ml r with
    | none => none
    | some (.error e) => some (.error e)
    | some (.ok (matchLen, r)) =>
      match decodeLl ll r with
      | none => none
      | some (.error e) => some (.error e)
      | some (.ok (litLen, r)) =>
        some (.ok ({ litLen := litLen, offset := offset, matchLen := matchLen }, r))

/-- The `for _ in 1..n_seqs` loop of `Context::sequence_section`:
refresh LL, then ML, then OF, re-peek, decode the next triple, emit.
The returned event list records the call order. -/
def sequenceLoopGo (llT ofT mlT : FseDecodingTable) :
    Nat → FseDecoder → FseDecoder → FseDecoder → ReverseBitReader →
    List Sequence → List SeqEvent →
    Option (Except DErr (List Sequence × ReverseBitReader × List SeqEvent))
  | 0, _, _, _, r, seqs, evs => some (.ok (seqs, r, evs))
  | k + 1, llDec, ofDec, mlDec, r, seqs, evs =>
    match FseDecoder.update llT llDec r with
    | none => none
    | some (.error e) => some (.error (.fse e))
    | some (.ok (llDec, r)) =>
      let evs := evs ++ [SeqEvent.updateLL]
      match FseDecoder.update mlT mlDec r with
      | none => none
      | some (.error e) => some (.error (.fse e))
      | some (.ok (mlDec, r)) =>
        let evs := evs ++ [SeqEvent.updateML]
        match FseDecoder.update ofT ofDec r with
        | none => none
        | some (.error e) => some (.error (.fse e))
        | some (.ok (ofDec, r)) =>
          let evs := evs ++ [SeqEvent.updateOF]
          let ll := FseDecoder.peekSym llT llDec
          let of := FseDecoder.peekSym ofT ofDec
          let ml := FseDecoder.peekSym mlT mlDec
          match decodeTriple ll of ml r with
          | none => none
          | some (.error e) => some (.error e)
          | some (.ok (seq, r)) =>
            sequenceLoopGo llT ofT mlT k llDec ofDec mlDec r
              (seqs ++ [seq]) (evs ++ [SeqEvent.emit])

/-- The sequence-decoding stretch of `Context::sequence_section` (from
decoder initialization in order LL, OF, ML through the per-sequence loop),
instrumented with the order of decoder refreshes and emissions. -/
def sequenceLoop (llT ofT mlT : FseDecodingTable) (r : ReverseBitReader)
    (nSeqs : Nat) :
    Option (Except DErr (List Sequence × ReverseBitReader × List SeqEvent)) :=
  match FseDecoder.new llT r with
  | none => none
  | some (.error e) => some (.error (.fse e))
  | some (.ok (llDec, r)) =>
    match FseDecoder.new ofT r with
    | none => none
    | some (.error e) => some (.error (.fse e))
    | some (.ok (ofDec, r)) =>
      match FseDecoder.new mlT r with
      | none => none
      | some (.error e) => some (.error (.fse e))
      | some (.ok (mlDec, r)) =>
        let ll := FseDecoder.peekSym llT llDec
        let of := FseDecoder.peekSym ofT ofDec
        let ml := FseDecoder.peekSym mlT mlDec
        match decodeTriple ll of ml r with
        | none => none
        | some (.error e) => some (.error e)
        | some (.ok (seq, r)) =>
          sequenceLoopGo llT ofT mlT (nSeqs - 1) llDec ofDec mlDec r
            [seq] [SeqEvent.emit]

/-! ## rzstd_decompress: default distributions (lib.rs) and table update -/

/-- `DefaultDistribution` of `rzstd_decompress::lib`: note the separate
`accuracy_log` field and `accuracy_log()` method. -/
structure DefaultDistribution where
  accuracyLogField : Nat
  predefinedAccuracyLog : Nat
  predefinedTable : List Int
deriving DecidableEq

namespace DefaultDistribution

/-- The `accuracy_log()` method — it returns `predefined_accuracy_log`,
not the `accuracy_log` field. -/
def accuracyLogMethod (d : DefaultDistribution) : Nat :=
  d.predefinedAccuracyLog

/-- `table_size() = 1 << self.accuracy_log` — `self.accuracy_log` is field
access (the `accuracy_log` field, 9/9/8), not the `accuracy_log()` method. -/
def tableSize (d : DefaultDistribution) : Nat :=
  2 ^ d.accuracyLogField

end DefaultDistribution

/-- `LL_DIST`. -/
def LL_DIST : DefaultDistribution :=
  { accuracyLogField := 9, predefinedAccuracyLog := 6
    predefinedTable :=
      [4,3,2,2,2,2,2,2,2,2,2,2,2,1,1,1,2,2,2,2,2,2,2,2,2,3,2,
       1,1,1,1,1,-1,-1,-1,-1] }

/-- `ML_DIST`. -/
def ML_DIST : DefaultDistribution :=
  { accuracyLogField := 9, predefinedAccuracyLog := 6
    predefinedTable :=
      [1,4,3,2,2,2,2,2,2,1,1,1,1,1,1,1,1,1,1,1,1,1,1,1,1,1,1,
       1,1,1,1,1,1,1,1,1,1,1,1,1,1,1,1,1,1,1,-1,-1,-1,-1,-1,-1,-1] }

/-- `OF_DIST`. -/
def OF_DIST : DefaultDistribution :=
  { accuracyLogField := 8, predefinedAccuracyLog := 5
    predefinedTable :=
      [1,1,1,1,1,1,2,2,2,1,1,1,1,1,1,1,1,1,1,1,1,1,1,1,-1,-1,-1,-1,-1] }

/-- The per-table mode of the sequences-section `compression_modes` byte. -/
inductive SeqMode where
  | predefined
  | rleMode
  | fseCompressed
  | repeatMode
deriving DecidableEq

/-- `update_table::<N>` of `sequences_section.rs`: returns the new optional
table and the number of source bytes consumed. -/
def updateTable (N : Nat) (mode : SeqMode) (dist : DefaultDistribution)
    (src : List Nat) (curr : Option FseDecodingTable) :
    Option (Except DErr (Option FseDecodingTable × Nat)) :=
  match mode with
  | .repeatMode =>
    if curr.isNone then some (.error .missingTableForRepeat)
    else some (.ok (curr, 0))
  | .predefined =>
    match NormalizedDistribution.fromPredefined dist.predefinedTable
        dist.accuracyLogMethod with
    | .error e => some (.error (.fse e))
    | .ok norm =>
      match FseDecodingTable.fromDistribution N norm with
      | none => none
      | some (.error e) => some (.error (.fse e))
      | some (.ok t) => some (.ok (some t, 0))
  | .rleMode =>
    match src.head? with
    | none => some (.error .emptyRLESource)
    | some sym => some (.ok (some (FseDecodingTable.rle N sym), 1))
  | .fseCompressed =>
    match BitReader.new src with
    | .error e => some (.error (.ioF e))
    | .ok br =>
      match FseDecodingTable.readTable N br dist.tableSize with
      | none => none
      | some (.error e) => some (.error (.fse e))
      | some (.ok (t, br)) => some (.ok (some t, br.bytesConsumed))

/-! ## rzstd_decompress: literals section, 4-stream Huff0 decoding -/

/-- Decode `k` symbols from one stream (one decoder over its own reader). -/
def decodeRun (t : HuffDecodingTable) :
    Nat → HuffDecoder → ReverseBitReader →
    Option (List Nat × HuffDecoder × ReverseBitReader)
  | 0, d, r => some ([], d, r)
  | k + 1, d, r =>
    match HuffDecoder.decode t d r with
    | none => none
    | some (sym, d, r) =>
      match decodeRun t k d r with
      | none => none
      | some (syms, d, r) => some (sym :: syms, d, r)

/-- The four-wide burst loop of `huff_streams` (`for i in 0..burst_len`),
decoding one symbol per stream per pass. -/
def burst4 (t : HuffDecodingTable) :
    Nat →
    HuffDecoder × ReverseBitReader → HuffDecoder × ReverseBitReader →
    HuffDecoder × ReverseBitReader → HuffDecoder × ReverseBitReader →
    Option ((List Nat × List Nat × List Nat × List Nat) ×
      (HuffDecoder × ReverseBitReader) × (HuffDecoder × ReverseBitReader) ×
      (HuffDecoder × ReverseBitReader) × (HuffDecoder × ReverseBitReader))
  | 0, s0, s1, s2, s3 => some (([], [], [], []), s0, s1, s2, s3)
  | k + 1, (d0, r0), (d1, r1), (d2, r2), (d3, r3) =>
    match HuffDecoder.decode t d0 r0 with
    | none => none
    | some (x0, d0, r0) =>
      match HuffDecoder.decode t d1 r1 with
      | none => none
      | some (x1, d1, r1) =>
        match HuffDecoder.decode t d2 r2 with
        | none => none
        | some (x2, d2, r2) =>
          match HuffDecoder.decode t d3 r3 with
          | none => none
          | some (x3, d3, r3) =>
            match burst4 t k (d0, r0) (d1, r1) (d2, r2) (d3, r3) with
            | none => none
            | some ((l0, l1, l2, l3), s0, s1, s2, s3) =>
              some ((x0 :: l0, x1 :: l1, x2 :: l2, x3 :: l3), s0, s1, s2, s3)

/-- The three-wide tail loop of `huff_streams`
(`for i in burst_len..chunk`), decoding streams 0-2 only. -/
def burst3 (t : HuffDecodingTable) :
    Nat →
    HuffDecoder × ReverseBitReader → HuffDecoder × ReverseBitReader →
    HuffDecoder × ReverseBitReader →
    Option ((List Nat × List Nat × List Nat) ×
      (HuffDecoder × ReverseBitReader) × (HuffDecoder × ReverseBitReader) ×
      (HuffDecoder × ReverseBitReader))
  | 0, s0, s1, s2 => some (([], [], []), s0, s1, s2)
  | k + 1, (d0, r0), (d1, r1), (d2, r2) =>
    match HuffDecoder.decode t d0 r0 with
    | none => none
    | some (x0, d0, r0) =>
      match HuffDecoder.decode t d1 r1 with
      | none => none
      | some (x1, d1, r1) =>
        match HuffDecoder.decode t d2 r2 with
        | none => none
        | some (x2, d2, r2) =>
          match burst3 t k (d0, r0) (d1, r1) (d2, r2) with
          | none => none
          | some ((l0, l1, l2), s0, s1, s2) =>
            some ((x0 :: l0, x1 :: l1, x2 :: l2), s0, s1, s2)

/-- The `Streams::Four` arm of `Context::huff_streams`: parse the jump
table, open the four reverse readers, split the output into
`chunk = ceil(regen / 4)` sized parts, run the burst loops, and require all
four readers to end empty.  `dstLen` is the regenerated size;
`usize` subtraction wraps modulo `2^64` (release semantics; debug panics). -/
def huffStreams4 (src : List Nat) (dstLen : Nat) (t : HuffDecodingTable) :
    Option (Except DErr (List Nat)) :=
  if src.length < 6 then some (.error .jumpTableError)
  else
    let s0 := src.getD 0 0 + (src.getD 1 0) <<< 8
    let s1 := s0 + src.getD 2 0 + (src.getD 3 0) <<< 8
    let s2 := s1 + src.getD 4 0 + (src.getD 5 0) <<< 8
    if s2 > src.length then some (.error .jumpTableError)
    else
      let src := src.drop 6
      -- the slices &src[..s0], &src[s0..s1], &src[s1..s2], &src[s2..]
      -- panic when s2 exceeds the remaining length
      if s2 > src.length then none
      else
        match ReverseBitReader.new (src.take s0) with
        | .error e => some (.error (.ioR e))
        | .ok r0 =>
        match ReverseBitReader.new ((src.drop s0).take (s1 - s0)) with
        | .error e => some (.error (.ioR e))
        | .ok r1 =>
        match ReverseBitReader.new ((src.drop s1).take (s2 - s1)) with
        | .error e => some (.error (.ioR e))
        | .ok r2 =>
        match ReverseBitReader.new (src.drop s2) with
        | .error e => some (.error (.ioR e))
        | .ok r3 =>
          let chunk := (dstLen + 3) / 4
          let lastChunkSize := (dstLen + 2 ^ 64 - chunk * 3) % 2 ^ 64
          if dstLen < 3 * chunk then some (.error .literalsBufferTooSmall)
          else
            match HuffDecoder.new t r0 with
            | none => none
            | some s0 =>
            match HuffDecoder.new t r1 with
            | none => none
            | some s1 =>
            match HuffDecoder.new t r2 with
            | none => none
            | some s2 =>
            match HuffDecoder.new t r3 with
            | none => none
            | some s3 =>
              let burstLen := min chunk lastChunkSize
              match burst4 t burstLen s0 s1 s2 s3 with
              | none => none
              | some ((o0, o1, o2, o3), s0, s1, s2, s3) =>
                match burst3 t (chunk - burstLen) s0 s1 s2 with
                | none => none
                | some ((p0, p1, p2), (_, r0), (_, r1), (_, r2)) =>
                  let (_, r3) := s3
                  if r0.bitsRemaining > 0 then
                    some (.error (.extraBitsInStream r0.bitsRemaining))
                  else if r1.bitsRemaining > 0 then
                    some (.error (.extraBitsInStream r1.bitsRemaining))
                  else if r2.bitsRemaining > 0 then
                    some (.error (.extraBitsInStream r2.bitsRemaining))
                  else if r3.bitsRemaining > 0 then
                    some (.error (.extraBitsInStream r3.bitsRemaining))
                  else
                    some (.ok ((o0 ++ p0) ++ (o1 ++ p1) ++ (o2 ++ p2) ++ o3))

/-! ## rzstd_decompress: decoder (frame loop and checksum wiring)

`ctx.block()` and the frame-header parse are abstracted: a `FrameModel`
carries, per block, the window's `as_slice()` snapshot after the block
(exactly what `decode_frame` reads from the context), the frame's checksum
flag and the frame's stored trailing 32-bit word.

Modelled from the spec: the checksum (`xxhash_rust::Xxh64`, an external
crate) is an opaque 32-bit rolling hash with `update(bytes)` / `digest()`;
its state is the list of bytes fed so far and `digest` is an arbitrary
function of that list, truncated to 32 bits at use. -/

structure FrameModel where
  hasChecksum : Bool
  snapshots : List (List Nat)
  storedChecksum : Nat
deriving DecidableEq

/-- The block/flush loop of `decode_frame`: `fed` is the rolling-hash state
(bytes fed), `out` the writer output.  A snapshot shorter than `flushed`
models a window shift (`flushed_idx` resets to 0). -/
def frameFlushLoop (flushed : Nat) (fed out : List Nat) :
    List (List Nat) → Nat × List Nat × List Nat
  | [] => (flushed, fed, out)
  | snap :: rest =>
    let currentIdx := snap.length
    let flushed := if currentIdx < flushed then 0 else flushed
    let available := currentIdx - flushed
    let isLast := rest.isEmpty
    if available ≥ CHUNK ∨ isLast then
      let data := (snap.drop flushed).take (currentIdx - flushed)
      frameFlushLoop currentIdx (fed ++ data) (out ++ data) rest
    else frameFlushLoop flushed fed out rest

/-- `Decoder::decode_frame` body after the header: run the block loop, then
compare the stored checksum word with the low 32 bits of the digest of the
hash state.  Also returns the bytes that were fed to the hasher at the
moment of this frame's comparison (`none` when the frame has no checksum). -/
def decodeFrameModel (digest : List Nat → Nat) (fed : List Nat)
    (f : FrameModel) :
    Except DErr (List Nat × List Nat) × Option (List Nat) :=
  let (_, fed, out) := frameFlushLoop 0 fed [] f.snapshots
  if f.hasChecksum then
    let computed := digest fed % 2 ^ 32
    if computed ≠ f.storedChecksum then (.error .checksumMismatch, some fed)
    else (.ok (out, fed), some fed)
  else (.ok (out, fed), none)

/-- `Decoder::decode`: loop `decode_frame` over the frames.  The hash state
`fed` persists across iterations exactly as `self.checksum` does
(`Decoder::new` creates it once; nothing resets it between frames).
Returns the final result together with the log of hash states observed at
each checksum comparison. -/
def decodeModelGo (digest : List Nat → Nat) (fed out : List Nat)
    (logs : List (List Nat)) :
    List FrameModel → Except DErr (List Nat) × List (List Nat)
  | [] => (.ok out, logs)
  | f :: rest =>
    match decodeFrameModel digest fed f with
    | (.error e, entry) => (.error e, logs ++ entry.toList)
    | (.ok (frameOut, fed), entry) =>
      decodeModelGo digest fed (out ++ frameOut) (logs ++ entry.toList) rest

/-- Entry point: `Decoder::new` seeds the hash state empty (`Xxh64::new(0)`),
then `decode` runs the frames. -/
def decodeModel (digest : List Nat → Nat) (frames : List FrameModel) :
    Except DErr (List Nat) × List (List Nat) :=
  decodeModelGo digest [] [] [] frames

/-! ## Reference definitions written from the specification's words

These are the spec-side descriptions that the claims compare the code
against; each is clearly marked and never used inside a code embedding. -/

/-- The low 8 bits of a byte, MSB first, as 0/1 values. -/
def byteBitsBE (b : Nat) : List Nat :=
  ((List.range 8).reverse).map (fun i => if b.testBit i then 1 else 0)

/-- Claim C1's stated bit order: the bits of `b` with the sentinel stripped,
MSB-first within the last byte, then tail-to-head across the remaining
bytes (each byte MSB-first). -/
def specRevBitsMsbFirst (bytes : List Nat) : List Nat :=
  match bytes.getLast? with
  | none => []
  | some last =>
    let p := log2w last
    ((List.range p).reverse).map (fun i => if last.testBit i then 1 else 0) ++
      bytes.dropLast.reverse.flatMap byteBitsBE

/-- The bit order the reverse reader actually produces: the bits of the last
byte below the sentinel LSB-first, then tail-to-head across the remaining
bytes, each byte LSB-first. -/
def revBitsLsbFirst (bytes : List Nat) : List Nat :=
  match bytes.getLast? with
  | none => []
  | some last =>
    let p := log2w last
    (List.range p).map (fun i => if last.testBit i then 1 else 0) ++
      bytes.dropLast.reverse.flatMap byteBitsLE

/-- Claim C7's stated refresh order: after each emitted triple, refresh ML,
then LL, then OF; no refresh after the final sequence. -/
def specRefreshTraceMLFirst (n : Nat) : List SeqEvent :=
  SeqEvent.emit ::
    (List.replicate (n - 1)
      [SeqEvent.updateML, SeqEvent.updateLL, SeqEvent.updateOF, SeqEvent.emit]).flatten

/-- Claim C10's stated 4-stream decode: the same jump-table framing, but the
four streams decoded independently — the first three produce
`ceil(regen / 4)` bytes each, the fourth `regen - 3 * ceil(regen / 4)` —
then every reader must be empty, else `ExtraBitsInStream`. -/
def specFourStreams (src : List Nat) (dstLen : Nat) (t : HuffDecodingTable) :
    Option (Except DErr (List Nat)) :=
  if src.length < 6 then some (.error .jumpTableError)
  else
    let s0 := src.getD 0 0 + (src.getD 1 0) <<< 8
    let s1 := s0 + src.getD 2 0 + (src.getD 3 0) <<< 8
    let s2 := s1 + src.getD 4 0 + (src.getD 5 0) <<< 8
    if s2 > src.length then some (.error .jumpTableError)
    else
      let src := src.drop 6
      if s2 > src.length then none
      else
        match ReverseBitReader.new (src.take s0) with
        | .error e => some (.error (.ioR e))
        | .ok r0 =>
        match ReverseBitReader.new ((src.drop s0).take (s1 - s0)) with
        | .error e => some (.error (.ioR e))
        | .ok r1 =>
        match ReverseBitReader.new ((src.drop s1).take (s2 - s1)) with
        | .error e => some (.error (.ioR e))
        | .ok r2 =>
        match ReverseBitReader.new (src.drop s2) with
        | .error e => some (.error (.ioR e))
        | .ok r3 =>
          let chunk := (dstLen + 3) / 4
          if dstLen < 3 * chunk then some (.error .literalsBufferTooSmall)
          else
            match HuffDecoder.new t r0 with
            | none => none
            | some (d0, r0) =>
            match HuffDecoder.new t r1 with
            | none => none
            | some (d1, r1) =>
            match HuffDecoder.new t r2 with
            | none => none
            | some (d2, r2) =>
            match HuffDecoder.new t r3 with
            | none => none
            | some (d3, r3) =>
              let lastChunk := dstLen - 3 * chunk
              match decodeRun t chunk d0 r0 with
              | none => none
              | some (o0, _, r0) =>
              match decodeRun t chunk d1 r1 with
              | none => none
              | some (o1, _, r1) =>
              match decodeRun t chunk d2 r2 with
              | none => none
              | some (o2, _, r2) =>
              match decodeRun t lastChunk d3 r3 with
              | none => none
              | some (o3, _, r3) =>
                if r0.bitsRemaining > 0 then
                  some (.error (.extraBitsInStream r0.bitsRemaining))
                else if r1.bitsRemaining > 0 then
                  some (.error (.extraBitsInStream r1.bitsRemaining))
                else if r2.bitsRemaining > 0 then
                  some (.error (.extraBitsInStream r2.bitsRemaining))
                else if r3.bitsRemaining > 0 then
                  some (.error (.extraBitsInStream r3.bitsRemaining))
                else
                  some (.ok (o0 ++ o1 ++ o2 ++ o3))

/-- The naive propagating reference copy of claim C4: for each `i < n`, the
byte written at `index + i` is the byte at `index + i - offset`, one byte at
a time, reading bytes written earlier by this same copy. -/
def specNaiveCopy (buf : List Nat) (index offset : Nat) : Nat → List Nat
  | 0 => buf
  | n + 1 =>
    specNaiveCopy (buf.set index (buf.getD (index - offset) 0)) (index + 1) offset n

/-- Claim C5's offset-resolution mapping, amended only where the
counterexample forces it: the `lit_len == 0`, code-3 case yields
`hist[0] - 1` (wrapping) with no error — a zero result is rejected later by
`copy_within`, not here. -/
def resolvedOffsetAmended (h0 h1 h2 code ll : Nat) : Nat :=
  if ll > 0 then
    if code = 1 then h0
    else if code = 2 then h1
    else if code = 3 then h2
    else (code + 2 ^ 64 - 3) % 2 ^ 64
  else
    if code = 1 then h1
    else if code = 2 then h2
    else if code = 3 then (h0 + 2 ^ 64 - 1) % 2 ^ 64
    else (code + 2 ^ 64 - 3) % 2 ^ 64

/-- The history rotation performed by `update_offset_hist` (the new offset
becomes `hist[0]`; displaced entries shift right; `code == 1` with
`lit_len > 0` leaves the history untouched). -/
def rotatedHistAmended (h0 h1 h2 code ll resolved : Nat) : Nat × Nat × Nat :=
  if ll > 0 then
    if code = 1 then (h0, h1, h2)
    else if code = 2 then (resolved, h0, h2)
    else (resolved, h0, h1)
  else
    if code = 1 then (resolved, h0, h2)
    else (resolved, h0, h1)

/-! ## C3 support: canonical-code cumulative starts -/

/-- Cumulative canonical-code start positions: `Σ_{v < w} bit_rank[v] * 2^(v-1)`. -/
def huffCum (br : List Nat) (w : Nat) : Nat :=
  ((List.range w).map (fun v => br.getD v 0 * 2 ^ (v - 1))).sum

/-- The weight sum of `from_weights`' first loop, as a closed formula. -/
def sumPow (weights : List Nat) : Nat :=
  (weights.map (fun w => if w = 0 then 0 else 2 ^ (w - 1))).sum

/-- Extract the table from a successful `from_weights` result. -/
def huffTableOfOk : Option (Except HuffErr HuffDecodingTable) → HuffDecodingTable
  | some (.ok t) => t
  | _ => { entries := [], nEntries := 0, maxBits := 0 }


/-- The per-slot invariant of the FSE spread loops: the slots written so far
are exactly the walk positions `i * step % n` for `i < k`; written slots have
the marker `n_bits = 0xFF`, unwritten slots still hold the initial default. -/
def spreadInv (n step k : Nat) (t : List FseEntry) : Prop :=
  t.length = n ∧
  (∀ q, q < n → (∀ i, i < k → ¬ i * step % n = q) →
    t.getD q ⟨0, 0, 0⟩ = ⟨0, 0, 0⟩) ∧
  (∀ q, q < n → (∃ i, i < k ∧ i * step % n = q) →
    (t.getD q ⟨0, 0, 0⟩).nBits = 255)

/-- The per-slot invariant of the low-probability spread: slots `>= ht` hold
the top writes, slots `< ht` hit so far are the walk positions below `ht`
with index `< k`. -/
def lowInv (n step ht k : Nat) (t : List FseEntry) : Prop :=
  t.length = n ∧
  (∀ q, q < ht → (∀ i, i < k → i * step % n < ht → ¬ i * step % n = q) →
    t.getD q ⟨0, 0, 0⟩ = ⟨0, 0, 0⟩) ∧
  (∀ q, q < n →
    ((∃ i, i < k ∧ i * step % n < ht ∧ i * step % n = q) ∨ ht ≤ q) →
    (t.getD q ⟨0, 0, 0⟩).nBits = 255)

end RZstd

/-! # Theorems settling the claims -/

namespace RZstd

/-- C5 (counterexample): with the initial history `[1, 4, 8]`, `lit_len == 0`
and offset code 3, `update_offset_hist` returns `Ok(0)` — the resolved offset
is zero and no `ZeroOffset` error is raised, contrary to the claim. -/
theorem C5_counterexample :
    updateOffsetHist 1 4 8 3 0 = .ok (0, 0, 1, 4) := by decide

/-- C5 (amended): offset resolution follows the stated mapping, but
resolution itself never fails — the `lit_len == 0`, code-3 case with
`hist[0] == 1` resolves to 0 with no error, and a zero or oversized offset is
rejected only by `Window::copy_within` (with `CopiedSizeOutOfBounds`, not
`ZeroOffset`) when the match is executed. -/
theorem C5_offset_resolution :
    (∀ h0 h1 h2 code ll,
      updateOffsetHist h0 h1 h2 code ll =
        .ok (resolvedOffsetAmended h0 h1 h2 code ll,
             rotatedHistAmended h0 h1 h2 code ll
               (resolvedOffsetAmended h0 h1 h2 code ll))) ∧
    (∀ w offset n,
      (offset = 0 ∨
          offset > min (if w.index + n > w.buf.length then w.shift else w).index
            (if w.index + n > w.buf.length then w.shift else w).size) →
        Window.copyWithin w offset n = .error .copiedSizeOutOfBounds) ∧
    (∀ w offset n,
      ¬ (offset = 0 ∨
          offset > min (if w.index + n > w.buf.length then w.shift else w).index
            (if w.index + n > w.buf.length then w.shift else w).size) →
        ∃ w2, Window.copyWithin w offset n = .ok w2) := by
  refine ⟨?_, ?_, ?_⟩
  · intro h0 h1 h2 code ll
    have expand : ∀ c : Nat, c ≥ 4 →
        updateOffsetHist h0 h1 h2 c ll =
          .ok (resolvedOffsetAmended h0 h1 h2 c ll,
               rotatedHistAmended h0 h1 h2 c ll
                 (resolvedOffsetAmended h0 h1 h2 c ll)) := by
      intro c hc
      have n1 : c ≠ 1 := by omega
      have n2 : c ≠ 2 := by omega
      have n3 : c ≠ 3 := by omega
      have nr3 : ¬ (1 ≤ c ∧ c ≤ 3) := by omega
      have nr2 : ¬ (1 ≤ c ∧ c ≤ 2) := by omega
      rcases Nat.eq_zero_or_pos ll with hll | hll
      · subst hll
        simp [updateOffsetHist, resolvedOffsetAmended, rotatedHistAmended,
          n1, n2, n3, nr3, nr2]
      · simp [updateOffsetHist, resolvedOffsetAmended, rotatedHistAmended,
          hll, n1, n2, n3, nr3, nr2]
    match code with
    | 0 =>
      rcases Nat.eq_zero_or_pos ll with hll | hll
      · subst hll
        simp [updateOffsetHist, resolvedOffsetAmended, rotatedHistAmended]
      · simp [updateOffsetHist, resolvedOffsetAmended, rotatedHistAmended, hll]
    | 1 =>
      rcases Nat.eq_zero_or_pos ll with hll | hll
      · subst hll
        simp [updateOffsetHist, resolvedOffsetAmended, rotatedHistAmended]
      · simp [updateOffsetHist, resolvedOffsetAmended, rotatedHistAmended, hll]
    | 2 =>
      rcases Nat.eq_zero_or_pos ll with hll | hll
      · subst hll
        simp [updateOffsetHist, resolvedOffsetAmended, rotatedHistAmended]
      · simp [updateOffsetHist, resolvedOffsetAmended, rotatedHistAmended, hll]
    | 3 =>
      rcases Nat.eq_zero_or_pos ll with hll | hll
      · subst hll
        simp [updateOffsetHist, resolvedOffsetAmended, rotatedHistAmended]
      · simp [updateOffsetHist, resolvedOffsetAmended, rotatedHistAmended, hll]
    | (n + 4) => exact expand (n + 4) (by omega)
  · intro w offset n hc
    simp only [Window.copyWithin]
    rw [if_pos hc]
  · intro w offset n hc
    simp only [Window.copyWithin]
    rw [if_neg hc]
    split
    · exact ⟨_, rfl⟩
    · split
      · exact ⟨_, rfl⟩
      · exact ⟨_, rfl⟩

/-- C6 (code bug): Huff0 table construction is not total — the weight vector
`[11, 11, 11]` (every weight at most 11) drives `max_bits` to 12, and the
`next_code[w]` loop indexes past the 12-entry array: a panic, not a table or
a typed error.  This contradicts the repo's own fuzz test
`test_fuzz_from_weights`. -/
theorem C6_fromWeights_panics :
    HuffDecodingTable.fromWeights 2048 [11, 11, 11] = none := by decide

theorem skipZeroProb_no_mismatch : ∀ (fuel : Nat) (src : BitReader)
    (i m l : Nat),
    ¬ NormalizedDistribution.skipZeroProb fuel src i =
      .error (.accuracyLogMismatch m l) := by
  intro fuel
  induction fuel with
  | zero =>
    intro src i m l
    simp [NormalizedDistribution.skipZeroProb]
  | succ fuel ih =>
    intro src i m l
    unfold NormalizedDistribution.skipZeroProb
    split
    · simp
    · split
      · simp
      · apply ih

theorem readGo_no_mismatch : ∀ (fuel : Nat) (src : BitReader) (i : Nat)
    (fc : List Int) (ss : List Nat) (low : Bool) (rem : Int) (m l : Nat),
    ¬ NormalizedDistribution.readGo fuel src i fc ss low rem =
      .error (.accuracyLogMismatch m l) := by
  intro fuel
  induction fuel with
  | zero =>
    intro src i fc ss low rem m l
    unfold NormalizedDistribution.readGo
    split
    · simp
    · split
      · simp
      · simp
  | succ fuel ih =>
    intro src i fc ss low rem m l
    unfold NormalizedDistribution.readGo
    dsimp only
    repeat' split
    all_goals first
      | (simp
         done)
      | apply ih
      | (rename_i e heqskip
         intro hcontra
         have he : e = FseErr.accuracyLogMismatch m l := Except.error.inj hcontra
         subst he
         exact skipZeroProb_no_mismatch _ _ _ _ _ heqskip)

theorem read_accuracy_check (N : Nat) (hN : N ≠ 0 ∧ N &&& (N - 1) = 0)
    (src : BitReader) (raw : Nat) (src' : BitReader)
    (hread : BitReader.read src 4 = .ok (raw, src')) :
    (5 + raw ≤ log2w N →
      ∀ m l, ¬ NormalizedDistribution.read N src =
        some (.error (.accuracyLogMismatch m l))) ∧
    (log2w N < 5 + raw →
      NormalizedDistribution.read N src =
        some (.error (.accuracyLogMismatch (log2w N) (5 + raw)))) := by
  unfold NormalizedDistribution.read
  rw [if_neg (not_not_intro hN)]
  rw [hread]
  simp only [Except.mapError, Bind.bind, Except.instMonad, Except.bind]
  constructor
  · intro hle m l
    rw [if_neg (show ¬ 5 + raw > log2w N from by omega)]
    intro hcontra
    have h1 := Option.some.inj hcontra
    rcases hgo : NormalizedDistribution.readGo 256 src' 0
        (List.replicate 256 0) (List.replicate 256 0) false
        ((2 : Int) ^ (5 + raw)) with e | tup
    · rw [hgo] at h1
      simp only [Except.bind] at h1
      exact readGo_no_mismatch 256 src' 0 _ _ false _ m l
        (hgo.trans (by rw [Except.error.inj h1]))
    · rw [hgo] at h1
      simp only [Except.bind] at h1
      revert h1
      split
      · simp
      · simp
  · intro hgt
    rw [if_pos (show 5 + raw > log2w N from by omega)]

/-- C8: the sequence tables are instantiated at `N = table_size()` — field
access `1 << self.accuracy_log`, so 512 entries for literal lengths, 512 for
match lengths, 256 for offsets (the `accuracy_log()` method, returning
`predefined_accuracy_log` 6/6/5, is separate) — and
`NormalizedDistribution::read::<N>` accepts every accuracy_log up to
`log2 N` (9 for LL/ML, 8 for OF), never failing with `AccuracyLogMismatch`,
while a larger accuracy_log is rejected with exactly
`AccuracyLogMismatch(log2 N, 5 + raw)`. -/
theorem C8_accuracy_log_bounds :
    (LL_DIST.tableSize = 512 ∧ ML_DIST.tableSize = 512 ∧
     OF_DIST.tableSize = 256 ∧ log2w LL_DIST.tableSize = 9 ∧
     log2w ML_DIST.tableSize = 9 ∧ log2w OF_DIST.tableSize = 8 ∧
     LL_DIST.accuracyLogMethod = 6 ∧ ML_DIST.accuracyLogMethod = 6 ∧
     OF_DIST.accuracyLogMethod = 5) ∧
    ∀ d, (d = LL_DIST ∨ d = ML_DIST ∨ d = OF_DIST) →
      ∀ (src : BitReader) (raw : Nat) (src' : BitReader),
        BitReader.read src 4 = .ok (raw, src') →
        ((5 + raw ≤ log2w d.tableSize →
          ∀ m l, ¬ NormalizedDistribution.read d.tableSize src =
            some (.error (.accuracyLogMismatch m l))) ∧
         (log2w d.tableSize < 5 + raw →
          NormalizedDistribution.read d.tableSize src =
            some (.error (.accuracyLogMismatch (log2w d.tableSize)
              (5 + raw))))) := by
  refine ⟨by decide, ?_⟩
  intro d hd src raw src' hread
  rcases hd with rfl | rfl | rfl
  · exact read_accuracy_check LL_DIST.tableSize (by decide) src raw src' hread
  · exact read_accuracy_check ML_DIST.tableSize (by decide) src raw src' hread
  · exact read_accuracy_check OF_DIST.tableSize (by decide) src raw src' hread

/-- C8 witness: accuracy_log 7 (raw code 2) is accepted for the
literal-length table, and accuracy_log 20 (raw code 15) is rejected for the
offset table with `AccuracyLogMismatch(8, 20)`. -/
theorem C8_accuracy_log_bounds_witness :
    ((LL_DIST = LL_DIST ∨ LL_DIST = ML_DIST ∨ LL_DIST = OF_DIST) ∧
     BitReader.read ⟨[], 2, 8, 1⟩ 4 = .ok (2, ⟨[], 0, 4, 1⟩) ∧
     5 + 2 ≤ log2w LL_DIST.tableSize ∧
     (∀ m l, ¬ NormalizedDistribution.read LL_DIST.tableSize ⟨[], 2, 8, 1⟩ =
        some (.error (.accuracyLogMismatch m l)))) ∧
    ((OF_DIST = LL_DIST ∨ OF_DIST = ML_DIST ∨ OF_DIST = OF_DIST) ∧
     BitReader.read ⟨[], 15, 8, 1⟩ 4 = .ok (15, ⟨[], 0, 4, 1⟩) ∧
     log2w OF_DIST.tableSize < 5 + 15 ∧
     NormalizedDistribution.read OF_DIST.tableSize ⟨[], 15, 8, 1⟩ =
       some (.error (.accuracyLogMismatch 8 20))) :=
  ⟨⟨Or.inl rfl, by decide, by decide,
    (C8_accuracy_log_bounds.2 LL_DIST (Or.inl rfl) ⟨[], 2, 8, 1⟩ 2
      ⟨[], 0, 4, 1⟩ (by decide)).1 (by decide)⟩,
   ⟨Or.inr (Or.inr rfl), by decide, by decide,
    show NormalizedDistribution.read OF_DIST.tableSize ⟨[], 15, 8, 1⟩ =
        some (.error (.accuracyLogMismatch (log2w OF_DIST.tableSize)
          (5 + 15)))
      from (C8_accuracy_log_bounds.2 OF_DIST (Or.inr (Or.inr rfl))
        ⟨[], 15, 8, 1⟩ 15 ⟨[], 0, 4, 1⟩ (by decide)).2 (by decide)⟩⟩

/-- C9 (code bug): the rolling-hash state persists across frames (it is
created once in `Decoder::new` and never reset), so the second frame's
comparison hashes frame1 ++ frame2, not just frame2.  Instantiating the
opaque digest with `List.length`: each frame stores the claim-correct
checksum of its own single decompressed byte, yet decoding fails with
`ChecksumMismatch`, and the instrumented log shows the bytes hashed at the
second comparison are `[0x41, 0x42]`, not `[0x42]`. -/
theorem C9_checksum_accumulates :
    decodeModel List.length
      [ { hasChecksum := true, snapshots := [[0x41]], storedChecksum := 1 },
        { hasChecksum := true, snapshots := [[0x42]], storedChecksum := 1 } ] =
      (.error .checksumMismatch, [[0x41], [0x41, 0x42]]) ∧
    ([0x41, 0x42] : List Nat) ≠ [0x42] ∧
    (List.length [(0x42 : Nat)]) % 2 ^ 32 = 1 := by decide

/-- C7 (counterexample): decoding two sequences over all-RLE tables, the
instrumented trace of `sequence_section`'s loop is
`[emit, updateLL, updateML, updateOF, emit]` — the refresh order is LL, ML,
OF, not the claimed ML, LL, OF. -/
theorem C7_counterexample :
    ReverseBitReader.new [1] = .ok { src := [], buf := 0, bitCount := 0 } ∧
    sequenceLoop (FseDecodingTable.rle 64 0) (FseDecodingTable.rle 32 0)
        (FseDecodingTable.rle 64 0) { src := [], buf := 0, bitCount := 0 } 2 =
      some (.ok
        ([{ litLen := 0, offset := 1, matchLen := 3 },
          { litLen := 0, offset := 1, matchLen := 3 }],
         { src := [], buf := 0, bitCount := 0 },
         [SeqEvent.emit, SeqEvent.updateLL, SeqEvent.updateML,
          SeqEvent.updateOF, SeqEvent.emit])) ∧
    ([SeqEvent.emit, SeqEvent.updateLL, SeqEvent.updateML, SeqEvent.updateOF,
      SeqEvent.emit] ≠ specRefreshTraceMLFirst 2) := by decide

/-- C10 (counterexample): for regenerated size 1 the claimed four-chunk split
does not exist (`3 * ceil(1/4) = 3 > 1`, the fourth chunk would be negative);
`huff_streams` underflows `dst.len() - 3 * chunk` and bails out with
`LiteralsBufferTooSmall` instead of splitting. -/
theorem C10_counterexample :
    huffStreams4 ([1, 0, 1, 0, 1, 0] ++ [1, 1, 1, 1]) 1
        { entries := [{ symbol := 0, nBits := 1 }, { symbol := 1, nBits := 1 }],
          nEntries := 2, maxBits := 1 } =
      some (.error .literalsBufferTooSmall) ∧
    1 < 3 * ((1 + 3) / 4) := by decide

/-- C1 (counterexample): reading the single-byte stream `[0x1D]` one bit at a
time yields `[1, 0, 1, 1]` (LSB-first below the sentinel, as the repo's own
`test_sentinel_and_bit_order` asserts), not the claimed MSB-first
`[1, 1, 0, 1]`. -/
theorem C1_counterexample :
    ReverseBitReader.new [0x1D] = .ok { src := [], buf := 13, bitCount := 4 } ∧
    ReverseBitReader.readBits { src := [], buf := 13, bitCount := 4 } 4 =
      .ok [1, 0, 1, 1] ∧
    specRevBitsMsbFirst [0x1D] = [1, 1, 0, 1] ∧
    ([1, 0, 1, 1] : List Nat) ≠ [1, 1, 0, 1] := by decide

/-- C2 (counterexample): the distribution with counts `[17, 15]` at
accuracy_log 5 is valid (`17 + 15 = 32 = 2^5`) and the table builds
successfully, yet it contains slots with `n_bits = 0` (symbol 0's per-symbol
state reaches 32 and 33, i.e. `2^accuracy_log`), refuting "every slot has
`n_bits > 0`". -/
theorem C2_counterexample :
    (17 + 15 = 2 ^ 5) ∧
    (match NormalizedDistribution.fromPredefined [17, 15] 5 with
     | .ok dist =>
       match FseDecodingTable.fromDistribution 32 dist with
       | some (.ok t) => t.entries.any (fun e => e.nBits = 0)
       | _ => false
     | .error _ => false) = true := by decide

/-- C5 witness: the amended resolution at the counterexample history, a
rejected zero offset, and an accepted in-range offset. -/
theorem C5_offset_resolution_witness :
    updateOffsetHist 1 4 8 3 0 =
      .ok (resolvedOffsetAmended 1 4 8 3 0,
           rotatedHistAmended 1 4 8 3 0 (resolvedOffsetAmended 1 4 8 3 0)) ∧
    Window.copyWithin { buf := [7, 7], size := 2, index := 2 } 0 1 =
      .error .copiedSizeOutOfBounds ∧
    (∃ w2, Window.copyWithin { buf := [7, 7, 0], size := 2, index := 2 } 1 1 =
      .ok w2) :=
  ⟨C5_offset_resolution.1 1 4 8 3 0,
   C5_offset_resolution.2.1 _ 0 1 (Or.inl rfl),
   C5_offset_resolution.2.2 _ 1 1 (by decide)⟩

/-- Trace shape of the per-sequence loop: each pass appends
`[updateLL, updateML, updateOF, emit]` and one sequence. -/
theorem sequenceLoopGo_trace (llT ofT mlT : FseDecodingTable) :
    ∀ k llD ofD mlD r seqs evs seqs2 r2 evs2,
      sequenceLoopGo llT ofT mlT k llD ofD mlD r seqs evs =
        some (.ok (seqs2, r2, evs2)) →
      evs2 = evs ++ (List.replicate k
        [SeqEvent.updateLL, SeqEvent.updateML, SeqEvent.updateOF,
         SeqEvent.emit]).flatten ∧
      seqs2.length = seqs.length + k := by
  intro k
  induction k with
  | zero =>
    intro llD ofD mlD r seqs evs seqs2 r2 evs2 h
    simp only [sequenceLoopGo, Option.some.injEq, Except.ok.injEq,
      Prod.mk.injEq] at h
    obtain ⟨h1, _, h3⟩ := h
    subst h1
    subst h3
    simp
  | succ k ih =>
    intro llD ofD mlD r seqs evs seqs2 r2 evs2 h
    simp only [sequenceLoopGo] at h
    split at h
    · exact absurd h (by simp)
    · exact absurd h (by simp)
    split at h
    · exact absurd h (by simp)
    · exact absurd h (by simp)
    split at h
    · exact absurd h (by simp)
    · exact absurd h (by simp)
    split at h
    · exact absurd h (by simp)
    · exact absurd h (by simp)
    obtain ⟨he, hl⟩ := ih _ _ _ _ _ _ _ _ _ h
    constructor
    · rw [he]
      simp [List.replicate_succ, List.append_assoc]
    · rw [hl]
      simp
      omega


/-- C7 (amended): in sequence decoding, after each emitted triple the three
FSE decoder states are refreshed in the order LL, then ML, then OF, and no
refresh is performed after the final sequence: with `n_seqs = n >= 1`, the
instrumented call trace is exactly
`emit, (updateLL, updateML, updateOF, emit)^(n-1)`. -/
theorem C7_refresh_order (llT ofT mlT : FseDecodingTable)
    (r : ReverseBitReader) (n : Nat) (seqs : List Sequence)
    (r2 : ReverseBitReader) (evs : List SeqEvent) (hn : 1 ≤ n)
    (h : sequenceLoop llT ofT mlT r n = some (.ok (seqs, r2, evs))) :
    evs = SeqEvent.emit ::
      (List.replicate (n - 1)
        [SeqEvent.updateLL, SeqEvent.updateML, SeqEvent.updateOF,
         SeqEvent.emit]).flatten ∧
    seqs.length = n := by
  simp only [sequenceLoop] at h
  split at h
  · exact absurd h (by simp)
  · exact absurd h (by simp)
  split at h
  · exact absurd h (by simp)
  · exact absurd h (by simp)
  split at h
  · exact absurd h (by simp)
  · exact absurd h (by simp)
  split at h
  · exact absurd h (by simp)
  · exact absurd h (by simp)
  obtain ⟨he, hl⟩ := sequenceLoopGo_trace llT ofT mlT _ _ _ _ _ _ _ _ _ _ h
  constructor
  · rw [he]
    simp
  · rw [hl]
    simp
    omega

/-- C7 witness: the amended trace at a concrete two-sequence RLE-table run. -/
theorem C7_refresh_order_witness :
    ([SeqEvent.emit, SeqEvent.updateLL, SeqEvent.updateML, SeqEvent.updateOF,
      SeqEvent.emit] : List SeqEvent) = SeqEvent.emit ::
      (List.replicate (2 - 1)
        [SeqEvent.updateLL, SeqEvent.updateML, SeqEvent.updateOF,
         SeqEvent.emit]).flatten ∧
    ([{ litLen := 0, offset := 1, matchLen := 3 },
      { litLen := 0, offset := 1, matchLen := 3 }] : List Sequence).length = 2 :=
  C7_refresh_order (FseDecodingTable.rle 64 0) (FseDecodingTable.rle 32 0)
    (FseDecodingTable.rle 64 0) { src := [], buf := 0, bitCount := 0 } 2
    [{ litLen := 0, offset := 1, matchLen := 3 },
     { litLen := 0, offset := 1, matchLen := 3 }]
    { src := [], buf := 0, bitCount := 0 }
    [SeqEvent.emit, SeqEvent.updateLL, SeqEvent.updateML, SeqEvent.updateOF,
     SeqEvent.emit]
    (by decide) (by decide)



theorem decodeRun_length (t : HuffDecodingTable) :
    ∀ k d r o d2 r2, decodeRun t k d r = some (o, d2, r2) → o.length = k := by
  intro k
  induction k with
  | zero =>
    intro d r o d2 r2 h
    simp only [decodeRun, Option.some.injEq, Prod.mk.injEq] at h
    obtain ⟨h1, _⟩ := h
    simp [← h1]
  | succ k ih =>
    intro d r o d2 r2 h
    simp only [decodeRun] at h
    rcases hdec : HuffDecoder.decode t d r with _ | ⟨sym, d', r'⟩
    · rw [hdec] at h
      exact absurd h (by simp)
    · rw [hdec] at h
      dsimp only at h
      rcases hrun : decodeRun t k d' r' with _ | ⟨o', d'', r''⟩
      · rw [hrun] at h
        exact absurd h (by simp)
      · rw [hrun] at h
        simp only [Option.some.injEq, Prod.mk.injEq] at h
        obtain ⟨h1, _⟩ := h
        have := ih _ _ _ _ _ hrun
        simp [← h1, this]

theorem decodeRun_succ_of_some (t : HuffDecodingTable) (k : Nat)
    (d : HuffDecoder) (r : ReverseBitReader) (o : List Nat)
    (d2 : HuffDecoder) (r2 : ReverseBitReader)
    (h : decodeRun t (k + 1) d r = some (o, d2, r2)) :
    ∃ sym d' r' o', HuffDecoder.decode t d r = some (sym, d', r') ∧
      decodeRun t k d' r' = some (o', d2, r2) ∧ o = sym :: o' := by
  simp only [decodeRun] at h
  rcases hdec : HuffDecoder.decode t d r with _ | ⟨sym, d', r'⟩
  · rw [hdec] at h
    exact absurd h (by simp)
  · rw [hdec] at h
    dsimp only at h
    rcases hrun : decodeRun t k d' r' with _ | ⟨o', d'', r''⟩
    · rw [hrun] at h
      exact absurd h (by simp)
    · rw [hrun] at h
      simp only [Option.some.injEq, Prod.mk.injEq] at h
      obtain ⟨h1, h2, h3⟩ := h
      exact ⟨sym, d', r', o', rfl, by rw [hrun, h2, h3], h1.symm⟩

theorem decode_isSome (t : HuffDecodingTable)
    (h56 : ∀ e ∈ t.entries, e.nBits ≤ 56) (d : HuffDecoder)
    (r : ReverseBitReader) :
    ∃ sym d2 r2, HuffDecoder.decode t d r = some (sym, d2, r2) := by
  simp only [HuffDecoder.decode]
  have hb : (t.entries.getD d.state { symbol := 0, nBits := 0 }).nBits ≤ 56 := by
    rcases Nat.lt_or_ge d.state t.entries.length with hl | hl
    · exact h56 _ (by
        rw [List.getD_eq_getElem _ _ hl]
        exact List.getElem_mem hl)
    · rw [List.getD_eq_default _ _ hl]
      decide
  rcases hrp : ReverseBitReader.readPadded r
      (t.entries.getD d.state { symbol := 0, nBits := 0 }).nBits with _ | ⟨v, r'⟩
  · exfalso
    simp only [ReverseBitReader.readPadded] at hrp
    rw [if_neg (by omega)] at hrp
    exact absurd hrp (by simp)
  · exact ⟨_, _, _, rfl⟩

theorem decodeRun_isSome (t : HuffDecodingTable)
    (h56 : ∀ e ∈ t.entries, e.nBits ≤ 56) :
    ∀ k d r, ∃ o d2 r2, decodeRun t k d r = some (o, d2, r2) := by
  intro k
  induction k with
  | zero => intro d r; exact ⟨[], d, r, rfl⟩
  | succ k ih =>
    intro d r
    obtain ⟨sym, d', r', hdec⟩ := decode_isSome t h56 d r
    obtain ⟨o, d2, r2, hrun⟩ := ih d' r'
    refine ⟨sym :: o, d2, r2, ?_⟩
    simp only [decodeRun]
    rw [hdec]
    dsimp only
    rw [hrun]

theorem decodeRun_append (t : HuffDecodingTable) :
    ∀ a b d r oa da ra ob db rb,
      decodeRun t a d r = some (oa, da, ra) →
      decodeRun t b da ra = some (ob, db, rb) →
      decodeRun t (a + b) d r = some (oa ++ ob, db, rb) := by
  intro a
  induction a with
  | zero =>
    intro b d r oa da ra ob db rb h1 h2
    simp only [decodeRun, Option.some.injEq, Prod.mk.injEq] at h1
    obtain ⟨h3, h4, h5⟩ := h1
    subst h4; subst h5
    simpa [← h3] using h2
  | succ a ih =>
    intro b d r oa da ra ob db rb h1 h2
    obtain ⟨sym, d', r', o', hdec, hrun, ho⟩ := decodeRun_succ_of_some t a d r oa da ra h1
    have : a + 1 + b = (a + b) + 1 := by omega
    rw [this]
    simp only [decodeRun]
    rw [hdec]
    dsimp only
    rw [ih b d' r' o' da ra ob db rb hrun h2, ho]
    simp

theorem burst4_eq_runs (t : HuffDecodingTable) :
    ∀ k d0 r0 d1 r1 d2 r2 d3 r3 o0 p0 q0 o1 p1 q1 o2 p2 q2 o3 p3 q3,
      decodeRun t k d0 r0 = some (o0, p0, q0) →
      decodeRun t k d1 r1 = some (o1, p1, q1) →
      decodeRun t k d2 r2 = some (o2, p2, q2) →
      decodeRun t k d3 r3 = some (o3, p3, q3) →
      burst4 t k (d0, r0) (d1, r1) (d2, r2) (d3, r3) =
        some ((o0, o1, o2, o3), (p0, q0), (p1, q1), (p2, q2), (p3, q3)) := by
  intro k
  induction k with
  | zero =>
    intro d0 r0 d1 r1 d2 r2 d3 r3 o0 p0 q0 o1 p1 q1 o2 p2 q2 o3 p3 q3 h0 h1 h2 h3
    simp only [decodeRun, Option.some.injEq, Prod.mk.injEq] at h0 h1 h2 h3
    obtain ⟨a0, b0, c0⟩ := h0
    obtain ⟨a1, b1, c1⟩ := h1
    obtain ⟨a2, b2, c2⟩ := h2
    obtain ⟨a3, b3, c3⟩ := h3
    simp only [burst4, Option.some.injEq, Prod.mk.injEq]
    exact ⟨⟨a0, a1, a2, a3⟩, ⟨b0, c0⟩, ⟨b1, c1⟩, ⟨b2, c2⟩, b3, c3⟩
  | succ k ih =>
    intro d0 r0 d1 r1 d2 r2 d3 r3 o0 p0 q0 o1 p1 q1 o2 p2 q2 o3 p3 q3 h0 h1 h2 h3
    obtain ⟨s0, e0, f0, o0', hd0, hr0, ho0⟩ := decodeRun_succ_of_some t k _ _ _ _ _ h0
    obtain ⟨s1, e1, f1, o1', hd1, hr1, ho1⟩ := decodeRun_succ_of_some t k _ _ _ _ _ h1
    obtain ⟨s2, e2, f2, o2', hd2, hr2, ho2⟩ := decodeRun_succ_of_some t k _ _ _ _ _ h2
    obtain ⟨s3, e3, f3, o3', hd3, hr3, ho3⟩ := decodeRun_succ_of_some t k _ _ _ _ _ h3
    simp only [burst4]
    rw [hd0]
    dsimp only
    rw [hd1]
    dsimp only
    rw [hd2]
    dsimp only
    rw [hd3]
    dsimp only
    rw [ih _ _ _ _ _ _ _ _ _ _ _ _ _ _ _ _ _ _ _ _ hr0 hr1 hr2 hr3]
    dsimp only
    rw [ho0, ho1, ho2, ho3]

theorem burst3_eq_runs (t : HuffDecodingTable) :
    ∀ k d0 r0 d1 r1 d2 r2 o0 p0 q0 o1 p1 q1 o2 p2 q2,
      decodeRun t k d0 r0 = some (o0, p0, q0) →
      decodeRun t k d1 r1 = some (o1, p1, q1) →
      decodeRun t k d2 r2 = some (o2, p2, q2) →
      burst3 t k (d0, r0) (d1, r1) (d2, r2) =
        some ((o0, o1, o2), (p0, q0), (p1, q1), (p2, q2)) := by
  intro k
  induction k with
  | zero =>
    intro d0 r0 d1 r1 d2 r2 o0 p0 q0 o1 p1 q1 o2 p2 q2 h0 h1 h2
    simp only [decodeRun, Option.some.injEq, Prod.mk.injEq] at h0 h1 h2
    obtain ⟨a0, b0, c0⟩ := h0
    obtain ⟨a1, b1, c1⟩ := h1
    obtain ⟨a2, b2, c2⟩ := h2
    simp only [burst3, Option.some.injEq, Prod.mk.injEq]
    exact ⟨⟨a0, a1, a2⟩, ⟨b0, c0⟩, ⟨b1, c1⟩, b2, c2⟩
  | succ k ih =>
    intro d0 r0 d1 r1 d2 r2 o0 p0 q0 o1 p1 q1 o2 p2 q2 h0 h1 h2
    obtain ⟨s0, e0, f0, o0', hd0, hr0, ho0⟩ := decodeRun_succ_of_some t k _ _ _ _ _ h0
    obtain ⟨s1, e1, f1, o1', hd1, hr1, ho1⟩ := decodeRun_succ_of_some t k _ _ _ _ _ h1
    obtain ⟨s2, e2, f2, o2', hd2, hr2, ho2⟩ := decodeRun_succ_of_some t k _ _ _ _ _ h2
    simp only [burst3]
    rw [hd0]
    dsimp only
    rw [hd1]
    dsimp only
    rw [hd2]
    dsimp only
    rw [ih _ _ _ _ _ _ _ _ _ _ _ _ _ _ _ hr0 hr1 hr2]
    dsimp only
    rw [ho0, ho1, ho2]



/-- C10 (amended): for every regenerated size whose four-chunk split exists
(`3 * ceil(regen/4) <= regen`, i.e. regen not in {1, 2, 5}), the 4-stream
literals decode equals the claim's reference: the output is split into four
chunks — the first three of `ceil(regen/4)` bytes, the fourth of
`regen - 3 * ceil(regen/4)` bytes — each stream independently initializes a
decoder over its own reverse reader and produces exactly its chunk's bytes,
and every reader must end with `bits_remaining == 0`, else
`ExtraBitsInStream`. -/
theorem C10_four_streams (src : List Nat) (dstLen : Nat) (t : HuffDecodingTable)
    (h56 : ∀ e ∈ t.entries, e.nBits ≤ 56)
    (hlen : 3 * ((dstLen + 3) / 4) ≤ dstLen)
    (hword : dstLen < 2 ^ 64) :
    huffStreams4 src dstLen t = specFourStreams src dstLen t := by
  have hchunk4 : dstLen ≤ 4 * ((dstLen + 3) / 4) := by omega
  simp only [huffStreams4, specFourStreams]
  split
  · rfl
  split
  · rfl
  split
  · rfl
  split
  · rfl
  rename_i r0
  split
  · rfl
  rename_i r1
  split
  · rfl
  rename_i r2
  split
  · rfl
  rename_i r3
  split
  · rfl
  split
  · rename_i heq
    rw [heq]
  rename_i s0 heq0
  obtain ⟨d0, r0n⟩ := s0
  rw [heq0]
  dsimp only
  split
  · rename_i heq
    rw [heq]
  rename_i s1 heq1
  obtain ⟨d1, r1n⟩ := s1
  rw [heq1]
  dsimp only
  split
  · rename_i heq
    rw [heq]
  rename_i s2 heq2
  obtain ⟨d2, r2n⟩ := s2
  rw [heq2]
  dsimp only
  split
  · rename_i heq
    rw [heq]
  rename_i s3 heq3
  obtain ⟨d3, r3n⟩ := s3
  rw [heq3]
  dsimp only
  have hwrap : (dstLen + 2 ^ 64 - (dstLen + 3) / 4 * 3) % 2 ^ 64 =
      dstLen - 3 * ((dstLen + 3) / 4) := by omega
  rw [hwrap]
  have hmin : min ((dstLen + 3) / 4) (dstLen - 3 * ((dstLen + 3) / 4)) =
      dstLen - 3 * ((dstLen + 3) / 4) := by omega
  rw [hmin]
  obtain ⟨oa0, da0, ra0, hra0⟩ :=
    decodeRun_isSome t h56 (dstLen - 3 * ((dstLen + 3) / 4)) d0 r0n
  obtain ⟨oa1, da1, ra1, hra1⟩ :=
    decodeRun_isSome t h56 (dstLen - 3 * ((dstLen + 3) / 4)) d1 r1n
  obtain ⟨oa2, da2, ra2, hra2⟩ :=
    decodeRun_isSome t h56 (dstLen - 3 * ((dstLen + 3) / 4)) d2 r2n
  obtain ⟨oa3, da3, ra3, hra3⟩ :=
    decodeRun_isSome t h56 (dstLen - 3 * ((dstLen + 3) / 4)) d3 r3n
  obtain ⟨ob0, db0, rb0, hrb0⟩ :=
    decodeRun_isSome t h56 ((dstLen + 3) / 4 - (dstLen - 3 * ((dstLen + 3) / 4))) da0 ra0
  obtain ⟨ob1, db1, rb1, hrb1⟩ :=
    decodeRun_isSome t h56 ((dstLen + 3) / 4 - (dstLen - 3 * ((dstLen + 3) / 4))) da1 ra1
  obtain ⟨ob2, db2, rb2, hrb2⟩ :=
    decodeRun_isSome t h56 ((dstLen + 3) / 4 - (dstLen - 3 * ((dstLen + 3) / 4))) da2 ra2
  rw [burst4_eq_runs t _ _ _ _ _ _ _ _ _ _ _ _ _ _ _ _ _ _ _ _ _ hra0 hra1 hra2 hra3]
  dsimp only
  rw [burst3_eq_runs t _ _ _ _ _ _ _ _ _ _ _ _ _ _ _ _ hrb0 hrb1 hrb2]
  dsimp only
  have hsplit : (dstLen - 3 * ((dstLen + 3) / 4)) +
      ((dstLen + 3) / 4 - (dstLen - 3 * ((dstLen + 3) / 4))) = (dstLen + 3) / 4 := by
    omega
  have hfull0 := decodeRun_append t _ _ _ _ _ _ _ _ _ _ hra0 hrb0
  rw [hsplit] at hfull0
  have hfull1 := decodeRun_append t _ _ _ _ _ _ _ _ _ _ hra1 hrb1
  rw [hsplit] at hfull1
  have hfull2 := decodeRun_append t _ _ _ _ _ _ _ _ _ _ hra2 hrb2
  rw [hsplit] at hfull2
  rw [hfull0]
  dsimp only
  rw [hfull1]
  dsimp only
  rw [hfull2]
  dsimp only
  rw [hra3]


/-- C10 witness: the equivalence applied to a concrete 16-byte 4-stream
decode over the weights-`[1]` table. -/
theorem C10_four_streams_witness :
    huffStreams4 ([2, 0, 2, 0, 2, 0] ++ [0x80, 0x0D, 0x80, 0x0D, 0x80, 0x0D, 0x80, 0x0D]) 16
      { entries := [{ symbol := 0, nBits := 1 }, { symbol := 1, nBits := 1 }],
        nEntries := 2, maxBits := 1 } =
    specFourStreams ([2, 0, 2, 0, 2, 0] ++ [0x80, 0x0D, 0x80, 0x0D, 0x80, 0x0D, 0x80, 0x0D]) 16
      { entries := [{ symbol := 0, nBits := 1 }, { symbol := 1, nBits := 1 }],
        nEntries := 2, maxBits := 1 } :=
  C10_four_streams _ 16 _ (by decide) (by decide) (by decide)


/-! ## C1: denotational correctness of the reverse bit reader -/

theorem log2Go_eq_log2 : ∀ fuel n, n < 2 ^ fuel → log2Go fuel n = Nat.log2 n := by
  intro fuel
  induction fuel with
  | zero =>
    intro n h
    interval_cases n
    simp [log2Go, Nat.log2]
  | succ fuel ih =>
    intro n h
    rw [log2Go, Nat.log2]
    by_cases h2 : n ≥ 2
    · rw [if_pos h2, if_pos h2, ih (n / 2) (by omega)]
    · rw [if_neg h2, if_neg h2]

theorem log2w_eq_log2 (n : Nat) (h : n < 2 ^ 64) : log2w n = Nat.log2 n :=
  log2Go_eq_log2 64 n h

theorem lowBits_length (x k : Nat) : (lowBits x k).length = k := by
  simp [lowBits]

theorem lowBits_mod (x k : Nat) : lowBits (x % 2 ^ k) k = lowBits x k := by
  simp only [lowBits]
  refine List.map_congr_left ?_
  intro i hi
  rw [List.mem_range] at hi
  rw [Nat.testBit_mod_two_pow]
  simp [hi]

theorem lowBits_zero_bits (k : Nat) : lowBits 0 k = List.replicate k 0 := by
  simp only [lowBits]
  rw [List.eq_replicate_iff]
  refine ⟨by simp, ?_⟩
  intro b hb
  simp only [List.mem_map] at hb
  obtain ⟨i, _, hi⟩ := hb
  simp [Nat.zero_testBit] at hi
  omega

theorem lowBits_succ (x k : Nat) :
    lowBits x (k + 1) =
      (if x.testBit 0 then 1 else 0) :: lowBits (x >>> 1) k := by
  simp only [lowBits, List.range_succ_eq_map, List.map_cons, List.map_map]
  congr 1
  refine List.map_congr_left ?_
  intro i _
  simp only [Function.comp_apply, Nat.testBit_shiftRight]
  rw [Nat.add_comm]

theorem lowBits_add (x a b : Nat) :
    lowBits x (a + b) =
      lowBits x a ++ (List.range b).map (fun j => if x.testBit (a + j) then 1 else 0) := by
  simp only [lowBits]
  rw [List.range_add, List.map_append, List.map_map]
  rfl

theorem lowBits_of_ge (x a : Nat) (hx : x < 2 ^ a) (k : Nat) :
    (List.range k).map (fun j => if x.testBit (a + j) then 1 else 0) =
      List.replicate k 0 := by
  rw [List.eq_replicate_iff]
  refine ⟨by simp, ?_⟩
  intro c hc
  simp only [List.mem_map] at hc
  obtain ⟨i, _, hi⟩ := hc
  rw [Nat.testBit_lt_two_pow
    (lt_of_lt_of_le hx (Nat.pow_le_pow_right (by norm_num) (by omega)))] at hi
  simp at hi
  omega

theorem byteBitsLE_length (b : Nat) : (byteBitsLE b).length = 8 := by
  simp [byteBitsLE, lowBits_length]

theorem flatMap_byteBitsLE_length (l : List Nat) :
    (l.flatMap byteBitsLE).length = 8 * l.length := by
  induction l with
  | nil => simp
  | cons b rest ih =>
    simp [List.flatMap_cons, ih, byteBitsLE_length]
    omega

theorem lowBits_lor_shift (buf bc b : Nat) (hbuf : buf < 2 ^ bc)
    (_hb : b < 256) :
    lowBits (buf ||| b <<< bc) (bc + 8) = lowBits buf bc ++ byteBitsLE b := by
  rw [lowBits_add]
  congr 1
  · simp only [lowBits]
    refine List.map_congr_left ?_
    intro i hi
    rw [List.mem_range] at hi
    rw [Nat.testBit_lor, Nat.testBit_shiftLeft]
    have : decide (bc ≤ i) = false := by simp; omega
    rw [this]
    simp
  · simp only [byteBitsLE, lowBits]
    refine List.map_congr_left ?_
    intro i _
    rw [Nat.testBit_lor, Nat.testBit_shiftLeft]
    have h1 : buf.testBit (bc + i) = false :=
      Nat.testBit_lt_two_pow
        (lt_of_lt_of_le hbuf (Nat.pow_le_pow_right (by norm_num) (by omega)))
    have h2 : decide (bc ≤ bc + i) = true := by simp
    rw [h1, h2, Nat.add_sub_cancel_left]
    simp

theorem orBytes_spec : ∀ (bytes : List Nat) (buf bc : Nat),
    buf < 2 ^ bc → (∀ b ∈ bytes, b < 256) →
    lowBits (ReverseBitReader.orBytes buf bc bytes) (bc + 8 * bytes.length) =
      lowBits buf bc ++ bytes.flatMap byteBitsLE ∧
    ReverseBitReader.orBytes buf bc bytes < 2 ^ (bc + 8 * bytes.length) := by
  intro bytes
  induction bytes with
  | nil =>
    intro buf bc hbuf _
    simp [ReverseBitReader.orBytes, hbuf]
  | cons b rest ih =>
    intro buf bc hbuf hall
    have hb : b < 256 := hall b (by simp)
    have hrest : ∀ x ∈ rest, x < 256 := fun x hx => hall x (by simp [hx])
    have hbuf2 : buf ||| b <<< bc < 2 ^ (bc + 8) := by
      refine Nat.or_lt_two_pow ?_ ?_
      · exact lt_of_lt_of_le hbuf (Nat.pow_le_pow_right (by norm_num) (by omega))
      · rw [Nat.shiftLeft_eq]
        calc b * 2 ^ bc < 256 * 2 ^ bc :=
              Nat.mul_lt_mul_of_pos_right hb (Nat.pos_pow_of_pos bc (by norm_num))
          _ = 2 ^ (bc + 8) := by rw [Nat.pow_add]; ring
    obtain ⟨ih1, ih2⟩ := ih (buf ||| b <<< bc) (bc + 8) hbuf2 hrest
    constructor
    · have harith : bc + 8 * (b :: rest).length = (bc + 8) + 8 * rest.length := by
        simp
        omega
      rw [harith]
      show lowBits (ReverseBitReader.orBytes (buf ||| b <<< bc) (bc + 8) rest) _ = _
      rw [ih1, lowBits_lor_shift buf bc b hbuf hb]
      simp [List.flatMap_cons]
    · have harith : bc + 8 * (b :: rest).length = (bc + 8) + 8 * rest.length := by
        simp
        omega
      rw [harith]
      exact ih2

theorem bytesValLE_spec : ∀ (l : List Nat), (∀ b ∈ l, b < 256) →
    lowBits (bytesValLE l) (8 * l.length) = l.flatMap byteBitsLE ∧
    bytesValLE l < 2 ^ (8 * l.length) := by
  intro l
  induction l with
  | nil => simp [bytesValLE, lowBits]
  | cons b rest ih =>
    intro hall
    have hb : b < 256 := hall b (by simp)
    obtain ⟨ih1, ih2⟩ := ih (fun x hx => hall x (by simp [hx]))
    have hval : bytesValLE (b :: rest) = 2 ^ 8 * bytesValLE rest + b := by
      simp [bytesValLE]
      omega
    constructor
    · have harith : 8 * (b :: rest).length = 8 + 8 * rest.length := by simp; omega
      rw [harith, hval, lowBits_add, List.flatMap_cons]
      congr 1
      · simp only [lowBits, byteBitsLE]
        refine List.map_congr_left ?_
        intro i hi
        rw [List.mem_range] at hi
        rw [Nat.testBit_mul_pow_two_add _ (show b < 2 ^ 8 from hb)]
        simp [hi]
      · rw [← ih1]
        simp only [lowBits]
        refine List.map_congr_left ?_
        intro i _
        rw [Nat.testBit_mul_pow_two_add _ (show b < 2 ^ 8 from hb)]
        simp
    · have harith : 8 * (b :: rest).length = 8 + 8 * rest.length := by simp; omega
      rw [harith, hval]
      have : 2 ^ (8 + 8 * rest.length) = 2 ^ 8 * 2 ^ (8 * rest.length) := by
        rw [Nat.pow_add]
      rw [this]
      calc 2 ^ 8 * bytesValLE rest + b < 2 ^ 8 * bytesValLE rest + 2 ^ 8 := by omega
        _ = 2 ^ 8 * (bytesValLE rest + 1) := by ring
        _ ≤ 2 ^ 8 * 2 ^ (8 * rest.length) := by
            exact Nat.mul_le_mul_left _ (by omega)

theorem bytesValLE_append_single : ∀ (m : List Nat) (b : Nat),
    bytesValLE (m ++ [b]) = bytesValLE m + b * 256 ^ m.length := by
  intro m
  induction m with
  | nil => intro b; simp [bytesValLE]
  | cons c rest ih =>
    intro b
    simp only [List.cons_append, bytesValLE, List.length_cons]
    rw [show rest.append [b] = rest ++ [b] from rfl, ih b]
    ring

theorem fromBeBytes_eq_valLE : ∀ (l : List Nat),
    ReverseBitReader.fromBeBytes l = bytesValLE l.reverse := by
  have hgen : ∀ (l : List Nat) (acc : Nat),
      l.foldl (fun acc b => acc * 256 + b) acc =
        bytesValLE l.reverse + acc * 256 ^ l.length := by
    intro l
    induction l with
    | nil => intro acc; simp [bytesValLE]
    | cons b rest ih =>
      intro acc
      simp only [List.foldl_cons, List.reverse_cons]
      rw [ih (acc * 256 + b), bytesValLE_append_single, List.length_reverse,
        List.length_cons]
      ring
  intro l
  have := hgen l 0
  simpa [ReverseBitReader.fromBeBytes] using this

theorem denot_length (s : ReverseBitReader) :
    (ReverseBitReader.denot s).length = s.bitsRemaining := by
  simp only [ReverseBitReader.denot, ReverseBitReader.bitsRemaining,
    List.length_append, lowBits_length, flatMap_byteBitsLE_length,
    List.length_reverse]
  omega

theorem refill_spec (s : ReverseBitReader) (h : ReverseBitReader.wf s) :
    ReverseBitReader.wf s.refill ∧
      ReverseBitReader.denot s.refill = ReverseBitReader.denot s := by
  obtain ⟨hbuf, hbc, hsrc⟩ := h
  unfold ReverseBitReader.refill
  by_cases hc : (64 - s.bitCount) / 8 = 0
  · rw [if_pos hc]
    exact ⟨⟨hbuf, hbc, hsrc⟩, rfl⟩
  · rw [if_neg hc]
    by_cases ht : min ((64 - s.bitCount) / 8) s.src.length < 8
    · rw [if_pos ht]
      unfold ReverseBitReader.refillCold
      set T := min (min ((64 - s.bitCount) / 8) s.src.length) s.src.length with hT
      have hTlen : T ≤ s.src.length := by omega
      have hTbound : s.bitCount + 8 * T ≤ 64 := by
        have : T ≤ (64 - s.bitCount) / 8 := by omega
        omega
      have hdroplen : ((s.src.drop (s.src.length - T)).reverse).length = T := by
        simp
        omega
      have hdropmem : ∀ b ∈ (s.src.drop (s.src.length - T)).reverse, b < 256 := by
        intro b hbm
        exact hsrc b (List.mem_of_mem_drop (List.mem_reverse.mp hbm))
      obtain ⟨ho1, ho2⟩ :=
        orBytes_spec ((s.src.drop (s.src.length - T)).reverse) s.buf s.bitCount
          hbuf hdropmem
      rw [hdroplen] at ho1 ho2
      constructor
      · refine ⟨?_, ?_, ?_⟩
        · show ReverseBitReader.orBytes s.buf s.bitCount _ < 2 ^ (s.bitCount + T * 8)
          rw [Nat.mul_comm T 8]
          exact ho2
        · show s.bitCount + T * 8 ≤ 64
          omega
        · intro b hbm
          exact hsrc b (List.mem_of_mem_take hbm)
      · show lowBits _ (s.bitCount + T * 8) ++
            ((s.src.take (s.src.length - T)).reverse).flatMap byteBitsLE =
          lowBits s.buf s.bitCount ++ (s.src.reverse).flatMap byteBitsLE
        rw [Nat.mul_comm T 8, ho1]
        rw [show s.src.reverse =
            (s.src.drop (s.src.length - T)).reverse ++
              (s.src.take (s.src.length - T)).reverse from by
          rw [← List.reverse_append, List.take_append_drop]]
        simp [List.flatMap_append, List.append_assoc]
    · rw [if_neg ht]
      have hcount : (64 - s.bitCount) / 8 ≥ 8 := by omega
      have hbc0 : s.bitCount = 0 := by omega
      have hlen8 : 8 ≤ s.src.length := by omega
      have hbuf0 : s.buf = 0 := by
        rw [hbc0] at hbuf
        omega
      have hdroplen : ((s.src.drop (s.src.length - 8)).reverse).length = 8 := by
        simp
        omega
      have hdropmem : ∀ b ∈ (s.src.drop (s.src.length - 8)).reverse, b < 256 := by
        intro b hbm
        exact hsrc b (List.mem_of_mem_drop (List.mem_reverse.mp hbm))
      obtain ⟨hv1, hv2⟩ :=
        bytesValLE_spec ((s.src.drop (s.src.length - 8)).reverse) hdropmem
      rw [hdroplen] at hv1 hv2
      dsimp only
      rw [fromBeBytes_eq_valLE]
      constructor
      · refine ⟨?_, le_refl 64, ?_⟩
        · show bytesValLE _ < 2 ^ 64
          exact hv2
        · intro b hbm
          exact hsrc b (List.mem_of_mem_take hbm)
      · show lowBits (bytesValLE _) 64 ++
            ((s.src.take (s.src.length - 8)).reverse).flatMap byteBitsLE =
          lowBits s.buf s.bitCount ++ (s.src.reverse).flatMap byteBitsLE
        rw [show (64 : Nat) = 8 * 8 from rfl, hv1, hbc0, hbuf0]
        rw [show lowBits 0 0 = [] from rfl]
        rw [show s.src.reverse =
            (s.src.drop (s.src.length - 8)).reverse ++
              (s.src.take (s.src.length - 8)).reverse from by
          rw [← List.reverse_append, List.take_append_drop]]
        simp [List.flatMap_append]

theorem refill_progress (s : ReverseBitReader) (hbc : s.bitCount = 0)
    (hsrc : s.src ≠ []) : 1 ≤ s.refill.bitCount := by
  have hlen : 0 < s.src.length := List.length_pos.mpr hsrc
  unfold ReverseBitReader.refill
  rw [hbc]
  norm_num
  by_cases ht : s.src.length < 8
  · rw [if_pos ht]
    unfold ReverseBitReader.refillCold
    dsimp only
    omega
  · rw [if_neg ht]
    dsimp only
    omega

theorem mod_two_as_bit (x : Nat) : x % 2 = if x.testBit 0 then 1 else 0 := by
  rcases Nat.mod_two_eq_zero_or_one x with h | h <;>
    simp [Nat.testBit_zero, h]

theorem read_one_bc_pos (s : ReverseBitReader) (h : ReverseBitReader.wf s)
    (hbc : 1 ≤ s.bitCount) (x : Nat) (xs : List Nat)
    (hd : ReverseBitReader.denot s = x :: xs) :
    ∃ s2, ReverseBitReader.read s 1 = some (.ok (x, s2)) ∧
      ReverseBitReader.wf s2 ∧ ReverseBitReader.denot s2 = xs := by
  obtain ⟨hbuf, hbc64, hsrc⟩ := h
  obtain ⟨k, hk⟩ : ∃ k, s.bitCount = k + 1 := ⟨s.bitCount - 1, by omega⟩
  have hd' : (if s.buf.testBit 0 then 1 else 0) = x ∧
      lowBits (s.buf >>> 1) k ++ s.src.reverse.flatMap byteBitsLE = xs := by
    unfold ReverseBitReader.denot at hd
    rw [hk, lowBits_succ] at hd
    simpa using hd
  refine ⟨ReverseBitReader.consumeUnchecked s 1, ?_, ?_, ?_⟩
  · unfold ReverseBitReader.read
    rw [if_neg (by omega)]
    unfold ReverseBitReader.ensureBits
    rw [if_neg (by omega)]
    show some (Except.ok
        (ReverseBitReader.peek s 1, ReverseBitReader.consumeUnchecked s 1)) =
      some (Except.ok (x, ReverseBitReader.consumeUnchecked s 1))
    unfold ReverseBitReader.peek
    rw [pow_one, mod_two_as_bit, hd'.1]
  · unfold ReverseBitReader.consumeUnchecked ReverseBitReader.wf
    dsimp only
    refine ⟨?_, by omega, hsrc⟩
    rw [Nat.shiftRight_eq_div_pow, pow_one, hk]
    simp only [Nat.add_sub_cancel]
    rw [hk, pow_succ] at hbuf
    omega
  · unfold ReverseBitReader.consumeUnchecked ReverseBitReader.denot
    dsimp only
    rw [hk]
    simp only [Nat.add_sub_cancel]
    exact hd'.2

theorem read_one (s : ReverseBitReader) (h : ReverseBitReader.wf s)
    (x : Nat) (xs : List Nat) (hd : ReverseBitReader.denot s = x :: xs) :
    ∃ s2, ReverseBitReader.read s 1 = some (.ok (x, s2)) ∧
      ReverseBitReader.wf s2 ∧ ReverseBitReader.denot s2 = xs := by
  by_cases hbc : 1 ≤ s.bitCount
  · exact read_one_bc_pos s h hbc x xs hd
  · have hbc0 : s.bitCount = 0 := by omega
    have hsrcne : s.src ≠ [] := by
      intro hempty
      unfold ReverseBitReader.denot at hd
      rw [hbc0, hempty] at hd
      simp [show lowBits s.buf 0 = [] from rfl] at hd
    obtain ⟨hwf2, hdenot2⟩ := refill_spec s h
    have hprog := refill_progress s hbc0 hsrcne
    obtain ⟨s2, hr, hw, hden⟩ := read_one_bc_pos s.refill hwf2 hprog x xs
      (hdenot2.trans hd)
    refine ⟨s2, ?_, hw, hden⟩
    unfold ReverseBitReader.read at hr ⊢
    rw [if_neg (by omega)] at hr ⊢
    unfold ReverseBitReader.ensureBits at hr ⊢
    rw [if_pos (by omega)]
    rw [if_neg (by omega)] at hr
    by_cases hrb : s.refill.bitCount < 1
    · omega
    · rw [if_neg hrb]
      exact hr

theorem readBits_denot : ∀ (bits : List Nat) (s : ReverseBitReader),
    ReverseBitReader.wf s → ReverseBitReader.denot s = bits →
    ReverseBitReader.readBits s bits.length = .ok bits := by
  intro bits
  induction bits with
  | nil =>
    intro s _ _
    rfl
  | cons x xs ih =>
    intro s hwf hd
    obtain ⟨s2, hr, hw, hden⟩ := read_one s hwf x xs hd
    show ReverseBitReader.readBits s (xs.length + 1) = .ok (x :: xs)
    unfold ReverseBitReader.readBits
    rw [hr]
    dsimp only
    rw [ih s2 hw hden]

/-- C1 (amended): for any non-empty byte slice whose last byte is non-zero,
`ReverseBitReader::new` succeeds; the resulting reader reports
`bits_remaining = log2(last) + 8 * (len - 1)` (the sentinel bit is consumed),
and reading the stream one bit at a time yields the bits of the last byte
below the sentinel LSB-first, then the remaining bytes tail-to-head, each
LSB-first — not the MSB-first order the claim states. -/
theorem C1_reverse_reader_bits (bytes : List Nat) (last : Nat)
    (hbytes : ∀ b ∈ bytes, b < 256) (hlast : bytes.getLast? = some last)
    (hnz : last ≠ 0) :
    ∃ s, ReverseBitReader.new bytes = .ok s ∧
      s.bitsRemaining = log2w last + 8 * (bytes.length - 1) ∧
      ReverseBitReader.readBits s s.bitsRemaining =
        .ok (revBitsLsbFirst bytes) := by
  have hmem : last ∈ bytes := by
    obtain ⟨h, hx⟩ := @List.mem_getLast?_eq_getLast Nat bytes last
      (Option.mem_def.mpr hlast)
    rw [hx]
    exact List.getLast_mem h
  have h256 : last < 256 := hbytes last hmem
  have hp : log2w last < 8 := by
    rw [log2w_eq_log2 last (by omega)]
    exact (Nat.log2_lt hnz).mpr h256
  have hwf : ReverseBitReader.wf
      ⟨bytes.dropLast, last % 2 ^ log2w last, log2w last⟩ := by
    refine ⟨Nat.mod_lt _ (Nat.pos_pow_of_pos _ (by omega)), ?_, ?_⟩
    · show log2w last ≤ 64
      omega
    · intro b hb
      exact hbytes b (List.dropLast_subset _ hb)
  have hden : ReverseBitReader.denot
      ⟨bytes.dropLast, last % 2 ^ log2w last, log2w last⟩ =
      revBitsLsbFirst bytes := by
    unfold ReverseBitReader.denot revBitsLsbFirst
    rw [hlast]
    dsimp only
    rw [lowBits_mod]
    rfl
  have hlen : ReverseBitReader.bitsRemaining
      ⟨bytes.dropLast, last % 2 ^ log2w last, log2w last⟩ =
      (revBitsLsbFirst bytes).length := by
    rw [← denot_length, hden]
  refine ⟨⟨bytes.dropLast, last % 2 ^ log2w last, log2w last⟩, ?_, ?_, ?_⟩
  · unfold ReverseBitReader.new
    rw [hlast]
    dsimp only
    rw [if_neg hnz]
  · show log2w last + bytes.dropLast.length * 8 = _
    rw [List.length_dropLast]
    ring
  · rw [show ReverseBitReader.bitsRemaining
        ⟨bytes.dropLast, last % 2 ^ log2w last, log2w last⟩ =
        (revBitsLsbFirst bytes).length from hlen]
    exact readBits_denot (revBitsLsbFirst bytes) _ hwf hden

theorem C1_reverse_reader_bits_witness :
    ∃ s, ReverseBitReader.new [0xAA, 0x1D] = .ok s ∧
      s.bitsRemaining = log2w 0x1D + 8 * ([0xAA, 0x1D].length - 1) ∧
      ReverseBitReader.readBits s s.bitsRemaining =
        .ok (revBitsLsbFirst [0xAA, 0x1D]) :=
  C1_reverse_reader_bits [0xAA, 0x1D] 0x1D (by decide) (by decide) (by decide)


/-! ## C4: Window.copy_within versus the naive propagating copy -/

theorem listExtGetD (l₁ l₂ : List Nat) (hlen : l₁.length = l₂.length)
    (h : ∀ j, l₁.getD j 0 = l₂.getD j 0) : l₁ = l₂ := by
  apply List.ext_getElem hlen
  intro i h1 h2
  have := h i
  rwa [List.getD_eq_getElem l₁ 0 h1, List.getD_eq_getElem l₂ 0 h2] at this

theorem listGetD_set (l : List Nat) (i a j : Nat) :
    (l.set i a).getD j 0 =
      if i = j ∧ i < l.length then a else l.getD j 0 := by
  rw [List.getD_eq_getElem?_getD, List.getD_eq_getElem?_getD,
    List.getElem?_set]
  by_cases hij : i = j
  · subst hij
    by_cases hl : i < l.length
    · simp [hl]
    · simp [hl]
      rw [List.getElem?_eq_none (by omega)]
      rfl
  · simp [hij]

theorem specNaiveCopy_length : ∀ (n : Nat) (buf : List Nat) (index offset : Nat),
    (specNaiveCopy buf index offset n).length = buf.length := by
  intro n
  induction n with
  | zero => intro buf index offset; rfl
  | succ n ih =>
    intro buf index offset
    rw [specNaiveCopy, ih]
    exact List.length_set ..

theorem specNaiveCopy_getD : ∀ (n : Nat) (buf : List Nat) (index offset j : Nat),
    1 ≤ offset → offset ≤ index → index + n ≤ buf.length →
    (specNaiveCopy buf index offset n).getD j 0 =
      if index ≤ j ∧ j < index + n then
        buf.getD (index - offset + (j - index) % offset) 0
      else buf.getD j 0 := by
  intro n
  induction n with
  | zero =>
    intro buf index offset j h1 h2 h3
    rw [if_neg (by omega)]
    rfl
  | succ n ih =>
    intro buf index offset j h1 h2 h3
    rw [specNaiveCopy]
    rw [ih (buf.set index (buf.getD (index - offset) 0)) (index + 1) offset j
      h1 (by omega) (by rw [List.length_set]; omega)]
    by_cases hj1 : j < index
    · rw [if_neg (by omega), if_neg (by omega), listGetD_set,
        if_neg (by omega)]
    · by_cases hj2 : j = index
      · subst hj2
        rw [if_neg (by omega), if_pos (by omega), listGetD_set,
          if_pos ⟨rfl, by omega⟩]
        simp
    -- j > index
      · by_cases hj3 : j < index + 1 + n
        · rw [if_pos (by omega), if_pos (by omega)]
          obtain ⟨q, r, hqr, hr⟩ :
              ∃ q r, j - index - 1 = offset * q + r ∧ r < offset :=
            ⟨(j - index - 1) / offset, (j - index - 1) % offset,
              (Nat.div_add_mod (j - index - 1) offset).symm,
              Nat.mod_lt _ (by omega)⟩
          have hm1 : (j - (index + 1)) % offset = r := by
            rw [show j - (index + 1) = offset * q + r from by omega,
              Nat.mul_add_mod, Nat.mod_eq_of_lt hr]
          by_cases hrtop : r + 1 = offset
          · have hm2 : (j - index) % offset = 0 := by
              rw [show j - index = offset * q + offset from by omega,
                ← Nat.mul_succ]
              exact Nat.mul_mod_right ..
            rw [hm1, hm2, listGetD_set, if_pos ⟨by omega, by omega⟩]
            simp
          · have hm2 : (j - index) % offset = r + 1 := by
              rw [show j - index = offset * q + (r + 1) from by omega,
                Nat.mul_add_mod, Nat.mod_eq_of_lt (by omega)]
            rw [hm1, hm2, listGetD_set, if_neg (by omega)]
            congr 1
            omega
        · rw [if_neg (by omega), if_neg (by omega), listGetD_set,
            if_neg (by omega)]

theorem listCopyWithin_length (l : List Nat) (src len dst : Nat)
    (h1 : src + len ≤ l.length) (h2 : dst + len ≤ l.length) :
    (listCopyWithin l src len dst).length = l.length := by
  simp [listCopyWithin]
  omega

theorem listCopyWithin_getD (l : List Nat) (src len dst j : Nat)
    (h1 : src + len ≤ l.length) (h2 : dst + len ≤ l.length) :
    (listCopyWithin l src len dst).getD j 0 =
      if dst ≤ j ∧ j < dst + len then l.getD (src + (j - dst)) 0
      else l.getD j 0 := by
  unfold listCopyWithin
  rw [List.append_assoc]
  have hlt : (l.take dst).length = dst := by simp; omega
  have hlm : ((l.drop src).take len).length = len := by simp; omega
  by_cases hj1 : j < dst
  · rw [List.getD_append _ _ 0 j (by omega), if_neg (by omega)]
    rw [List.getD_eq_getElem?_getD, List.getD_eq_getElem?_getD,
      List.getElem?_take_of_lt hj1]
  · rw [List.getD_append_right _ _ 0 j (by omega), hlt]
    by_cases hj2 : j < dst + len
    · rw [List.getD_append _ _ 0 (j - dst) (by omega), if_pos (by omega)]
      rw [List.getD_eq_getElem?_getD, List.getD_eq_getElem?_getD,
        List.getElem?_take_of_lt (by omega), List.getElem?_drop]
    · rw [List.getD_append_right _ _ 0 (j - dst) (by omega), hlm,
        if_neg (by omega)]
      rw [List.getD_eq_getElem?_getD, List.getD_eq_getElem?_getD,
        List.getElem?_drop, show dst + len + (j - dst - len) = j from by omega]

theorem listFill_length (l : List Nat) (start len v : Nat)
    (h : start + len ≤ l.length) :
    (listFill l start len v).length = l.length := by
  simp [listFill]
  omega

theorem listFill_getD (l : List Nat) (start len v j : Nat)
    (h : start + len ≤ l.length) :
    (listFill l start len v).getD j 0 =
      if start ≤ j ∧ j < start + len then v else l.getD j 0 := by
  unfold listFill
  rw [List.append_assoc]
  have hlt : (l.take start).length = start := by simp; omega
  by_cases hj1 : j < start
  · rw [List.getD_append _ _ 0 j (by omega), if_neg (by omega)]
    rw [List.getD_eq_getElem?_getD, List.getD_eq_getElem?_getD,
      List.getElem?_take_of_lt hj1]
  · rw [List.getD_append_right _ _ 0 j (by omega), hlt]
    by_cases hj2 : j < start + len
    · rw [List.getD_append _ _ 0 (j - start) (by simp; omega), if_pos (by omega)]
      rw [List.getD_eq_getElem, List.getElem_replicate]
      simp
      omega
    · rw [List.getD_append_right _ _ 0 (j - start) (by simp; omega),
        List.length_replicate, if_neg (by omega)]
      rw [List.getD_eq_getElem?_getD, List.getD_eq_getElem?_getD,
        List.getElem?_drop, show start + len + (j - start - len) = j from by omega]

theorem copy_block_eq (buf : List Nat) (index offset n : Nat)
    (h1 : 1 ≤ offset) (h2 : offset ≤ index) (h3 : n ≤ offset)
    (h4 : index + n ≤ buf.length) :
    listCopyWithin buf (index - offset) n index =
      specNaiveCopy buf index offset n := by
  apply listExtGetD
  · rw [listCopyWithin_length _ _ _ _ (by omega) (by omega),
      specNaiveCopy_length]
  · intro j
    rw [listCopyWithin_getD _ _ _ _ _ (by omega) (by omega),
      specNaiveCopy_getD n buf index offset j h1 h2 h4]
    by_cases hj : index ≤ j ∧ j < index + n
    · rw [if_pos hj, if_pos hj,
        Nat.mod_eq_of_lt (show j - index < offset from by omega)]
    · rw [if_neg hj, if_neg hj]

theorem copy_fill_eq (buf : List Nat) (index n : Nat)
    (h2 : 1 ≤ index) (h4 : index + n ≤ buf.length) :
    listFill buf index n (buf.getD (index - 1) 0) =
      specNaiveCopy buf index 1 n := by
  apply listExtGetD
  · rw [listFill_length _ _ _ _ (by omega), specNaiveCopy_length]
  · intro j
    rw [listFill_getD _ _ _ _ _ (by omega),
      specNaiveCopy_getD n buf index 1 j (le_refl 1) h2 h4]
    by_cases hj : index ≤ j ∧ j < index + n
    · rw [if_pos hj, if_pos hj]
      simp [Nat.mod_one]
    · rw [if_neg hj, if_neg hj]

theorem expand_step (buf bufCur : List Nat) (index offset copied copyLen : Nat)
    (hcur : bufCur = specNaiveCopy buf index offset copied)
    (hdvd : offset ∣ copied)
    (h1 : 1 ≤ offset) (h2 : offset ≤ index)
    (hcl : copyLen ≤ copied)
    (h4 : index + copied + copyLen ≤ buf.length) :
    listCopyWithin bufCur index copyLen (index + copied) =
      specNaiveCopy buf index offset (copied + copyLen) := by
  subst hcur
  have hlen : (specNaiveCopy buf index offset copied).length = buf.length :=
    specNaiveCopy_length copied buf index offset
  apply listExtGetD
  · rw [listCopyWithin_length _ _ _ _ (by omega) (by omega), hlen,
      specNaiveCopy_length]
  · intro j
    rw [listCopyWithin_getD _ _ _ _ _ (by rw [hlen]; omega) (by rw [hlen]; omega),
      specNaiveCopy_getD copied buf index offset
        (index + (j - (index + copied))) h1 h2 (by omega),
      specNaiveCopy_getD copied buf index offset j h1 h2 (by omega),
      specNaiveCopy_getD (copied + copyLen) buf index offset j h1 h2 (by omega)]
    obtain ⟨q, hq⟩ := hdvd
    by_cases hA : index + copied ≤ j ∧ j < index + copied + copyLen
    · rw [if_pos hA, if_pos (show index ≤ index + (j - (index + copied)) ∧
          index + (j - (index + copied)) < index + copied from by omega),
        if_pos (show index ≤ j ∧ j < index + (copied + copyLen) from by omega)]
      have hmod : (j - index) % offset =
          (index + (j - (index + copied)) - index) % offset := by
        conv_lhs =>
          rw [show j - index = copied + (index + (j - (index + copied)) - index)
            from by omega]
        rw [hq, Nat.mul_add_mod]
      rw [hmod]
    · by_cases hB : index ≤ j ∧ j < index + copied
      · rw [if_neg hA, if_pos hB,
          if_pos (show index ≤ j ∧ j < index + (copied + copyLen) from by omega)]
      · rw [if_neg hA, if_neg hB,
          if_neg (show ¬(index ≤ j ∧ j < index + (copied + copyLen)) from by omega)]

theorem expandLoopGo_spec : ∀ (fuel : Nat) (buf bufCur : List Nat)
    (index offset n copied : Nat),
    bufCur = specNaiveCopy buf index offset copied →
    (offset ∣ copied ∨ copied = n) →
    offset ≤ copied → copied ≤ n → n ≤ copied + fuel →
    1 ≤ offset → offset ≤ index → index + n ≤ buf.length →
    Window.expandLoopGo fuel bufCur index n copied = specNaiveCopy buf index offset n := by
  intro fuel
  induction fuel with
  | zero =>
    intro buf bufCur index offset n copied hcur hdvd hoc hcn hfuel h1 h2 h3
    have hcop : copied = n := by omega
    subst hcop
    exact hcur
  | succ fuel ih =>
    intro buf bufCur index offset n copied hcur hdvd hoc hcn hfuel h1 h2 h3
    simp only [Window.expandLoopGo]
    by_cases hlt : copied < n
    · rw [if_pos hlt]
      have hdvd' : offset ∣ copied := by
        rcases hdvd with h | h
        · exact h
        · exact absurd h (Nat.ne_of_lt hlt)
      rw [if_neg (show ¬(min copied (n - copied) = 0) from by omega)]
      rw [expand_step buf bufCur index offset copied (min copied (n - copied))
        hcur hdvd' h1 h2 (by omega) (by omega)]
      apply ih buf _ index offset n (copied + min copied (n - copied)) rfl
      · by_cases hm : n - copied ≤ copied
        · exact Or.inr (by omega)
        · refine Or.inl ?_
          rw [show min copied (n - copied) = copied from by omega]
          exact dvd_add hdvd' hdvd'
      · omega
      · omega
      · omega
      · exact h1
      · exact h2
      · exact h3
    · rw [if_neg hlt]
      have hcop : copied = n := by omega
      subst hcop
      exact hcur

theorem copy_expand_eq (buf : List Nat) (index offset n : Nat)
    (h1 : 1 ≤ offset) (h2 : offset ≤ index) (h3 : offset < n)
    (h4 : index + n ≤ buf.length) :
    Window.expandLoop (listCopyWithin buf (index - offset) offset index)
        index n offset =
      specNaiveCopy buf index offset n := by
  unfold Window.expandLoop
  exact expandLoopGo_spec n buf _ index offset n offset
    (copy_block_eq buf index offset offset h1 h2 (le_refl offset)
      (by omega))
    (Or.inl (dvd_refl offset)) (le_refl offset) (by omega) (by omega) h1 h2 h4

/-- C4 (amended): under the claim's preconditions
(`buf.len() >= size + MAX_BLOCK_SIZE`, `1 <= offset <= min(index, size)`,
`n_bytes <= MAX_BLOCK_SIZE`, plus the window invariant
`index <= buf.len()`), `Window::copy_within` succeeds and all three paths
(the non-overlapping block copy, the `offset == 1` fill fast path, and the
power-of-two expansion loop) write exactly the bytes of the naive
propagating reference copy — but relative to the post-shift state: when
`index + n_bytes > buf.len()` the window first shifts, and the final index
is the post-shift index plus `n_bytes`, not the original index plus
`n_bytes` as the claim states. -/
theorem C4_copy_within (w : Window) (offset n : Nat)
    (hbuf : w.size + MAX_BLOCK_SIZE ≤ w.buf.length)
    (hidx : w.index ≤ w.buf.length)
    (hn : n ≤ MAX_BLOCK_SIZE)
    (hoff1 : 1 ≤ offset) (hoff2 : offset ≤ min w.index w.size) :
    ∃ w2, Window.copyWithin w offset n = .ok w2 ∧
      w2.buf = specNaiveCopy
        (if w.index + n > w.buf.length then w.shift else w).buf
        (if w.index + n > w.buf.length then w.shift else w).index offset n ∧
      w2.index = (if w.index + n > w.buf.length then w.shift else w).index + n := by
  set ws := if w.index + n > w.buf.length then w.shift else w with hws
  have hfacts : ws.buf.length = w.buf.length ∧ ws.size = w.size ∧
      offset ≤ ws.index ∧ ws.index + n ≤ ws.buf.length ∧
      offset ≤ min ws.index ws.size := by
    rw [hws]
    by_cases hc : w.index + n > w.buf.length
    · rw [if_pos hc]
      have hgt : w.size < w.index := by omega
      unfold Window.shift
      rw [if_neg (by omega)]
      dsimp only
      have hlen := listCopyWithin_length w.buf (w.index - w.size) w.size 0
        (by omega) (by omega)
      exact ⟨hlen, rfl, by omega, by rw [hlen]; omega, by omega⟩
    · rw [if_neg hc]
      exact ⟨rfl, rfl, by omega, by omega, hoff2⟩
  obtain ⟨hlen, hsz, hwidx, hwlen, hwav⟩ := hfacts
  unfold Window.copyWithin
  rw [← hws]
  dsimp only
  rw [if_neg (show ¬(offset = 0 ∨ offset > min ws.index ws.size) from by omega)]
  by_cases hb1 : offset ≥ n
  · rw [if_pos hb1]
    exact ⟨_, rfl, copy_block_eq ws.buf ws.index offset n hoff1 hwidx hb1 hwlen,
      rfl⟩
  · rw [if_neg hb1]
    by_cases hb2 : offset = 1
    · rw [if_pos hb2]
      subst hb2
      exact ⟨_, rfl, copy_fill_eq ws.buf ws.index n (by omega) hwlen, rfl⟩
    · rw [if_neg hb2]
      rw [show min offset n = offset from by omega]
      exact ⟨_, rfl,
        copy_expand_eq ws.buf ws.index offset n hoff1 hwidx (by omega) hwlen,
        rfl⟩

theorem C4_copy_within_witness :
    ∃ w2, Window.copyWithin ⟨List.replicate 131073 0, 1, 1⟩ 1 1 = .ok w2 ∧
      w2.buf = specNaiveCopy
        (if 1 + 1 > (List.replicate 131073 (0:Nat)).length
          then Window.shift ⟨List.replicate 131073 0, 1, 1⟩
          else ⟨List.replicate 131073 0, 1, 1⟩).buf
        (if 1 + 1 > (List.replicate 131073 (0:Nat)).length
          then Window.shift ⟨List.replicate 131073 0, 1, 1⟩
          else ⟨List.replicate 131073 0, 1, 1⟩).index 1 1 ∧
      w2.index = (if 1 + 1 > (List.replicate 131073 (0:Nat)).length
          then Window.shift ⟨List.replicate 131073 0, 1, 1⟩
          else ⟨List.replicate 131073 0, 1, 1⟩).index + 1 :=
  C4_copy_within ⟨List.replicate 131073 0, 1, 1⟩ 1 1
    (by show 1 + MAX_BLOCK_SIZE ≤ (List.replicate 131073 (0:Nat)).length
        rw [List.length_replicate]
        norm_num [MAX_BLOCK_SIZE])
    (by show (1:Nat) ≤ (List.replicate 131073 (0:Nat)).length
        rw [List.length_replicate]
        norm_num)
    (by show (1:Nat) ≤ MAX_BLOCK_SIZE
        norm_num [MAX_BLOCK_SIZE])
    (le_refl 1)
    (by show (1:Nat) ≤ min 1 1
        decide)

/-- C4 (counterexample): a window satisfying every precondition of the
claim (`buf.len() = size + MAX_BLOCK_SIZE`, `offset = 2 ∈ [1, min(index,
size)]`, `n_bytes = 2 <= MAX_BLOCK_SIZE`) for which `copy_within` succeeds
but does NOT increase `index` by `n_bytes`: the pre-copy shift resets
`index` from 131073 to `size = 2`, so the final index is 4, not 131075. -/
theorem C4_counterexample :
    (List.replicate 131074 (0:Nat)).length = 2 + MAX_BLOCK_SIZE ∧
    (1 ≤ 2 ∧ 2 ≤ min 131073 2 ∧ 2 ≤ MAX_BLOCK_SIZE) ∧
    ∃ w2, Window.copyWithin ⟨List.replicate 131074 0, 2, 131073⟩ 2 2 = .ok w2 ∧
      w2.index = 4 ∧ 131073 + 2 ≠ 4 := by
  refine ⟨?_, ⟨by norm_num, by norm_num, by norm_num [MAX_BLOCK_SIZE]⟩, ?_⟩
  · rw [List.length_replicate]
    norm_num [MAX_BLOCK_SIZE]
  · unfold Window.copyWithin Window.shift
    dsimp only
    rw [show (List.replicate 131074 (0:Nat)).length = 131074 from
      List.length_replicate ..]
    norm_num


/-! ## C3: Huff0 canonical table layout -/

theorem listGetD_set_any {α : Type} (l : List α) (d : α) (i j : Nat) (a : α) :
    (l.set i a).getD j d = if i = j ∧ i < l.length then a else l.getD j d := by
  rw [List.getD_eq_getElem?_getD, List.getD_eq_getElem?_getD,
    List.getElem?_set]
  by_cases hij : i = j
  · subst hij
    by_cases hl : i < l.length
    · simp [hl]
    · simp [hl]
      rw [List.getElem?_eq_none (by omega)]
      rfl
  · simp [hij]

theorem huffCum_succ (br : List Nat) (w : Nat) :
    huffCum br (w + 1) = huffCum br w + br.getD w 0 * 2 ^ (w - 1) := by
  unfold huffCum
  rw [List.range_succ, List.map_append, List.sum_append]
  simp

theorem huffCum_mono (br : List Nat) (a b : Nat) (h : a ≤ b) :
    huffCum br a ≤ huffCum br b := by
  induction b with
  | zero =>
    have : a = 0 := by omega
    subst this
    exact le_refl _
  | succ b ih =>
    by_cases hab : a = b + 1
    · subst hab; exact le_refl _
    · have := ih (by omega)
      rw [huffCum_succ]
      omega

theorem writeSlots_length : ∀ (k : Nat) (E : List HuffEntry) (s : Nat)
    (e : HuffEntry), (HuffDecodingTable.writeSlots E s k e).length = E.length := by
  intro k
  induction k with
  | zero => intro E s e; rfl
  | succ k ih =>
    intro E s e
    show (HuffDecodingTable.writeSlots (E.set s e) (s + 1) k e).length = _
    rw [ih, List.length_set]

theorem writeSlots_getD : ∀ (k : Nat) (E : List HuffEntry) (s : Nat)
    (e : HuffEntry) (j : Nat),
    (HuffDecodingTable.writeSlots E s k e).getD j ⟨0, 0⟩ =
      if s ≤ j ∧ j < s + k ∧ j < E.length then e else E.getD j ⟨0, 0⟩ := by
  intro k
  induction k with
  | zero =>
    intro E s e j
    rw [if_neg (by omega)]
    rfl
  | succ k ih =>
    intro E s e j
    show (HuffDecodingTable.writeSlots (E.set s e) (s + 1) k e).getD j ⟨0, 0⟩ = _
    rw [ih, List.length_set, listGetD_set_any]
    by_cases h1 : s + 1 ≤ j ∧ j < s + 1 + k ∧ j < E.length
    · rw [if_pos h1, if_pos (by omega)]
    · rw [if_neg h1]
      by_cases h2 : s = j ∧ s < E.length
      · rw [if_pos h2, if_pos (by omega)]
      · rw [if_neg h2, if_neg (by omega)]

theorem list_getD_map_range {α : Type} : ∀ (l : List α) (d : α),
    (List.range l.length).map (fun j => l.getD j d) = l := by
  intro l
  induction l with
  | nil => intro d; rfl
  | cons a l ih =>
    intro d
    show (List.range (l.length + 1)).map _ = _
    rw [List.range_succ_eq_map, List.map_cons, List.map_map]
    show (a :: (List.range l.length).map fun j => l.getD j d) = a :: l
    rw [ih]

theorem countP_range_Ico (a b : Nat) (hab : a ≤ b) : ∀ (n : Nat),
    (List.range n).countP (fun j => decide (a ≤ j ∧ j < b)) =
      min b n - min a n := by
  intro n
  induction n with
  | zero => simp
  | succ n ih =>
    rw [List.range_succ, List.countP_append, ih]
    show _ + List.countP _ [n] = _
    rw [List.countP_cons, List.countP_nil]
    by_cases h : a ≤ n ∧ n < b
    · rw [decide_eq_true h]
      simp only [if_true]
      omega
    · rw [decide_eq_false h, if_neg (by simp)]
      omega

theorem weightStats_spec : ∀ (ws : List Nat) (s0 m0 : Nat) (b0 : List Nat)
    (sum maxW : Nat) (br : List Nat),
    b0.length = 12 →
    HuffDecodingTable.weightStats ws s0 m0 b0 = some (sum, maxW, br) →
    br.length = 12 ∧
    s0 ≤ sum ∧
    sum = s0 + sumPow ws ∧
    (∀ w ∈ ws, w ≤ 11) ∧
    (∀ w ∈ ws, w ≠ 0 → s0 + 2 ^ (w - 1) ≤ sum) ∧
    (∀ v, 1 ≤ v → v ≤ 11 →
      br.getD v 0 = b0.getD v 0 + ws.countP (fun x => decide (x = v))) ∧
    br.getD 0 0 = b0.getD 0 0 := by
  intro ws
  induction ws with
  | nil =>
    intro s0 m0 b0 sum maxW br hb0 h
    have h' : s0 = sum ∧ m0 = maxW ∧ b0 = br := by
      have := Option.some.inj h
      exact ⟨congrArg (fun p => p.1) this,
        congrArg (fun p => p.2.1) this, congrArg (fun p => p.2.2) this⟩
    obtain ⟨h1, h2, h3⟩ := h'
    subst h1; subst h3
    refine ⟨hb0, le_refl _, by simp [sumPow], by simp, by simp, ?_, rfl⟩
    intro v hv1 hv2
    simp
  | cons w rest ih =>
    intro s0 m0 b0 sum maxW br hb0 h
    rw [HuffDecodingTable.weightStats] at h
    by_cases hw0 : w = 0
    · rw [if_pos hw0] at h
      obtain ⟨h1, h2, h3, h4, h5, h6, h7⟩ := ih s0 m0 b0 sum maxW br hb0 h
      subst hw0
      refine ⟨h1, h2, ?_, ?_, ?_, ?_, h7⟩
      · rw [h3]
        show s0 + sumPow rest = s0 + sumPow (0 :: rest)
        rw [show sumPow (0 :: rest) =
          (if (0:Nat) = 0 then 0 else 2 ^ (0 - 1)) + sumPow rest from by
            simp [sumPow]]
        simp
      · intro x hx
        rcases List.mem_cons.mp hx with h | h
        · omega
        · exact h4 x h
      · intro x hx hx0
        rcases List.mem_cons.mp hx with h | h
        · omega
        · exact h5 x h hx0
      · intro v hv1 hv2
        rw [h6 v hv1 hv2, List.countP_cons]
        rw [decide_eq_false (by omega)]
        simp
    · rw [if_neg hw0] at h
      by_cases hw12 : w ≥ 12
      · rw [if_pos hw12] at h
        exact absurd h (by simp)
      · rw [if_neg hw12] at h
        have hpow : 1 ≤ 2 ^ (w - 1) := Nat.one_le_two_pow
        have hset : (b0.set w (b0.getD w 0 + 1)).length = 12 := by
          rw [List.length_set]; exact hb0
        obtain ⟨h1, h2, h3, h4, h5, h6, h7⟩ :=
          ih (s0 + 2 ^ (w - 1)) (max m0 w) (b0.set w (b0.getD w 0 + 1))
            sum maxW br hset h
        refine ⟨h1, by omega, ?_, ?_, ?_, ?_, ?_⟩
        · rw [h3]
          show s0 + 2 ^ (w - 1) + sumPow rest = s0 + sumPow (w :: rest)
          rw [show sumPow (w :: rest) =
            (if w = 0 then 0 else 2 ^ (w - 1)) + sumPow rest from by
              simp [sumPow], if_neg hw0]
          ring
        · intro x hx
          rcases List.mem_cons.mp hx with h | h
          · omega
          · exact h4 x h
        · intro x hx hx0
          rcases List.mem_cons.mp hx with h | h
          · subst h; omega
          · have := h5 x h hx0
            omega
        · intro v hv1 hv2
          rw [h6 v hv1 hv2, listGetD_set_any, List.countP_cons]
          by_cases hwv : w = v
          · rw [if_pos ⟨hwv, by omega⟩, decide_eq_true hwv]
            subst hwv
            simp
            omega
          · rw [if_neg (by simp [hwv]), decide_eq_false (by omega)]
            simp
        · rw [h7, listGetD_set_any, if_neg (by omega)]

theorem nextCodeGo_some_bound (br : List Nat) : ∀ (k w : Nat) (nc : List Nat)
    (curr : Nat) (p : List Nat × Nat),
    HuffDecodingTable.nextCodeGo br k w nc curr = some p →
    w + k ≤ 12 ∨ k = 0 := by
  intro k
  induction k with
  | zero => intro w nc curr p _; exact Or.inr rfl
  | succ k ih =>
    intro w nc curr p h
    rw [HuffDecodingTable.nextCodeGo] at h
    by_cases hw : w ≥ 12
    · rw [if_pos hw] at h
      exact absurd h (by simp)
    · rw [if_neg hw] at h
      rcases ih (w + 1) _ _ p h with h' | h'
      · exact Or.inl (by omega)
      · subst h'
        exact Or.inl (by omega)

theorem nextCodeGo_spec (br : List Nat) : ∀ (k w : Nat) (nc : List Nat)
    (curr : Nat) (nc' : List Nat) (curr' : Nat),
    w + k ≤ 12 → 1 ≤ w → nc.length = 12 →
    curr = huffCum br w →
    (∀ v, 1 ≤ v → v < w → nc.getD v 0 = huffCum br v) →
    HuffDecodingTable.nextCodeGo br k w nc curr = some (nc', curr') →
    nc'.length = 12 ∧ curr' = huffCum br (w + k) ∧
    (∀ v, 1 ≤ v → v < w + k → nc'.getD v 0 = huffCum br v) := by
  intro k
  induction k with
  | zero =>
    intro w nc curr nc' curr' hk hw hlen hcurr hprev h
    have h' : nc = nc' ∧ curr = curr' := by
      have := Option.some.inj h
      exact ⟨congrArg (fun p => p.1) this, congrArg (fun p => p.2) this⟩
    obtain ⟨h1, h2⟩ := h'
    subst h1
    refine ⟨hlen, ?_, ?_⟩
    · rw [Nat.add_zero, ← h2, hcurr]
    · intro v hv1 hv2
      exact hprev v hv1 (by omega)
  | succ k ih =>
    intro w nc curr nc' curr' hk hw hlen hcurr hprev h
    rw [HuffDecodingTable.nextCodeGo] at h
    rw [if_neg (by omega)] at h
    have hres := ih (w + 1) (nc.set w curr)
      (curr + br.getD w 0 * 2 ^ (w - 1)) nc' curr'
      (by omega) (by omega) (by rw [List.length_set]; exact hlen)
      (by rw [hcurr, ← huffCum_succ])
      (by
        intro v hv1 hv2
        rw [listGetD_set_any]
        by_cases hvw : w = v
        · rw [if_pos ⟨hvw, by omega⟩, ← hvw, hcurr]
        · rw [if_neg (by simp [hvw])]
          exact hprev v hv1 (by omega))
      h
    obtain ⟨h1, h2, h3⟩ := hres
    refine ⟨h1, by rw [h2]; congr 1; omega, ?_⟩
    intro v hv1 hv2
    exact h3 v hv1 (by omega)

theorem assignGo_spec (maxBits : Nat) (c : Nat → Nat)
    (hmb1 : 1 ≤ maxBits) (hmb2 : maxBits ≤ 11)
    (hmono : ∀ a b, a ≤ b → b ≤ maxBits + 1 → c a ≤ c b) :
    ∀ (rest : List Nat) (sym : Nat) (nc : List Nat) (E : List HuffEntry),
    nc.length = 12 →
    (∀ w ∈ rest, w ≤ maxBits) →
    (∀ v, 1 ≤ v → v ≤ maxBits → c v ≤ nc.getD v 0 ∧
      nc.getD v 0 + (rest.countP (fun x => decide (x = v))) * 2 ^ (v - 1) =
        c (v + 1)) →
    c (maxBits + 1) ≤ E.length →
    ∃ nc' E', HuffDecodingTable.assignGo maxBits rest sym nc E = some (nc', E') ∧
      E'.length = E.length ∧
      (∀ j, (∀ v, 1 ≤ v → v ≤ maxBits → ¬(nc.getD v 0 ≤ j ∧ j < c (v + 1))) →
        E'.getD j ⟨0, 0⟩ = E.getD j ⟨0, 0⟩) ∧
      (∀ v, 1 ≤ v → v ≤ maxBits → ∀ j, nc.getD v 0 ≤ j → j < c (v + 1) →
        (E'.getD j ⟨0, 0⟩).nBits = maxBits - (v - 1)) := by
  intro rest
  induction rest with
  | nil =>
    intro sym nc E hnclen hw hreg hEl
    refine ⟨nc, E, rfl, rfl, fun j _ => rfl, ?_⟩
    intro v hv1 hv2 j hj1 hj2
    have h2 := (hreg v hv1 hv2).2
    rw [List.countP_nil, Nat.zero_mul] at h2
    omega
  | cons w rest ih =>
    intro sym nc E hnclen hw hreg hEl
    simp only [HuffDecodingTable.assignGo]
    by_cases hw0 : w = 0
    · rw [if_pos hw0]
      apply ih (sym + 1) nc E hnclen
        (fun x hx => hw x (List.mem_cons_of_mem _ hx))
      · intro v hv1 hv2
        have hv := hreg v hv1 hv2
        rwa [List.countP_cons, decide_eq_false (by omega), if_neg (by simp),
          Nat.add_zero] at hv
      · exact hEl
    · have hw_le : w ≤ maxBits := hw w (List.mem_cons_self w rest)
      have hw1 : 1 ≤ w := by omega
      rw [if_neg hw0, if_neg (show ¬(w ≥ 12) from by omega)]
      have hregw := hreg w hw1 hw_le
      have hpow : 1 ≤ 2 ^ (w - 1) := Nat.one_le_two_pow
      have hcnt : (w :: rest).countP (fun x => decide (x = w)) =
          rest.countP (fun x => decide (x = w)) + 1 := by
        rw [List.countP_cons, decide_eq_true rfl, if_pos rfl]
      have hnd : nc.getD w 0 + 2 ^ (w - 1) ≤ c (w + 1) := by
        have h2 := hregw.2
        rw [hcnt, Nat.succ_mul] at h2
        omega
      have hcmb : c (w + 1) ≤ c (maxBits + 1) :=
        hmono (w + 1) (maxBits + 1) (by omega) (le_refl _)
      have hcw : c w ≤ nc.getD w 0 := hregw.1
      rw [if_neg (show ¬(nc.getD w 0 + 2 ^ (w - 1) > E.length) from by omega)]
      obtain ⟨nc', E', hrec, hlen', huntouched, hregout⟩ :=
        ih (sym + 1) (nc.set w (nc.getD w 0 + 2 ^ (w - 1)))
          (HuffDecodingTable.writeSlots E (nc.getD w 0) (2 ^ (w - 1))
            { symbol := sym % 256, nBits := maxBits - (w - 1) })
          (by rw [List.length_set]; exact hnclen)
          (fun x hx => hw x (List.mem_cons_of_mem _ hx))
          (by
            intro v hv1 hv2
            have hv := hreg v hv1 hv2
            rw [listGetD_set]
            by_cases hvw : w = v
            · subst hvw
              rw [if_pos ⟨rfl, by omega⟩]
              refine ⟨by omega, ?_⟩
              have h2 := hv.2
              rw [hcnt, Nat.succ_mul] at h2
              omega
            · rw [if_neg (by simp [hvw])]
              rwa [List.countP_cons, decide_eq_false (by omega), if_neg (by simp),
                Nat.add_zero] at hv)
          (by rw [writeSlots_length]; exact hEl)
      refine ⟨nc', E', hrec, by rw [hlen', writeSlots_length], ?_, ?_⟩
      · intro j hj
        have hside1 : ∀ v, 1 ≤ v → v ≤ maxBits →
            ¬((nc.set w (nc.getD w 0 + 2 ^ (w - 1))).getD v 0 ≤ j ∧
              j < c (v + 1)) := by
          intro v hv1 hv2
          have hjv := hj v hv1 hv2
          rw [listGetD_set]
          by_cases hvw : w = v
          · subst hvw
            rw [if_pos ⟨rfl, by omega⟩]
            omega
          · rw [if_neg (by simp [hvw])]
            exact hjv
        have hside2 : ¬(nc.getD w 0 ≤ j ∧ j < nc.getD w 0 + 2 ^ (w - 1) ∧
            j < E.length) := by
          have := hj w hw1 hw_le
          omega
        rw [huntouched j hside1, writeSlots_getD, if_neg hside2]
      · intro v hv1 hv2 j hj1 hj2
        by_cases hvw : v = w
        · subst hvw
          by_cases hjsplit : j < nc.getD v 0 + 2 ^ (v - 1)
          · have hside : ∀ u, 1 ≤ u → u ≤ maxBits →
                ¬((nc.set v (nc.getD v 0 + 2 ^ (v - 1))).getD u 0 ≤ j ∧
                  j < c (u + 1)) := by
              intro u hu1 hu2
              rw [listGetD_set]
              by_cases huv : v = u
              · subst huv
                rw [if_pos ⟨rfl, by omega⟩]
                omega
              · rw [if_neg (by simp [huv])]
                have hcu := (hreg u hu1 hu2).1
                by_cases hlt : u < v
                · have h1 := hmono (u + 1) v (by omega) (by omega)
                  omega
                · have h1 := hmono (v + 1) u (by omega) (by omega)
                  omega
            rw [huntouched j hside, writeSlots_getD,
              if_pos ⟨hj1, hjsplit, by omega⟩]
          · refine hregout v hv1 hv2 j ?_ hj2
            rw [listGetD_set, if_pos ⟨rfl, by omega⟩]
            omega
        · refine hregout v hv1 hv2 j ?_ hj2
          rw [listGetD_set, if_neg (by
            simp
            intro h
            omega)]
          exact hj1

theorem exists_region (c : Nat → Nat) : ∀ (m j : Nat), c 1 = 0 → j < c (m + 1) →
    ∃ v, 1 ≤ v ∧ v ≤ m ∧ c v ≤ j ∧ j < c (v + 1) := by
  intro m
  induction m with
  | zero =>
    intro j h0 hj
    rw [h0] at hj
    exact absurd hj (by omega)
  | succ m ih =>
    intro j h0 hj
    by_cases hcase : j < c (m + 1)
    · obtain ⟨v, h1, h2, h3, h4⟩ := ih j h0 hcase
      exact ⟨v, h1, by omega, h3, h4⟩
    · exact ⟨m + 1, by omega, le_refl _, by omega, hj⟩

theorem listGetD_take {α : Type} (l : List α) (d : α) (m j : Nat) (h : j < m) :
    (l.take m).getD j d = l.getD j d := by
  rw [List.getD_eq_getElem?_getD, List.getD_eq_getElem?_getD,
    List.getElem?_take_of_lt h]

theorem log2Go_of_ge : ∀ (fuel n : Nat), 2 ^ fuel ≤ n → log2Go fuel n = fuel := by
  intro fuel
  induction fuel with
  | zero => intro n _; rfl
  | succ fuel ih =>
    intro n h
    have h2 : 2 ^ fuel ≤ n / 2 := by
      rw [Nat.le_div_iff_mul_le (by omega)]
      rw [pow_succ] at h
      omega
    have hpow : 1 ≤ 2 ^ fuel := Nat.one_le_two_pow
    rw [log2Go, if_pos (by rw [pow_succ] at h; omega), ih (n / 2) h2]

theorem hrep0_getD : ∀ (j : Nat), (List.replicate 12 (0:Nat)).getD j 0 = 0 := by
  intro j
  rw [List.getD_eq_getElem?_getD, List.getElem?_replicate]
  split <;> rfl

/-- C3 (amended): whenever `from_weights::<N>` succeeds (for any `N` at least
the inferred table size), the table has `2^max_bits` logical entries, every
one of them is assigned (`n_bits >= 1`), and for each `k` in `[1, max_bits]`
the number of entries with `n_bits = k` is `2^(max_bits - k)` TIMES the
number of symbols — counting the inferred last symbol — whose weight is
`max_bits - k + 1` (each such symbol fills `2^(w-1)` consecutive slots, not
one). -/
theorem C3_from_weights (N : Nat) (weights : List Nat) (t : HuffDecodingTable)
    (hN : 2 ^ (log2w (sumPow weights) + 1) ≤ N)
    (h : HuffDecodingTable.fromWeights N weights = some (.ok t)) :
    t.nEntries = 2 ^ t.maxBits ∧
    1 ≤ t.maxBits ∧ t.maxBits ≤ 11 ∧
    t.entries.length = N ∧
    (∀ j, j < t.nEntries →
      1 ≤ ((HuffDecodingTable.entriesView t).getD j ⟨0, 0⟩).nBits) ∧
    (∀ k, 1 ≤ k → k ≤ t.maxBits →
      (HuffDecodingTable.entriesView t).countP
          (fun e => decide (e.nBits = k)) =
        2 ^ (t.maxBits - k) *
          ((weights ++ [log2w (2 ^ t.maxBits - sumPow weights) + 1]).countP
            (fun x => decide (x = t.maxBits - k + 1)))) := by
  unfold HuffDecodingTable.fromWeights at h
  rcases hstats : HuffDecodingTable.weightStats weights 0 0 (List.replicate 12 0)
    with _ | ⟨sum, maxW, br⟩
  · rw [hstats] at h
    exact absurd h (by simp)
  rw [hstats] at h
  dsimp only at h
  by_cases hsum0 : sum = 0
  · rw [if_pos hsum0] at h
    exact absurd h (by simp)
  rw [if_neg hsum0] at h
  set maxBits := log2w sum + 1 with hmbdef
  set target := 2 ^ maxBits with htgdef
  set remainder := target - sum with hremdef
  by_cases hrem : remainder = 0 ∨
      ¬(remainder ≠ 0 ∧ remainder &&& (remainder - 1) = 0)
  · rw [if_pos hrem] at h
    exact absurd h (by simp)
  rw [if_neg hrem] at h
  set iw := log2w remainder + 1 with hiwdef
  by_cases hiw12 : iw ≥ 12
  · rw [if_pos hiw12] at h
    exact absurd h (by simp)
  rw [if_neg hiw12] at h
  set br2 := br.set iw (br.getD iw 0 + 1) with hbr2def
  rcases hncg : HuffDecodingTable.nextCodeGo br2 maxBits 1 (List.replicate 12 0) 0
    with _ | ⟨nc0, curr⟩
  · rw [hncg] at h
    exact absurd h (by simp)
  rw [hncg] at h
  dsimp only at h
  by_cases hcurr : curr ≠ target
  · rw [if_pos hcurr] at h
    exact absurd h (by simp)
  rw [if_neg hcurr] at h
  rcases hasg : HuffDecodingTable.assignGo maxBits (weights ++ [iw]) 0 nc0
      (List.replicate N { symbol := 0, nBits := 0 })
    with _ | ⟨ncf, Ef⟩
  · rw [hasg] at h
    exact absurd h (by simp)
  rw [hasg] at h
  dsimp only at h
  have hrec : ({ entries := Ef, nEntries := target, maxBits := maxBits } :
      HuffDecodingTable) = t := Except.ok.inj (Option.some.inj h)
  have hent : Ef = t.entries := by rw [← hrec]
  have hnent : target = t.nEntries := by rw [← hrec]
  have hmaxb : maxBits = t.maxBits := by rw [← hrec]
  obtain ⟨hbrlen, _, hsumeq, hw11, hwpow, hbrv, hbr0⟩ :=
    weightStats_spec weights 0 0 (List.replicate 12 0) sum maxW br
      (by simp) hstats
  have hmb1 : 1 ≤ maxBits := by rw [hmbdef]; omega
  have hmb11 : maxBits ≤ 11 := by
    rcases nextCodeGo_some_bound br2 maxBits 1 (List.replicate 12 0) 0
      (nc0, curr) hncg with h' | h'
    · omega
    · omega
  have hsumlt : sum < 2 ^ 64 := by
    by_contra hge
    push_neg at hge
    have h64 : log2w sum = 64 := log2Go_of_ge 64 sum hge
    omega
  have hlog : log2w sum = Nat.log2 sum := log2w_eq_log2 sum hsumlt
  have hsumtarget : sum < target := by
    rw [htgdef, hmbdef, hlog]
    exact Nat.lt_log2_self
  have hremne : remainder ≠ 0 := (not_or.mp hrem).1
  have htg64 : target ≤ 2 ^ 11 := by
    rw [htgdef]
    exact Nat.pow_le_pow_right (by omega) hmb11
  have htgTS : target ≤ N := by
    rw [show sumPow weights = sum from by omega] at hN
    rw [htgdef, hmbdef]
    exact hN
  have hremlt : remainder < target := by omega
  have hrem64 : remainder < 2 ^ 64 := by
    have h1 : (2:Nat) ^ 11 ≤ 2 ^ 64 := Nat.pow_le_pow_right (by omega) (by omega)
    omega
  have hiwle : iw ≤ maxBits := by
    have hl2 : Nat.log2 remainder < maxBits :=
      (Nat.log2_lt hremne).mpr (by rw [← htgdef]; exact hremlt)
    rw [hiwdef, log2w_eq_log2 remainder hrem64]
    omega
  have hiw1 : 1 ≤ iw := by rw [hiwdef]; omega
  have hwmax : ∀ w ∈ weights, w ≤ maxBits := by
    intro w hwmem
    by_cases hw0 : w = 0
    · omega
    · have hp := hwpow w hwmem hw0
      have hle : w - 1 ≤ Nat.log2 sum := (Nat.le_log2 hsum0).mpr (by omega)
      omega
  have hbr2len : br2.length = 12 := by
    rw [hbr2def, List.length_set]
    exact hbrlen
  have hbr2v : ∀ v, 1 ≤ v → v ≤ 11 →
      br2.getD v 0 = (weights ++ [iw]).countP (fun x => decide (x = v)) := by
    intro v hv1 hv2
    rw [hbr2def, listGetD_set, List.countP_append]
    by_cases hiv : iw = v
    · rw [if_pos ⟨hiv, by omega⟩, hiv, hbrv v hv1 hv2, hrep0_getD]
      rw [show ([v].countP fun x => decide (x = v)) = 1 from by
        rw [List.countP_cons, List.countP_nil, decide_eq_true rfl]
        rfl]
      omega
    · rw [if_neg (by simp [hiv]), hbrv v hv1 hv2, hrep0_getD]
      rw [show ([iw].countP fun x => decide (x = v)) = 0 from by
        rw [List.countP_cons, List.countP_nil, decide_eq_false hiv]
        rfl]
      omega
  have hbr20 : br2.getD 0 0 = 0 := by
    rw [hbr2def, listGetD_set, if_neg (by omega), hbr0, hrep0_getD]
  have hcum1 : huffCum br2 1 = 0 := by
    rw [show (1:Nat) = 0 + 1 from rfl, huffCum_succ, hbr20]
    simp [huffCum]
  obtain ⟨hnc0len, hcurr_eq, hnc0v⟩ :=
    nextCodeGo_spec br2 maxBits 1 (List.replicate 12 0) 0 nc0 curr
      (by omega) (le_refl 1) (by simp) hcum1.symm
      (fun v hv1 hv2 => absurd hv2 (by omega))
      hncg
  have htarget_eq : huffCum br2 (maxBits + 1) = target := by
    rw [show maxBits + 1 = 1 + maxBits from by omega, ← hcurr_eq]
    omega
  obtain ⟨nc2f, E2f, hasg2, hElen, hunt, hregE⟩ :=
    assignGo_spec maxBits (huffCum br2) hmb1 hmb11
      (fun a b hab _ => huffCum_mono br2 a b hab)
      (weights ++ [iw]) 0 nc0
      (List.replicate N { symbol := 0, nBits := 0 })
      hnc0len
      (by
        intro w hwmem
        rcases List.mem_append.mp hwmem with h' | h'
        · exact hwmax w h'
        · have hwi : w = iw := by simpa using h'
          omega)
      (by
        intro v hv1 hv2
        constructor
        · rw [hnc0v v hv1 (by omega)]
        · rw [hnc0v v hv1 (by omega), huffCum_succ, hbr2v v hv1 (by omega)])
      (by
        rw [List.length_replicate, htarget_eq]
        exact htgTS)
  rw [hasg] at hasg2
  have hEf : Ef = E2f := congrArg Prod.snd (Option.some.inj hasg2)
  rw [← hEf] at hElen hunt hregE
  have hVeq : HuffDecodingTable.entriesView t = Ef.take target := by
    unfold HuffDecodingTable.entriesView
    rw [← hent, ← hnent]
  refine ⟨by rw [← hnent, ← hmaxb, htgdef], by rw [← hmaxb]; exact hmb1,
    by rw [← hmaxb]; exact hmb11,
    by rw [← hent, hElen, List.length_replicate], ?_, ?_⟩
  · intro j hj
    have hjt : j < target := by rw [hnent]; exact hj
    rw [hVeq, listGetD_take Ef _ target j hjt]
    obtain ⟨v, hv1, hv2, hjv1, hjv2⟩ :=
      exists_region (huffCum br2) maxBits j hcum1
        (by rw [htarget_eq]; exact hjt)
    rw [hregE v hv1 hv2 j (by rw [hnc0v v hv1 (by omega)]; exact hjv1) hjv2]
    omega
  · intro k hk1 hk2
    have hk2m : k ≤ maxBits := by rw [hmaxb]; exact hk2
    rw [hVeq, ← hmaxb]
    have hsp : sumPow weights = sum := by omega
    rw [hsp, ← htgdef, ← hremdef, ← hiwdef]
    set w := maxBits - k + 1 with hwdef
    have hw1 : 1 ≤ w := by omega
    have hw2 : w ≤ maxBits := by omega
    have hTlen : (Ef.take target).length = target := by
      rw [List.length_take, hElen, List.length_replicate]
      omega
    conv_lhs => rw [← list_getD_map_range (Ef.take target) ⟨0, 0⟩]
    rw [hTlen, List.countP_map]
    have hble : huffCum br2 (w + 1) ≤ target := by
      rw [← htarget_eq]
      exact huffCum_mono br2 (w + 1) (maxBits + 1) (by omega)
    have hale : huffCum br2 w ≤ huffCum br2 (w + 1) :=
      huffCum_mono br2 w (w + 1) (by omega)
    have hcg : (List.range target).countP
        ((fun e => decide (e.nBits = k)) ∘
          fun j => (Ef.take target).getD j ⟨0, 0⟩) =
      (List.range target).countP
        (fun j => decide (huffCum br2 w ≤ j ∧ j < huffCum br2 (w + 1))) := by
      apply List.countP_congr
      intro j hjmem
      rw [List.mem_range] at hjmem
      show decide (((Ef.take target).getD j ⟨0, 0⟩).nBits = k) = true ↔ _
      rw [decide_eq_true_eq, decide_eq_true_eq,
        listGetD_take Ef _ target j hjmem]
      constructor
      · intro hnb
        obtain ⟨v, hv1, hv2, hjv1, hjv2⟩ :=
          exists_region (huffCum br2) maxBits j hcum1
            (by rw [htarget_eq]; exact hjmem)
        have hvb := hregE v hv1 hv2 j
          (by rw [hnc0v v hv1 (by omega)]; exact hjv1) hjv2
        have hveq : v = w := by omega
        subst hveq
        exact ⟨hjv1, hjv2⟩
      · intro hj2
        rw [hregE w hw1 hw2 j
          (by rw [hnc0v w hw1 (by omega)]; exact hj2.1) hj2.2]
        omega
    rw [hcg, countP_range_Ico (huffCum br2 w) (huffCum br2 (w + 1)) hale target,
      Nat.min_eq_left hble, Nat.min_eq_left (by omega), huffCum_succ,
      hbr2v w hw1 (by omega), Nat.add_sub_cancel_left]
    rw [show w - 1 = maxBits - k from by omega]
    exact Nat.mul_comm _ _

/-- C3 (counterexample): for the weight vector `[2, 1]` construction succeeds
(max_bits = 2, inferred weight 1, so the symbols are `[2, 1, 1]`); the table
has TWO entries with `n_bits = 1` (symbol 0 occupies `2^(w-1) = 2` slots) but
only ONE symbol of weight `max_bits - 1 + 1 = 2`, refuting the claim that the
number of entries with `n_bits = k` equals the count of symbols of weight
`max_bits - k + 1`. -/
theorem C3_counterexample :
    HuffDecodingTable.fromWeights 4 [2, 1] = some (.ok (huffTableOfOk (HuffDecodingTable.fromWeights 4 [2, 1]))) ∧
    (huffTableOfOk (HuffDecodingTable.fromWeights 4 [2, 1])).maxBits = 2 ∧
    (HuffDecodingTable.entriesView (huffTableOfOk (HuffDecodingTable.fromWeights 4 [2, 1]))).countP
        (fun e => decide (e.nBits = 1)) = 2 ∧
    ([2, 1, 1] : List Nat).countP (fun x => decide (x = 2)) = 1 := by
  refine ⟨by decide, by decide, by decide, by decide⟩

theorem C3_from_weights_witness :
    2 ^ (log2w (sumPow [2, 1]) + 1) ≤ 4 ∧
    HuffDecodingTable.fromWeights 4 [2, 1] = some (.ok (huffTableOfOk (HuffDecodingTable.fromWeights 4 [2, 1]))) ∧
    ((huffTableOfOk (HuffDecodingTable.fromWeights 4 [2, 1])).nEntries = 2 ^ (huffTableOfOk (HuffDecodingTable.fromWeights 4 [2, 1])).maxBits ∧
    1 ≤ (huffTableOfOk (HuffDecodingTable.fromWeights 4 [2, 1])).maxBits ∧ (huffTableOfOk (HuffDecodingTable.fromWeights 4 [2, 1])).maxBits ≤ 11 ∧
    (huffTableOfOk (HuffDecodingTable.fromWeights 4 [2, 1])).entries.length = 4 ∧
    (∀ j, j < (huffTableOfOk (HuffDecodingTable.fromWeights 4 [2, 1])).nEntries →
      1 ≤ ((HuffDecodingTable.entriesView (huffTableOfOk (HuffDecodingTable.fromWeights 4 [2, 1]))).getD j ⟨0, 0⟩).nBits) ∧
    (∀ k, 1 ≤ k → k ≤ (huffTableOfOk (HuffDecodingTable.fromWeights 4 [2, 1])).maxBits →
      (HuffDecodingTable.entriesView (huffTableOfOk (HuffDecodingTable.fromWeights 4 [2, 1]))).countP
          (fun e => decide (e.nBits = k)) =
        2 ^ ((huffTableOfOk (HuffDecodingTable.fromWeights 4 [2, 1])).maxBits - k) *
          (([2, 1] ++ [log2w (2 ^ (huffTableOfOk (HuffDecodingTable.fromWeights 4 [2, 1])).maxBits - sumPow [2, 1]) + 1]).countP
            (fun x => decide (x = (huffTableOfOk (HuffDecodingTable.fromWeights 4 [2, 1])).maxBits - k + 1))))) :=
  ⟨by decide, by decide, C3_from_weights 4 [2, 1] (huffTableOfOk (HuffDecodingTable.fromWeights 4 [2, 1])) (by decide) (by decide)⟩

/-! ## C2: FSE table construction from a normalized distribution -/

/-! Walk arithmetic for the FSE fast-spread step. -/

theorem step_odd (a : Nat) (ha : 4 ≤ a) :
    ¬ 2 ∣ ((2 ^ a >>> 1) + (2 ^ a >>> 3) + 3) := by
  rw [Nat.shiftRight_eq_div_pow, Nat.shiftRight_eq_div_pow]
  have h1 : 2 ^ a / 2 ^ 1 = 2 ^ (a - 1) := by
    rw [Nat.pow_div (by omega) (by omega)]
  have h3 : 2 ^ a / 2 ^ 3 = 2 ^ (a - 3) := by
    rw [Nat.pow_div (by omega) (by omega)]
  rw [h1, h3]
  have e1 : 2 ∣ 2 ^ (a - 1) := dvd_pow_self 2 (by omega)
  have e3 : 2 ∣ 2 ^ (a - 3) := dvd_pow_self 2 (by omega)
  omega

theorem walk_inj (n step : Nat) (hn : n = 2 ^ (Nat.log2 n)) (hodd : ¬ 2 ∣ step)
    (i j : Nat) (hi : i < n) (hj : j < n)
    (h : i * step % n = j * step % n) : i = j := by
  have hcop : Nat.Coprime step n := by
    rw [hn]
    refine Nat.Coprime.pow_right _ ?_
    rw [Nat.coprime_comm, Nat.coprime_two_left]
    exact Nat.odd_iff.mpr (by omega)
  have key : ∀ x y : Nat, x ≤ y → y < n → x * step % n = y * step % n →
      y - x = 0 := by
    intro x y hxy hyn hmod
    have hd0 : (y * step - x * step) % n = 0 :=
      Nat.sub_mod_eq_zero_of_mod_eq hmod.symm
    rw [← Nat.sub_mul] at hd0
    have hdvd : n ∣ (y - x) * step := Nat.dvd_iff_mod_eq_zero.mpr hd0
    have hdvd2 : n ∣ (y - x) :=
      (Nat.Coprime.symm hcop).dvd_of_dvd_mul_right hdvd
    exact Nat.eq_zero_of_dvd_of_lt hdvd2 (by omega)
  rcases Nat.le_total i j with hle | hle
  · have := key i j hle hj h
    omega
  · have := key j i hle hi h.symm
    omega

theorem walk_surj (n step : Nat) (hn : n = 2 ^ (Nat.log2 n)) (hn0 : 0 < n)
    (hodd : ¬ 2 ∣ step) (q : Nat) (hq : q < n) :
    ∃ i, i < n ∧ i * step % n = q := by
  have hinj : Function.Injective
      (fun i : Fin n => (⟨i.val * step % n, Nat.mod_lt _ hn0⟩ : Fin n)) := by
    intro i j hij
    have := walk_inj n step hn hodd i.val j.val i.isLt j.isLt
      (congrArg Fin.val hij)
    exact Fin.ext this
  have hsurj := Finite.surjective_of_injective hinj
  obtain ⟨i, hi⟩ := hsurj ⟨q, hq⟩
  exact ⟨i.val, i.isLt, congrArg Fin.val hi⟩

theorem countP_set_elem {α : Type} (l : List α) (i : Nat) (x d : α)
    (hi : i < l.length) (p : α → Bool) :
    (l.set i x).countP p + (if p (l.getD i d) then 1 else 0) =
      l.countP p + (if p x then 1 else 0) := by
  have hdec : l = l.take i ++ l.getD i d :: l.drop (i + 1) := by
    rw [List.getD_eq_getElem l d hi]
    conv_lhs => rw [← List.take_append_drop i l]
    rw [← List.getElem_cons_drop l i hi]
  have hset : l.set i x = l.take i ++ x :: l.drop (i + 1) := by
    conv_lhs => rw [hdec]
    rw [List.set_append]
    rw [List.length_take, if_neg (by omega)]
    rw [show i - min i l.length = 0 from by omega]
    rfl
  rw [hset]
  conv_rhs => rw [hdec]
  rw [List.countP_append, List.countP_append, List.countP_cons, List.countP_cons]
  by_cases hx : p x <;> by_cases hold : p (l.getD i d) <;>
    simp [hx, hold] <;> omega

theorem mask_mod (a n x : Nat) (hn : n = 2 ^ a) : x &&& (n - 1) = x % n := by
  rw [hn, Nat.and_pow_two_sub_one_eq_mod]

theorem spread_write_one (n step a k : Nat) (hn : n = 2 ^ a)
    (hodd : ¬ 2 ∣ step) (hk : k < n) (t : List FseEntry)
    (hinv : spreadInv n step k t) (e : FseEntry) (he : e.nBits = 255) :
    spreadInv n step (k + 1) (t.set (k * step % n) e) ∧
    (∀ p : FseEntry → Bool,
      (t.set (k * step % n) e).countP p + (if p ⟨0, 0, 0⟩ then 1 else 0) =
        t.countP p + (if p e then 1 else 0)) := by
  obtain ⟨hlen, hfree, hwr⟩ := hinv
  have hn0 : 0 < n := by rw [hn]; exact Nat.pos_pow_of_pos _ (by omega)
  have hlog : n = 2 ^ (Nat.log2 n) := by
    rw [hn, Nat.log2_two_pow]
  have hposlt : k * step % n < n := Nat.mod_lt _ hn0
  have hfresh : t.getD (k * step % n) ⟨0, 0, 0⟩ = ⟨0, 0, 0⟩ := by
    apply hfree _ hposlt
    intro i hik heq
    have := walk_inj n step hlog hodd i k (by omega) hk heq
    omega
  refine ⟨⟨by rw [List.length_set]; exact hlen, ?_, ?_⟩, ?_⟩
  · intro q hq hnone
    rw [listGetD_set_any, if_neg ?_]
    · exact hfree q hq (fun i hik => hnone i (by omega))
    · intro hc
      exact hnone k (by omega) hc.1
  · intro q hq hex
    rw [listGetD_set_any]
    by_cases hc : k * step % n = q ∧ k * step % n < t.length
    · rw [if_pos hc]
      exact he
    · rw [if_neg hc]
      apply hwr q hq
      obtain ⟨i, hik, hiq⟩ := hex
      refine ⟨i, ?_, hiq⟩
      rcases Nat.lt_or_ge i k with h' | h'
      · exact h'
      · have hik1 : i = k := by omega
        subst hik1
        exact absurd ⟨hiq, by rw [hlen]; exact hposlt⟩ hc
  · intro p
    have := countP_set_elem t (k * step % n) e ⟨0, 0, 0⟩
      (by rw [hlen]; exact hposlt) p
    rw [hfresh] at this
    omega

theorem walk_add (n a step k j : Nat) (hn : n = 2 ^ a) :
    (k * step % n + step * j) &&& (n - 1) = ((k + j) * step) % n := by
  rw [mask_mod a n _ hn, Nat.mod_add_mod, Nat.add_mul, Nat.mul_comm step j]

theorem walk_add1 (n a step k : Nat) (hn : n = 2 ^ a) :
    (k * step % n + step) &&& (n - 1) = ((k + 1) * step) % n := by
  rw [mask_mod a n _ hn, Nat.mod_add_mod, Nat.add_mul, Nat.one_mul]

theorem spreadQuads_spec (n step a : Nat) (hn : n = 2 ^ a) (hodd : ¬ 2 ∣ step)
    (e : FseEntry) (he : e.nBits = 255) :
    ∀ (c k : Nat) (t : List FseEntry), spreadInv n step k t → k + c ≤ n →
    ∃ t', FseDecodingTable.spreadQuads e step (n - 1) c t (k * step % n) =
        (t', (k + (c - c % 4)) * step % n, c % 4) ∧
      spreadInv n step (k + (c - c % 4)) t' ∧
      (∀ p : FseEntry → Bool,
        t'.countP p + (c - c % 4) * (if p ⟨0, 0, 0⟩ then 1 else 0) =
          t.countP p + (c - c % 4) * (if p e then 1 else 0)) := by
  intro c
  induction c using Nat.strong_induction_on with
  | _ c ih =>
    match c with
    | 0 => exact fun k t hinv hkc => ⟨t, rfl, hinv, fun p => by norm_num⟩
    | 1 => exact fun k t hinv hkc => ⟨t, rfl, hinv, fun p => by norm_num⟩
    | 2 => exact fun k t hinv hkc => ⟨t, rfl, hinv, fun p => by norm_num⟩
    | 3 => exact fun k t hinv hkc => ⟨t, rfl, hinv, fun p => by norm_num⟩
    | r + 4 =>
      intro k t hinv hkc
      obtain ⟨hinv1, hcp1⟩ :=
        spread_write_one n step a k hn hodd (by omega) t hinv e he
      show ∃ t', FseDecodingTable.spreadQuads e step (n - 1) r
          ((((t.set (k * step % n) e).set
              ((k * step % n + step) &&& (n - 1)) e).set
              ((k * step % n + step * 2) &&& (n - 1)) e).set
              ((k * step % n + step * 3) &&& (n - 1)) e)
          ((k * step % n + step * 4) &&& (n - 1)) = _ ∧ _
      rw [walk_add1 n a step k hn, walk_add n a step k 2 hn,
        walk_add n a step k 3 hn, walk_add n a step k 4 hn]
      obtain ⟨hinv2, hcp2⟩ :=
        spread_write_one n step a (k + 1) hn hodd (by omega) _ hinv1 e he
      rw [show k + 1 + 1 = k + 2 from rfl] at hinv2
      obtain ⟨hinv3, hcp3⟩ :=
        spread_write_one n step a (k + 2) hn hodd (by omega) _ hinv2 e he
      rw [show k + 2 + 1 = k + 3 from rfl] at hinv3
      obtain ⟨hinv4, hcp4⟩ :=
        spread_write_one n step a (k + 3) hn hodd (by omega) _ hinv3 e he
      rw [show k + 3 + 1 = k + 4 from rfl] at hinv4
      obtain ⟨t', hrun, hinv', hcp'⟩ := ih r (by omega) (k + 4) _ hinv4 (by omega)
      refine ⟨t', ?_, ?_, ?_⟩
      · rw [hrun,
          show k + 4 + (r - r % 4) = k + (r + 4 - (r + 4) % 4) from by omega,
          show r % 4 = (r + 4) % 4 from by omega]
      · rw [show k + (r + 4 - (r + 4) % 4) = k + 4 + (r - r % 4) from by omega]
        exact hinv'
      · intro p
        have h1 := hcp1 p
        have h2 := hcp2 p
        have h3 := hcp3 p
        have h4 := hcp4 p
        have h5 := hcp' p
        rw [show r + 4 - (r + 4) % 4 = (r - r % 4) + 4 from by omega,
          Nat.add_mul, Nat.add_mul]
        omega

theorem spreadSingles_spec (n step a : Nat) (hn : n = 2 ^ a) (hodd : ¬ 2 ∣ step)
    (e : FseEntry) (he : e.nBits = 255) :
    ∀ (c k : Nat) (t : List FseEntry), spreadInv n step k t → k + c ≤ n →
    ∃ t', FseDecodingTable.spreadSingles e step (n - 1) c t (k * step % n) =
        (t', (k + c) * step % n) ∧
      spreadInv n step (k + c) t' ∧
      (∀ p : FseEntry → Bool,
        t'.countP p + c * (if p ⟨0, 0, 0⟩ then 1 else 0) =
          t.countP p + c * (if p e then 1 else 0)) := by
  intro c
  induction c with
  | zero =>
    intro k t hinv hkc
    exact ⟨t, rfl, hinv, fun p => by norm_num⟩
  | succ c ih =>
    intro k t hinv hkc
    obtain ⟨hinv1, hcp1⟩ :=
      spread_write_one n step a k hn hodd (by omega) t hinv e he
    show ∃ t', FseDecodingTable.spreadSingles e step (n - 1) c
        (t.set (k * step % n) e) ((k * step % n + step) &&& (n - 1)) = _ ∧ _
    rw [walk_add1 n a step k hn]
    obtain ⟨t', hrun, hinv', hcp'⟩ := ih (k + 1) _ hinv1 (by omega)
    refine ⟨t', ?_, ?_, ?_⟩
    · rw [hrun, show k + 1 + c = k + (c + 1) from by omega]
    · rw [show k + (c + 1) = k + 1 + c from by omega]
      exact hinv'
    · intro p
      have h1 := hcp1 p
      have h2 := hcp' p
      rw [Nat.succ_mul, Nat.succ_mul]
      omega

theorem spreadOne_spec (n step a : Nat) (hn : n = 2 ^ a) (hodd : ¬ 2 ∣ step)
    (e : FseEntry) (he : e.nBits = 255)
    (c k : Nat) (t : List FseEntry) (hinv : spreadInv n step k t)
    (hkc : k + c ≤ n) :
    ∃ t', FseDecodingTable.spreadOne e step (n - 1) c t (k * step % n) =
        (t', (k + c) * step % n) ∧
      spreadInv n step (k + c) t' ∧
      (∀ p : FseEntry → Bool,
        t'.countP p + c * (if p ⟨0, 0, 0⟩ then 1 else 0) =
          t.countP p + c * (if p e then 1 else 0)) := by
  obtain ⟨t1, hrun1, hinv1, hcp1⟩ :=
    spreadQuads_spec n step a hn hodd e he c k t hinv hkc
  obtain ⟨t2, hrun2, hinv2, hcp2⟩ :=
    spreadSingles_spec n step a hn hodd e he (c % 4) (k + (c - c % 4)) t1 hinv1
      (by omega)
  refine ⟨t2, ?_, ?_, ?_⟩
  · show (fun r => FseDecodingTable.spreadSingles e step (n - 1) r.2.2 r.1 r.2.1)
        (FseDecodingTable.spreadQuads e step (n - 1) c t (k * step % n)) = _
    rw [hrun1]
    show FseDecodingTable.spreadSingles e step (n - 1) (c % 4) t1
        ((k + (c - c % 4)) * step % n) = _
    rw [hrun2, show k + (c - c % 4) + c % 4 = k + c from by omega]
  · rw [show k + c = k + (c - c % 4) + c % 4 from by omega]
    exact hinv2
  · intro p
    have h1 := hcp1 p
    have h2 := hcp2 p
    rw [show c = (c - c % 4) + c % 4 from by omega, Nat.add_mul, Nat.add_mul]
    omega

theorem sumToNat_cons (c : Int) (rest : List Int) :
    ((c :: rest).map Int.toNat).sum = c.toNat + (rest.map Int.toNat).sum := by
  simp

theorem spreadWeightsGo_spec (n step a : Nat) (hn : n = 2 ^ a)
    (hodd : ¬ 2 ∣ step) :
    ∀ (cs : List Int) (s0 k : Nat) (t : List FseEntry),
    spreadInv n step k t →
    k + (cs.map Int.toNat).sum ≤ n →
    s0 + cs.length ≤ 256 →
    ∃ t', FseDecodingTable.spreadWeightsGo step (n - 1) cs s0 t (k * step % n) =
        (t', (k + (cs.map Int.toNat).sum) * step % n) ∧
      spreadInv n step (k + (cs.map Int.toNat).sum) t' ∧
      (∀ s, t'.countP (fun e => decide (e.nBits = 255 ∧ e.symbol = s)) =
        t.countP (fun e => decide (e.nBits = 255 ∧ e.symbol = s)) +
          (if s0 ≤ s ∧ s < s0 + cs.length then (cs.getD (s - s0) 0).toNat
           else 0)) ∧
      (t'.countP (fun e => decide (e.nBits = 0)) + (cs.map Int.toNat).sum =
        t.countP (fun e => decide (e.nBits = 0))) := by
  intro cs
  induction cs with
  | nil =>
    intro s0 k t hinv hsum hs256
    refine ⟨t, ?_, ?_, ?_, ?_⟩
    · show (t, k * step % n) = _
      simp
    · simpa using hinv
    · intro s
      rw [if_neg (by simp)]
      omega
    · simp
  | cons c rest ih =>
    intro s0 k t hinv hsum hs256
    rw [sumToNat_cons] at hsum
    have hlen : (c :: rest).length = rest.length + 1 := rfl
    rw [hlen] at hs256
    by_cases hc : c ≤ 0
    · have hc0 : c.toNat = 0 := Int.toNat_of_nonpos hc
      obtain ⟨t', hrun', hinv', hsym', hp0'⟩ :=
        ih (s0 + 1) k t hinv (by omega) (by omega)
      refine ⟨t', ?_, ?_, ?_, ?_⟩
      · simp only [FseDecodingTable.spreadWeightsGo]
        rw [if_pos hc, hrun', sumToNat_cons, hc0, Nat.zero_add]
      · rw [sumToNat_cons, hc0, Nat.zero_add]
        exact hinv'
      · intro s
        rw [hsym' s, hlen]
        by_cases hs1 : s = s0
        · subst hs1
          rw [if_neg (show ¬(s + 1 ≤ s ∧ s < s + 1 + rest.length) from
              by omega),
            if_pos (show s ≤ s ∧ s < s + (rest.length + 1) from by omega),
            show s - s = 0 from by omega, List.getD_cons_zero, hc0]
        · by_cases hs2 : s0 + 1 ≤ s ∧ s < s0 + 1 + rest.length
          · rw [if_pos hs2,
              if_pos (show s0 ≤ s ∧ s < s0 + (rest.length + 1) from by omega),
              show s - s0 = (s - (s0 + 1)) + 1 from by omega,
              List.getD_cons_succ]
          · rw [if_neg hs2,
              if_neg (show ¬(s0 ≤ s ∧ s < s0 + (rest.length + 1)) from
                by omega)]
      · rw [sumToNat_cons, hc0, Nat.zero_add]
        exact hp0'
    · have hc1 : 1 ≤ c.toNat := by omega
      obtain ⟨t1, hrun1, hinv1, hcp1⟩ :=
        spreadOne_spec n step a hn hodd ⟨0, 255, s0 % 256⟩ rfl c.toNat k t hinv
          (by omega)
      obtain ⟨t', hrun', hinv', hsym', hp0'⟩ :=
        ih (s0 + 1) (k + c.toNat) t1 hinv1 (by omega) (by omega)
      have hs0256 : s0 < 256 := by omega
      refine ⟨t', ?_, ?_, ?_, ?_⟩
      · simp only [FseDecodingTable.spreadWeightsGo]
        rw [if_neg hc, hrun1]
        dsimp only
        rw [hrun', sumToNat_cons,
          show k + c.toNat + (rest.map Int.toNat).sum =
            k + (c.toNat + (rest.map Int.toNat).sum) from by omega]
      · rw [sumToNat_cons,
          show k + (c.toNat + (rest.map Int.toNat).sum) =
            k + c.toNat + (rest.map Int.toNat).sum from by omega]
        exact hinv'
      · intro s
        have hone := hcp1 (fun e => decide (e.nBits = 255 ∧ e.symbol = s))
        have hdfl : (if (fun e => decide (e.nBits = 255 ∧ e.symbol = s))
            (⟨0, 0, 0⟩ : FseEntry) = true then 1 else 0) = 0 := by
          simp
        have hpe : (if (fun e => decide (e.nBits = 255 ∧ e.symbol = s))
            (⟨0, 255, s0 % 256⟩ : FseEntry) = true then 1 else 0) =
            if s0 = s then 1 else 0 := by
          rw [Nat.mod_eq_of_lt hs0256]
          by_cases hs : s0 = s
          · simp [hs]
          · simp [hs]
        rw [hdfl, hpe] at hone
        rw [hsym' s, hlen]
        by_cases hs1 : s = s0
        · subst hs1
          rw [if_pos rfl] at hone
          rw [if_neg (show ¬(s + 1 ≤ s ∧ s < s + 1 + rest.length) from
              by omega),
            if_pos (show s ≤ s ∧ s < s + (rest.length + 1) from by omega),
            show s - s = 0 from by omega, List.getD_cons_zero]
          omega
        · rw [if_neg (show ¬ s0 = s from fun hh => hs1 hh.symm)] at hone
          by_cases hs2 : s0 + 1 ≤ s ∧ s < s0 + 1 + rest.length
          · rw [if_pos hs2,
              if_pos (show s0 ≤ s ∧ s < s0 + (rest.length + 1) from by omega),
              show s - s0 = (s - (s0 + 1)) + 1 from by omega,
              List.getD_cons_succ]
            omega
          · rw [if_neg hs2,
              if_neg (show ¬(s0 ≤ s ∧ s < s0 + (rest.length + 1)) from
                by omega)]
            omega
      · have hone := hcp1 (fun e => decide (e.nBits = 0))
        have hdfl : (if (fun e => decide (e.nBits = 0))
            (⟨0, 0, 0⟩ : FseEntry) = true then 1 else 0) = 1 := by simp
        have hpe : (if (fun e => decide (e.nBits = 0))
            (⟨0, 255, s0 % 256⟩ : FseEntry) = true then 1 else 0) = 0 := by
          simp
        rw [hdfl, hpe] at hone
        rw [sumToNat_cons]
        omega

theorem spreadWeights_spec (a : Nat) (ha : 4 ≤ a) (dist : NormalizedDistribution)
    (t0 : List FseEntry) (ht0len : t0.length = 2 ^ a)
    (ht0 : ∀ q, q < 2 ^ a → t0.getD q ⟨0, 0, 0⟩ = ⟨0, 0, 0⟩)
    (hsum : ((dist.finalCounts.take dist.symbolCount).map Int.toNat).sum = 2 ^ a)
    (hcnt : dist.symbolCount ≤ 256) :
    ∃ t', FseDecodingTable.spreadWeights dist t0 = .ok t' ∧
      t'.length = 2 ^ a ∧
      (∀ q, q < 2 ^ a → (t'.getD q ⟨0, 0, 0⟩).nBits = 255) ∧
      (∀ s, t'.countP (fun e => decide (e.nBits = 255 ∧ e.symbol = s)) =
        t0.countP (fun e => decide (e.nBits = 255 ∧ e.symbol = s)) +
          (if s < (dist.finalCounts.take dist.symbolCount).length
           then ((dist.finalCounts.take dist.symbolCount).getD s 0).toNat
           else 0)) := by
  set n := 2 ^ a with hndef
  set step := (n >>> 1) + (n >>> 3) + 3 with hstepdef
  have hodd : ¬ 2 ∣ step := step_odd a ha
  set cs := dist.finalCounts.take dist.symbolCount with hcsdef
  have hcslen : cs.length ≤ 256 := by
    rw [hcsdef, List.length_take]
    omega
  have hinv0 : spreadInv n step 0 t0 := by
    refine ⟨ht0len, ?_, ?_⟩
    · intro q hq _
      exact ht0 q hq
    · intro q hq hex
      obtain ⟨i, hi, _⟩ := hex
      omega
  obtain ⟨t', hrun, hinv', hsym', hp0'⟩ :=
    spreadWeightsGo_spec n step a rfl hodd cs 0 0 t0 hinv0
      (by rw [hsum]; omega) (by omega)
  rw [Nat.zero_mul, Nat.zero_mod, Nat.zero_add, hsum] at hrun
  have hcover : ∀ q, q < n → (t'.getD q ⟨0, 0, 0⟩).nBits = 255 := by
    intro q hq
    refine hinv'.2.2 q hq ?_
    obtain ⟨i, hi, hiq⟩ := walk_surj n step (by rw [hndef, Nat.log2_two_pow])
      (by rw [hndef]; exact Nat.pos_pow_of_pos _ (by omega)) hodd q hq
    rw [Nat.zero_add, hsum]
    exact ⟨i, hi, hiq⟩
  refine ⟨t', ?_, ?_, hcover, ?_⟩
  · unfold FseDecodingTable.spreadWeights
    rw [ht0len]
    dsimp only
    rw [← hstepdef, ← hcsdef, hrun]
    dsimp only
    rw [if_neg (by simp [Nat.mul_mod_right])]
  · rw [hinv'.1]
  · intro s
    have := hsym' s
    rw [Nat.zero_add] at this
    rw [this]
    by_cases hs : s < cs.length
    · rw [if_pos ⟨by omega, hs⟩, if_pos hs]
      rw [show s - 0 = s from by omega]
    · rw [if_neg (by omega), if_neg hs]

theorem countP_replicate_elem {α : Type} (n : Nat) (d : α) (p : α → Bool) :
    (List.replicate n d).countP p = if p d then n else 0 := by
  induction n with
  | zero => simp
  | succ n ih =>
    rw [List.replicate_succ, List.countP_cons]
    split <;> simp_all

theorem lowProbTop_spec : ∀ (cs : List Int) (s0 ht : Nat) (t : List FseEntry),
    cs.countP (fun c => decide (c = -1)) ≤ ht →
    ht ≤ t.length →
    (∀ q, q < ht → t.getD q ⟨0, 0, 0⟩ = ⟨0, 0, 0⟩) →
    s0 + cs.length ≤ 256 →
    ∃ t', FseDecodingTable.lowProbTop cs s0 ht t =
        (ht - cs.countP (fun c => decide (c = -1)), t') ∧
      t'.length = t.length ∧
      (∀ q, q < ht - cs.countP (fun c => decide (c = -1)) →
        t'.getD q ⟨0, 0, 0⟩ = t.getD q ⟨0, 0, 0⟩) ∧
      (∀ q, ht - cs.countP (fun c => decide (c = -1)) ≤ q → q < ht →
        (t'.getD q ⟨0, 0, 0⟩).nBits = 255) ∧
      (∀ q, ht ≤ q → t'.getD q ⟨0, 0, 0⟩ = t.getD q ⟨0, 0, 0⟩) ∧
      (∀ s, t'.countP (fun e => decide (e.nBits = 255 ∧ e.symbol = s)) =
        t.countP (fun e => decide (e.nBits = 255 ∧ e.symbol = s)) +
          (if s0 ≤ s ∧ s < s0 + cs.length ∧ cs.getD (s - s0) 0 = -1 then 1
           else 0)) ∧
      (t'.countP (fun e => decide (e.nBits = 0)) +
          cs.countP (fun c => decide (c = -1)) =
        t.countP (fun e => decide (e.nBits = 0))) := by
  intro cs
  induction cs with
  | nil =>
    intro s0 ht t hL hht hfree hs256
    refine ⟨t, by simp [FseDecodingTable.lowProbTop], rfl, fun q _ => rfl, ?_,
      fun q _ => rfl, ?_, by simp⟩
    · intro q hq1 hq2
      simp at hq1
      omega
    · intro s
      rw [if_neg (by simp)]
      omega
  | cons c rest ih =>
    intro s0 ht t hL hht hfree hs256
    rw [List.countP_cons] at hL
    have hlen : (c :: rest).length = rest.length + 1 := rfl
    rw [hlen] at hs256
    by_cases hc : c = -1
    · rw [decide_eq_true hc, if_pos rfl] at hL
      have hL' : rest.countP (fun c => decide (c = -1)) ≤ ht - 1 := by omega
      have hfresh : t.getD (ht - 1) ⟨0, 0, 0⟩ = ⟨0, 0, 0⟩ :=
        hfree (ht - 1) (by omega)
      have hs0256 : s0 < 256 := by omega
      have hset : ∀ q, q ≠ ht - 1 →
          (t.set (ht - 1) ⟨0, 255, s0 % 256⟩).getD q ⟨0, 0, 0⟩ =
            t.getD q ⟨0, 0, 0⟩ := by
        intro q hq
        rw [listGetD_set_any, if_neg (by omega)]
      obtain ⟨t', hrun, hlen', hbelow, hmid, habove, hsym, hp0⟩ :=
        ih (s0 + 1) (ht - 1) (t.set (ht - 1) ⟨0, 255, s0 % 256⟩) hL'
          (by rw [List.length_set]; omega)
          (by intro q hq; rw [hset q (by omega)]; exact hfree q (by omega))
          (by omega)
      have hLc : (c :: rest).countP (fun c => decide (c = -1)) =
          rest.countP (fun c => decide (c = -1)) + 1 := by
        rw [List.countP_cons, decide_eq_true hc, if_pos rfl]
      refine ⟨t', ?_, ?_, ?_, ?_, ?_, ?_, ?_⟩
      · simp only [FseDecodingTable.lowProbTop]
        rw [if_pos hc, hrun, hLc,
          show ht - 1 - rest.countP (fun c => decide (c = -1)) =
            ht - (rest.countP (fun c => decide (c = -1)) + 1) from by omega]
      · rw [hlen', List.length_set]
      · intro q hq
        rw [hLc] at hq
        rw [hbelow q (by omega), hset q (by omega)]
      · intro q hq1 hq2
        rw [hLc] at hq1
        by_cases hqe : q = ht - 1
        · subst hqe
          rw [habove (ht - 1) (le_refl _), listGetD_set_any,
            if_pos ⟨rfl, by omega⟩]
        · exact hmid q (by omega) (by omega)
      · intro q hq
        rw [habove q (by omega), hset q (by omega)]
      · intro s
        rw [hsym s]
        have hone := countP_set_elem t (ht - 1) ⟨0, 255, s0 % 256⟩ ⟨0, 0, 0⟩
          (by omega) (fun e => decide (e.nBits = 255 ∧ e.symbol = s))
        rw [hfresh] at hone
        have hdfl : (if (fun e => decide (e.nBits = 255 ∧ e.symbol = s))
            (⟨0, 0, 0⟩ : FseEntry) = true then 1 else 0) = 0 := by simp
        have hpe : (if (fun e => decide (e.nBits = 255 ∧ e.symbol = s))
            (⟨0, 255, s0 % 256⟩ : FseEntry) = true then 1 else 0) =
            if s0 = s then 1 else 0 := by
          rw [Nat.mod_eq_of_lt hs0256]
          by_cases hs : s0 = s
          · simp [hs]
          · simp [hs]
        rw [hdfl, hpe] at hone
        rw [hlen]
        by_cases hs1 : s = s0
        · subst hs1
          rw [if_pos rfl] at hone
          rw [if_neg (show ¬(s + 1 ≤ s ∧ s < s + 1 + rest.length ∧ _) from
              by omega),
            if_pos (show s ≤ s ∧ s < s + (rest.length + 1) ∧
              (c :: rest).getD (s - s) 0 = -1 from by
                refine ⟨by omega, by omega, ?_⟩
                rw [show s - s = 0 from by omega, List.getD_cons_zero]
                exact hc)]
          omega
        · rw [if_neg (show ¬ s0 = s from fun hh => hs1 hh.symm)] at hone
          by_cases hs2 : s0 + 1 ≤ s ∧ s < s0 + 1 + rest.length ∧
              rest.getD (s - (s0 + 1)) 0 = -1
          · rw [if_pos hs2, if_pos (show s0 ≤ s ∧ s < s0 + (rest.length + 1) ∧
                (c :: rest).getD (s - s0) 0 = -1 from by
                  refine ⟨by omega, by omega, ?_⟩
                  rw [show s - s0 = (s - (s0 + 1)) + 1 from by omega,
                    List.getD_cons_succ]
                  exact hs2.2.2)]
            omega
          · rw [if_neg hs2]
            rw [if_neg ?_]
            · omega
            · intro hcon
              refine hs2 ⟨by omega, by omega, ?_⟩
              have := hcon.2.2
              rw [show s - s0 = (s - (s0 + 1)) + 1 from by omega,
                List.getD_cons_succ] at this
              exact this
      · rw [hLc]
        have hone := countP_set_elem t (ht - 1) ⟨0, 255, s0 % 256⟩ ⟨0, 0, 0⟩
          (by omega) (fun e => decide (e.nBits = 0))
        rw [hfresh] at hone
        have hdfl : (if (fun e => decide (e.nBits = 0))
            (⟨0, 0, 0⟩ : FseEntry) = true then 1 else 0) = 1 := by simp
        have hpe : (if (fun e => decide (e.nBits = 0))
            (⟨0, 255, s0 % 256⟩ : FseEntry) = true then 1 else 0) = 0 := by simp
        rw [hdfl, hpe] at hone
        omega
    · have hc' : decide (c = -1) = false := decide_eq_false hc
      rw [hc', if_neg (by simp)] at hL
      obtain ⟨t', hrun, hlen', hbelow, hmid, habove, hsym, hp0⟩ :=
        ih (s0 + 1) ht t hL hht hfree (by omega)
      have hLc : (c :: rest).countP (fun c => decide (c = -1)) =
          rest.countP (fun c => decide (c = -1)) := by
        rw [List.countP_cons, hc', if_neg (by simp)]
        omega
      refine ⟨t', ?_, hlen', ?_, ?_, habove, ?_, ?_⟩
      · simp only [FseDecodingTable.lowProbTop]
        rw [if_neg hc, hrun, hLc]
      · intro q hq
        rw [hLc] at hq
        exact hbelow q hq
      · intro q hq1 hq2
        rw [hLc] at hq1
        exact hmid q hq1 hq2
      · intro s
        rw [hsym s, hlen]
        by_cases hs1 : s = s0
        · subst hs1
          rw [if_neg (show ¬(s + 1 ≤ s ∧ _) from by omega),
            if_neg ?_]
          intro hcon
          have := hcon.2.2
          rw [show s - s = 0 from by omega, List.getD_cons_zero] at this
          exact hc this
        · by_cases hs2 : s0 + 1 ≤ s ∧ s < s0 + 1 + rest.length ∧
              rest.getD (s - (s0 + 1)) 0 = -1
          · rw [if_pos hs2, if_pos (show s0 ≤ s ∧ s < s0 + (rest.length + 1) ∧
                (c :: rest).getD (s - s0) 0 = -1 from by
                  refine ⟨by omega, by omega, ?_⟩
                  rw [show s - s0 = (s - (s0 + 1)) + 1 from by omega,
                    List.getD_cons_succ]
                  exact hs2.2.2)]
          · rw [if_neg hs2, if_neg ?_]
            intro hcon
            refine hs2 ⟨by omega, by omega, ?_⟩
            have := hcon.2.2
            rw [show s - s0 = (s - (s0 + 1)) + 1 from by omega,
              List.getD_cons_succ] at this
            exact this
      · rw [hLc]
        exact hp0

theorem skipWhile_spec (n step a ht : Nat) (hn : n = 2 ^ a) :
    ∀ (fuel j : Nat),
    (∃ m, j ≤ m ∧ m < j + fuel ∧ m * step % n < ht) →
    ∃ m, j ≤ m ∧ m * step % n < ht ∧
      (∀ i, j ≤ i → i < m → ¬ i * step % n < ht) ∧ m < j + fuel ∧
      FseDecodingTable.skipWhile step (n - 1) ht fuel (j * step % n) =
        some (m * step % n) := by
  intro fuel
  induction fuel with
  | zero =>
    intro j hex
    obtain ⟨m, h1, h2, h3⟩ := hex
    omega
  | succ fuel ih =>
    intro j hex
    by_cases hj : j * step % n < ht
    · refine ⟨j, le_refl _, hj, fun i h1 h2 => by omega, by omega,
        ?_⟩
      show (if j * step % n ≥ ht then _ else some (j * step % n)) = _
      rw [if_neg (by omega)]
    · have hex' : ∃ m, j + 1 ≤ m ∧ m < j + 1 + fuel ∧ m * step % n < ht := by
        obtain ⟨m, h1, h2, h3⟩ := hex
        refine ⟨m, ?_, by omega, h3⟩
        rcases Nat.eq_or_lt_of_le h1 with he | hl
        · subst he
          exact absurd h3 hj
        · omega
      obtain ⟨m, h1, h2, h3, h4, h5⟩ := ih (j + 1) hex'
      refine ⟨m, by omega, h2, ?_, by omega, ?_⟩
      · intro i hi1 hi2
        rcases Nat.eq_or_lt_of_le hi1 with he | hl
        · subst he
          exact hj
        · exact h3 i (by omega) hi2
      · show (if j * step % n ≥ ht then
            FseDecodingTable.skipWhile step (n - 1) ht fuel
              ((j * step % n + step) &&& (n - 1))
          else _) = _
        rw [if_pos (by omega), walk_add1 n a step j hn]
        exact h5

theorem next_zero_walk (n k : Nat) (hn0 : 0 < n) :
    ∃ m, k + 1 ≤ m ∧ m < k + 1 + n ∧ m % n = 0 := by
  refine ⟨(k + n) / n * n, ?_, ?_, Nat.mul_mod_left _ _⟩
  · have hdm := Nat.div_add_mod (k + n) n
    have hmod := Nat.mod_lt (k + n) hn0
    have hcomm : n * ((k + n) / n) = (k + n) / n * n := Nat.mul_comm ..
    omega
  · have h3 : (k + n) / n * n ≤ k + n := Nat.div_mul_le_self _ _
    omega

theorem zero_walk_lt (n step m ht : Nat) (hm : m % n = 0)
    (hht : 1 ≤ ht) : m * step % n < ht := by
  obtain ⟨q, hq⟩ : n ∣ m := Nat.dvd_of_mod_eq_zero hm
  subst hq
  rw [Nat.mul_assoc, Nat.mul_mod_right]
  omega

theorem next_index (n step a ht k : Nat) (hn : n = 2 ^ a)
    (hodd : ¬ 2 ∣ step) (t : List FseEntry)
    (hinv : lowInv n step ht k t)
    (hpos : 1 ≤ t.countP (fun e => decide (e.nBits = 0))) :
    ∃ m, k ≤ m ∧ m < n ∧ m * step % n < ht := by
  obtain ⟨hlen, hfree, hwr⟩ := hinv
  obtain ⟨x, hxm, hxp⟩ := List.countP_pos_iff.mp hpos
  obtain ⟨q, hq, hqx⟩ := List.getElem_of_mem hxm
  have hq0 : (t.getD q ⟨0, 0, 0⟩).nBits = 0 := by
    rw [List.getD_eq_getElem t _ hq, hqx]
    simpa using hxp
  have hqn : q < n := by omega
  have hnot : ¬((∃ i, i < k ∧ i * step % n < ht ∧ i * step % n = q) ∨
      ht ≤ q) := by
    intro hcon
    have := hwr q hqn hcon
    omega
  push_neg at hnot
  obtain ⟨hnw, hqht⟩ := hnot
  obtain ⟨i, hi, hiq⟩ := walk_surj n step (by rw [hn, Nat.log2_two_pow])
    (by rw [hn]; exact Nat.pos_pow_of_pos _ (by omega)) hodd q hqn
  refine ⟨i, ?_, hi, by omega⟩
  by_contra hik
  push_neg at hik
  exact absurd hiq (hnw i hik (by omega))

theorem lowInv_extend (n step ht k m : Nat) (t : List FseEntry)
    (hinv : lowInv n step ht k t) (hkm : k ≤ m)
    (hskip : ∀ i, k ≤ i → i < m → ¬ i * step % n < ht) :
    lowInv n step ht m t := by
  obtain ⟨h1, h2, h3⟩ := hinv
  refine ⟨h1, ?_, ?_⟩
  · intro q hq hnone
    apply h2 q hq
    intro i hik hihl
    exact hnone i (by omega) hihl
  · intro q hq hcase
    apply h3 q hq
    rcases hcase with ⟨i, hi, hl, he⟩ | hh
    · by_cases hik : i < k
      · exact Or.inl ⟨i, hik, hl, he⟩
      · exact absurd hl (hskip i (by omega) hi)
    · exact Or.inr hh

theorem low_write_one (n step a ht k : Nat) (hn : n = 2 ^ a)
    (hodd : ¬ 2 ∣ step) (hk : k < n) (hkht : k * step % n < ht)
    (t : List FseEntry) (hinv : lowInv n step ht k t) (e : FseEntry)
    (he : e.nBits = 255) :
    lowInv n step ht (k + 1) (t.set (k * step % n) e) ∧
    (∀ p : FseEntry → Bool,
      (t.set (k * step % n) e).countP p + (if p ⟨0, 0, 0⟩ then 1 else 0) =
        t.countP p + (if p e then 1 else 0)) := by
  obtain ⟨hlen, hfree, hwr⟩ := hinv
  have hn0 : 0 < n := by rw [hn]; exact Nat.pos_pow_of_pos _ (by omega)
  have hlog : n = 2 ^ (Nat.log2 n) := by rw [hn, Nat.log2_two_pow]
  have hposlt : k * step % n < n := Nat.mod_lt _ hn0
  have hfresh : t.getD (k * step % n) ⟨0, 0, 0⟩ = ⟨0, 0, 0⟩ := by
    apply hfree _ hkht
    intro i hik _ heq
    have := walk_inj n step hlog hodd i k (by omega) hk heq
    omega
  refine ⟨⟨by rw [List.length_set]; exact hlen, ?_, ?_⟩, ?_⟩
  · intro q hq hnone
    rw [listGetD_set_any, if_neg ?_]
    · exact hfree q hq (fun i hik hil => hnone i (by omega) hil)
    · intro hc
      exact hnone k (by omega) hkht hc.1
  · intro q hq hex
    rw [listGetD_set_any]
    by_cases hc : k * step % n = q ∧ k * step % n < t.length
    · rw [if_pos hc]
      exact he
    · rw [if_neg hc]
      apply hwr q hq
      rcases hex with ⟨i, hik, hil, hiq⟩ | hh
      · rcases Nat.lt_or_ge i k with h' | h'
        · exact Or.inl ⟨i, h', hil, hiq⟩
        · have hik1 : i = k := by omega
          subst hik1
          exact absurd ⟨hiq, by rw [hlen]; exact hposlt⟩ hc
      · exact Or.inr hh
  · intro p
    have := countP_set_elem t (k * step % n) e ⟨0, 0, 0⟩
      (by rw [hlen]; exact hposlt) p
    rw [hfresh] at this
    omega

theorem lowSpreadCount_spec (n step a ht : Nat) (hn : n = 2 ^ a)
    (ha : 1 ≤ a) (hodd : ¬ 2 ∣ step) (e : FseEntry) (he : e.nBits = 255)
    (hht1 : 1 ≤ ht) :
    ∀ (c k R : Nat) (t : List FseEntry),
    lowInv n step ht k t →
    (1 ≤ c + R → k < n ∧ k * step % n < ht) →
    c + R ≤ t.countP (fun x => decide (x.nBits = 0)) →
    ∃ k' t', FseDecodingTable.lowSpreadCount step (n - 1) ht e n c t
        (k * step % n) = some (t', k' * step % n) ∧
      k ≤ k' ∧ t'.length = t.length ∧
      (1 ≤ R → lowInv n step ht k' t' ∧ k' < n ∧ k' * step % n < ht) ∧
      (R ≤ t'.countP (fun x => decide (x.nBits = 0))) ∧
      (∀ p : FseEntry → Bool,
        t'.countP p + c * (if p ⟨0, 0, 0⟩ then 1 else 0) =
          t.countP p + c * (if p e then 1 else 0)) := by
  intro c
  induction c with
  | zero =>
    intro k R t hinv hpos hbud
    refine ⟨k, t, rfl, le_refl _, rfl, ?_, by omega, fun p => by norm_num⟩
    intro hR
    exact ⟨hinv, (hpos (by omega)).1, (hpos (by omega)).2⟩
  | succ c ih =>
    intro k R t hinv hpos hbud
    have hn0 : 0 < n := by rw [hn]; exact Nat.pos_pow_of_pos _ (by omega)
    obtain ⟨hkn, hkht⟩ := hpos (by omega)
    obtain ⟨hinv1, hcp1⟩ :=
      low_write_one n step a ht k hn hodd hkn hkht t hinv e he
    have hbud1 : c + R ≤
        (t.set (k * step % n) e).countP (fun x => decide (x.nBits = 0)) := by
      have := hcp1 (fun x => decide (x.nBits = 0))
      rw [show (if (fun x => decide (x.nBits = 0)) (⟨0, 0, 0⟩ : FseEntry) = true
          then 1 else 0) = 1 from by simp,
        show (if (fun x => decide (x.nBits = 0)) e = true then 1 else 0) = 0
          from by simp [he]] at this
      omega
    have hexz := next_zero_walk n k hn0
    obtain ⟨mz, hmz1, hmz2, hmz3⟩ := hexz
    obtain ⟨m, hm1, hm2, hm3, hm4, hm5⟩ :=
      skipWhile_spec n step a ht hn n (k + 1)
        ⟨mz, hmz1, by omega, zero_walk_lt n step mz ht hmz3 hht1⟩
    have hinv2 : lowInv n step ht m (t.set (k * step % n) e) :=
      lowInv_extend n step ht (k + 1) m _ hinv1 hm1 hm3
    have hmlt : 1 ≤ c + R → m < n := by
      intro hcr
      obtain ⟨m2, hm2a, hm2b, hm2c⟩ :=
        next_index n step a ht (k + 1) hn hodd _ hinv1 (by omega)
      have := hm3 m2
      by_contra hmn
      push_neg at hmn
      exact absurd hm2c (hm3 m2 hm2a (by omega))
    obtain ⟨k', t', hrun, hk'1, hlen', hRout, hbud', hcp'⟩ :=
      ih m R (t.set (k * step % n) e) hinv2
        (fun hcr => ⟨hmlt hcr, hm2⟩) hbud1
    refine ⟨k', t', ?_, by omega, by rw [hlen', List.length_set], hRout,
      hbud', ?_⟩
    · show (match FseDecodingTable.skipWhile step (n - 1) ht n
          ((k * step % n + step) &&& (n - 1)) with
        | none => none
        | some pos => FseDecodingTable.lowSpreadCount step (n - 1) ht e n c
            (t.set (k * step % n) e) pos) = _
      rw [walk_add1 n a step k hn, hm5]
      exact hrun
    · intro p
      have h1 := hcp1 p
      have h2 := hcp' p
      rw [Nat.succ_mul, Nat.succ_mul]
      omega

theorem lowSpreadGo_spec (n step a ht : Nat) (hn : n = 2 ^ a) (ha : 1 ≤ a)
    (hodd : ¬ 2 ∣ step) :
    ∀ (cs : List Int) (s0 k : Nat) (t : List FseEntry),
    (1 ≤ (cs.map Int.toNat).sum → lowInv n step ht k t) →
    (1 ≤ (cs.map Int.toNat).sum → k < n ∧ k * step % n < ht) →
    (cs.map Int.toNat).sum ≤ t.countP (fun x => decide (x.nBits = 0)) →
    s0 + cs.length ≤ 256 →
    ∃ t' pos', FseDecodingTable.lowSpreadGo step (n - 1) ht n cs s0 t
        (k * step % n) = some (t', pos') ∧
      t'.length = t.length ∧
      (∀ s, t'.countP (fun e => decide (e.nBits = 255 ∧ e.symbol = s)) =
        t.countP (fun e => decide (e.nBits = 255 ∧ e.symbol = s)) +
          (if s0 ≤ s ∧ s < s0 + cs.length then (cs.getD (s - s0) 0).toNat
           else 0)) ∧
      (t'.countP (fun e => decide (e.nBits = 0)) + (cs.map Int.toNat).sum =
        t.countP (fun e => decide (e.nBits = 0))) ∧
      (t'.countP (fun e => decide (¬(e.nBits = 0 ∨ e.nBits = 255))) =
        t.countP (fun e => decide (¬(e.nBits = 0 ∨ e.nBits = 255)))) := by
  intro cs
  induction cs with
  | nil =>
    intro s0 k t hinv hpos hbud hs256
    refine ⟨t, k * step % n, rfl, rfl, ?_, by simp, rfl⟩
    intro s
    rw [if_neg (by simp)]
    omega
  | cons c rest ih =>
    intro s0 k t hinv hpos hbud hs256
    rw [sumToNat_cons] at hinv hpos hbud
    have hlen : (c :: rest).length = rest.length + 1 := rfl
    rw [hlen] at hs256
    by_cases hc : c ≤ 0
    · have hc0 : c.toNat = 0 := Int.toNat_of_nonpos hc
      rw [hc0, Nat.zero_add] at hinv hpos hbud
      obtain ⟨t', pos', hrun', hlen', hsym', hp0', hpb'⟩ :=
        ih (s0 + 1) k t hinv hpos hbud (by omega)
      refine ⟨t', pos', ?_, hlen', ?_, ?_, hpb'⟩
      · simp only [FseDecodingTable.lowSpreadGo]
        rw [if_pos hc]
        exact hrun'
      · intro s
        rw [hsym' s, hlen]
        by_cases hs1 : s = s0
        · subst hs1
          rw [if_neg (show ¬(s + 1 ≤ s ∧ s < s + 1 + rest.length) from
              by omega),
            if_pos (show s ≤ s ∧ s < s + (rest.length + 1) from by omega),
            show s - s = 0 from by omega, List.getD_cons_zero, hc0]
        · by_cases hs2 : s0 + 1 ≤ s ∧ s < s0 + 1 + rest.length
          · rw [if_pos hs2,
              if_pos (show s0 ≤ s ∧ s < s0 + (rest.length + 1) from by omega),
              show s - s0 = (s - (s0 + 1)) + 1 from by omega,
              List.getD_cons_succ]
          · rw [if_neg hs2,
              if_neg (show ¬(s0 ≤ s ∧ s < s0 + (rest.length + 1)) from
                by omega)]
      · rw [sumToNat_cons, hc0, Nat.zero_add]
        exact hp0'
    · have hc1 : 1 ≤ c.toNat := by omega
      obtain ⟨hkn, hkht⟩ := hpos (by omega)
      have hs0256 : s0 < 256 := by omega
      obtain ⟨k1, t1, hrun1, hk1, hlen1, hRout1, hbud1, hcp1⟩ :=
        lowSpreadCount_spec n step a ht hn ha hodd ⟨0, 255, s0 % 256⟩ rfl
          (by omega) c.toNat k ((rest.map Int.toNat).sum) t (hinv (by omega))
          (fun _ => ⟨hkn, hkht⟩) hbud
      obtain ⟨t', pos', hrun', hlen', hsym', hp0', hpb'⟩ :=
        ih (s0 + 1) k1 t1
          (fun hR => (hRout1 hR).1)
          (fun hR => ⟨(hRout1 hR).2.1, (hRout1 hR).2.2⟩)
          (by omega) (by omega)
      refine ⟨t', pos', ?_, by omega, ?_, ?_, ?_⟩
      · simp only [FseDecodingTable.lowSpreadGo]
        rw [if_neg hc, hrun1]
        dsimp only
        exact hrun'
      · intro s
        have hone := hcp1 (fun e => decide (e.nBits = 255 ∧ e.symbol = s))
        have hdfl : (if (fun e => decide (e.nBits = 255 ∧ e.symbol = s))
            (⟨0, 0, 0⟩ : FseEntry) = true then 1 else 0) = 0 := by simp
        have hpe : (if (fun e => decide (e.nBits = 255 ∧ e.symbol = s))
            (⟨0, 255, s0 % 256⟩ : FseEntry) = true then 1 else 0) =
            if s0 = s then 1 else 0 := by
          rw [Nat.mod_eq_of_lt hs0256]
          by_cases hs : s0 = s
          · simp [hs]
          · simp [hs]
        rw [hdfl, hpe] at hone
        rw [hsym' s, hlen]
        by_cases hs1 : s = s0
        · subst hs1
          rw [if_pos rfl] at hone
          rw [if_neg (show ¬(s + 1 ≤ s ∧ s < s + 1 + rest.length) from
              by omega),
            if_pos (show s ≤ s ∧ s < s + (rest.length + 1) from by omega),
            show s - s = 0 from by omega, List.getD_cons_zero]
          omega
        · rw [if_neg (show ¬ s0 = s from fun hh => hs1 hh.symm)] at hone
          by_cases hs2 : s0 + 1 ≤ s ∧ s < s0 + 1 + rest.length
          · rw [if_pos hs2,
              if_pos (show s0 ≤ s ∧ s < s0 + (rest.length + 1) from by omega),
              show s - s0 = (s - (s0 + 1)) + 1 from by omega,
              List.getD_cons_succ]
            omega
          · rw [if_neg hs2,
              if_neg (show ¬(s0 ≤ s ∧ s < s0 + (rest.length + 1)) from
                by omega)]
            omega
      · have hone := hcp1 (fun e => decide (e.nBits = 0))
        have hdfl : (if (fun e => decide (e.nBits = 0))
            (⟨0, 0, 0⟩ : FseEntry) = true then 1 else 0) = 1 := by simp
        have hpe : (if (fun e => decide (e.nBits = 0))
            (⟨0, 255, s0 % 256⟩ : FseEntry) = true then 1 else 0) = 0 := by
          simp
        rw [hdfl, hpe] at hone
        rw [sumToNat_cons]
        omega
      · have hone := hcp1 (fun e => decide (¬(e.nBits = 0 ∨ e.nBits = 255)))
        have hdfl : (if (fun e => decide (¬(e.nBits = 0 ∨ e.nBits = 255)))
            (⟨0, 0, 0⟩ : FseEntry) = true then 1 else 0) = 0 := by simp
        have hpe : (if (fun e => decide (¬(e.nBits = 0 ∨ e.nBits = 255)))
            (⟨0, 255, s0 % 256⟩ : FseEntry) = true then 1 else 0) = 0 := by
          simp
        rw [hdfl, hpe] at hone
        omega

theorem lowProbTop_pbad : ∀ (cs : List Int) (s0 ht : Nat) (t : List FseEntry),
    cs.countP (fun c => decide (c = -1)) ≤ ht →
    ht ≤ t.length →
    (∀ q, q < ht → t.getD q ⟨0, 0, 0⟩ = ⟨0, 0, 0⟩) →
    (FseDecodingTable.lowProbTop cs s0 ht t).2.countP
        (fun e => decide (¬(e.nBits = 0 ∨ e.nBits = 255))) =
      t.countP (fun e => decide (¬(e.nBits = 0 ∨ e.nBits = 255))) := by
  intro cs
  induction cs with
  | nil =>
    intro s0 ht t _ _ _
    rfl
  | cons c rest ih =>
    intro s0 ht t hL hht hfree
    rw [List.countP_cons] at hL
    by_cases hc : c = -1
    · rw [decide_eq_true hc, if_pos rfl] at hL
      have hfresh : t.getD (ht - 1) ⟨0, 0, 0⟩ = ⟨0, 0, 0⟩ :=
        hfree (ht - 1) (by omega)
      simp only [FseDecodingTable.lowProbTop]
      rw [if_pos hc]
      rw [ih (s0 + 1) (ht - 1) (t.set (ht - 1) ⟨0, 255, s0 % 256⟩)
        (by omega) (by rw [List.length_set]; omega)
        (by
          intro q hq
          rw [listGetD_set_any, if_neg (by omega)]
          exact hfree q (by omega))]
      have hone := countP_set_elem t (ht - 1) ⟨0, 255, s0 % 256⟩ ⟨0, 0, 0⟩
        (by omega) (fun e => decide (¬(e.nBits = 0 ∨ e.nBits = 255)))
      rw [hfresh] at hone
      have hdfl : (if (fun e => decide (¬(e.nBits = 0 ∨ e.nBits = 255)))
          (⟨0, 0, 0⟩ : FseEntry) = true then 1 else 0) = 0 := by simp
      have hpe : (if (fun e => decide (¬(e.nBits = 0 ∨ e.nBits = 255)))
          (⟨0, 255, s0 % 256⟩ : FseEntry) = true then 1 else 0) = 0 := by simp
      rw [hdfl, hpe] at hone
      omega
    · simp only [FseDecodingTable.lowProbTop]
      rw [if_neg hc]
      refine ih (s0 + 1) ht t ?_ hht hfree
      rw [decide_eq_false hc, if_neg (by simp)] at hL
      omega

theorem spreadSymbolsLowProb_spec (a : Nat) (ha : 4 ≤ a)
    (dist : NormalizedDistribution)
    (hsum : ((dist.finalCounts.take dist.symbolCount).map Int.toNat).sum +
        (dist.finalCounts.take dist.symbolCount).countP
          (fun c => decide (c = -1)) = 2 ^ a)
    (hL : 1 ≤ (dist.finalCounts.take dist.symbolCount).countP
        (fun c => decide (c = -1)))
    (hge : ∀ c ∈ dist.finalCounts.take dist.symbolCount, -1 ≤ c)
    (hcnt : dist.symbolCount ≤ 256) :
    ∃ t', FseDecodingTable.spreadSymbolsLowProb dist
        (List.replicate (2 ^ a) ⟨0, 0, 0⟩) = some (.ok t') ∧
      t'.length = 2 ^ a ∧
      (∀ s, t'.countP (fun e => decide (e.nBits = 255 ∧ e.symbol = s)) =
        if s < (dist.finalCounts.take dist.symbolCount).length then
          ((dist.finalCounts.take dist.symbolCount).getD s 0).natAbs
        else 0) ∧
      t'.countP (fun e => decide (e.nBits = 0)) = 0 ∧
      (∀ e ∈ t', e.nBits = 255) := by
  set n := 2 ^ a with hndef
  set cs := dist.finalCounts.take dist.symbolCount with hcsdef
  set L := cs.countP (fun c => decide (c = -1)) with hLdef
  set S := (cs.map Int.toNat).sum with hSdef
  set step := (n >>> 1) + (n >>> 3) + 3 with hstepdef
  have hn1 : 1 ≤ n := Nat.one_le_two_pow
  have hn16 : 16 ≤ n := by
    calc 16 = 2 ^ 4 := by norm_num
    _ ≤ 2 ^ a := Nat.pow_le_pow_right (by omega) ha
  have hLn : L ≤ n := by omega
  have hcslen : cs.length ≤ 256 := by
    rw [hcsdef]
    calc (dist.finalCounts.take dist.symbolCount).length ≤ dist.symbolCount :=
        by rw [List.length_take]; omega
    _ ≤ 256 := hcnt
  have hodd : ¬ 2 ∣ step := step_odd a ha
  have ht0len : (List.replicate n (⟨0, 0, 0⟩ : FseEntry)).length = n :=
    List.length_replicate n _
  have ht0all : ∀ q, q < n →
      (List.replicate n (⟨0, 0, 0⟩ : FseEntry)).getD q ⟨0, 0, 0⟩ = ⟨0, 0, 0⟩ := by
    intro q hq
    rw [List.getD_eq_getElem?_getD, List.getElem?_replicate, if_pos hq]
    rfl
  obtain ⟨t1, hrun1, hlen1, hbelow1, hmid1, _, hsym1, hp01⟩ :=
    lowProbTop_spec cs 0 n (List.replicate n ⟨0, 0, 0⟩)
      (by omega) (by omega) ht0all (by omega)
  have hp0t0 : (List.replicate n (⟨0, 0, 0⟩ : FseEntry)).countP
      (fun e => decide (e.nBits = 0)) = n := by
    rw [countP_replicate_elem, if_pos (by simp)]
  have hsymt0 : ∀ s, (List.replicate n (⟨0, 0, 0⟩ : FseEntry)).countP
      (fun e => decide (e.nBits = 255 ∧ e.symbol = s)) = 0 := by
    intro s
    rw [countP_replicate_elem, if_neg (by simp)]
  have hp0t1 : t1.countP (fun e => decide (e.nBits = 0)) = n - L := by
    rw [hp0t0] at hp01
    omega
  have hSht : S + L = n := hsum
  have hinv0 : lowInv n step (n - L) 0 t1 := by
    refine ⟨by rw [hlen1, ht0len], ?_, ?_⟩
    · intro q hq _
      rw [hbelow1 q hq]
      exact ht0all q (by omega)
    · intro q hqn hq
      rcases hq with ⟨i, hi, _⟩ | hq
      · omega
      · exact hmid1 q hq hqn
  obtain ⟨t2, pos', hrun2, hlen2, hsym2, hp02, hpb2⟩ :=
    lowSpreadGo_spec n step a (n - L) hndef (by omega) hodd cs 0 0 t1
      (fun _ => hinv0)
      (by
        intro hS
        rw [← hSdef] at hS
        constructor
        · omega
        · rw [Nat.zero_mul, Nat.zero_mod]
          omega)
      (by rw [← hSdef, hp0t1]; omega)
      (by omega)
  rw [Nat.zero_mul, Nat.zero_mod] at hrun2
  have hpbt0 : (List.replicate n (⟨0, 0, 0⟩ : FseEntry)).countP
      (fun e => decide (¬(e.nBits = 0 ∨ e.nBits = 255))) = 0 := by
    rw [countP_replicate_elem, if_neg (by simp)]
  have hpbt1 : t1.countP
      (fun e => decide (¬(e.nBits = 0 ∨ e.nBits = 255))) = 0 := by
    have := lowProbTop_pbad cs 0 n (List.replicate n ⟨0, 0, 0⟩)
      (by omega) (by omega) ht0all
    rw [hrun1] at this
    rw [this, hpbt0]
  have hp0t2 : t2.countP (fun e => decide (e.nBits = 0)) = 0 := by
    rw [← hSdef, hp0t1] at hp02
    omega
  refine ⟨t2, ?_, by rw [hlen2, hlen1, ht0len], ?_, hp0t2, ?_⟩
  · simp only [FseDecodingTable.spreadSymbolsLowProb]
    rw [ht0len, ← hcsdef, ← hstepdef, hrun1]
    dsimp only
    rw [← hLdef, hrun2]
    dsimp only
    rw [if_neg (show ¬(n - L = n ∧ pos' ≠ 0) from by
      intro hcontra
      omega)]
  · intro s
    rw [hsym2 s, hsym1 s, hsymt0 s]
    by_cases hs : s < cs.length
    · rw [if_pos hs,
        if_pos (show 0 ≤ s ∧ s < 0 + cs.length from by omega),
        show s - 0 = s from by omega]
      have hmem : cs.getD s 0 ∈ cs := by
        rw [List.getD_eq_getElem cs 0 hs]
        exact List.getElem_mem hs
      have hge1 : -1 ≤ cs.getD s 0 := hge _ hmem
      by_cases hm1 : cs.getD s 0 = -1
      · rw [if_pos (show 0 ≤ s ∧ s < 0 + cs.length ∧ cs.getD s 0 = -1 from
          ⟨by omega, by omega, hm1⟩), hm1]
        rfl
      · rw [if_neg (show ¬(0 ≤ s ∧ s < 0 + cs.length ∧ cs.getD s 0 = -1) from
          by
            intro hcontra
            exact hm1 hcontra.2.2)]
        omega
    · rw [if_neg hs,
        if_neg (show ¬(0 ≤ s ∧ s < 0 + cs.length) from by omega),
        if_neg (show ¬(0 ≤ s ∧ s < 0 + cs.length ∧ cs.getD (s - 0) 0 = -1)
          from by
          intro hcontra
          omega)]
  · intro e he
    have hz := (List.countP_eq_zero.mp hp0t2) e he
    have hb := (List.countP_eq_zero.mp (by rw [hpb2, hpbt1])) e he
    simp only [decide_eq_true_eq] at hz hb
    rw [not_not] at hb
    rcases hb with hb | hb
    · exact absurd hb hz
    · exact hb

theorem fromPredefinedGo_spec : ∀ (counts : List Int) (idx : Nat)
    (fc : List Int) (ss : List Nat) (low0 : Bool),
    idx + counts.length ≤ 256 → fc.length = 256 → ss.length = 256 →
    ∃ fc' ss', NormalizedDistribution.fromPredefinedGo counts idx fc ss low0 =
        .ok (fc', ss', idx + counts.length,
          (low0 || counts.any (fun c => decide (c = -1)))) ∧
      fc'.length = 256 ∧ ss'.length = 256 ∧
      (∀ i, ¬ (idx ≤ i ∧ i < idx + counts.length) →
        fc'.getD i 0 = fc.getD i 0 ∧ ss'.getD i 0 = ss.getD i 0) ∧
      (∀ i, idx ≤ i → i < idx + counts.length →
        fc'.getD i 0 = counts.getD (i - idx) 0 ∧
        ss'.getD i 0 = (if counts.getD (i - idx) 0 = -1 then 1
          else ((counts.getD (i - idx) 0 % 65536).toNat))) := by
  intro counts
  induction counts with
  | nil =>
    intro idx fc ss low0 h256 hfc hss
    refine ⟨fc, ss, ?_, hfc, hss, fun i _ => ⟨rfl, rfl⟩, fun i h1 h2 => ?_⟩
    · simp [NormalizedDistribution.fromPredefinedGo]
    · simp at h2
      omega
  | cons c rest ih =>
    intro idx fc ss low0 h256 hfc hss
    have hlen : (c :: rest).length = rest.length + 1 := rfl
    rw [hlen] at h256
    have hidx : ¬ idx ≥ 256 := by omega
    by_cases hc : c = -1
    · obtain ⟨fc', ss', hrun, hfc', hss', huntouched, hwritten⟩ :=
        ih (idx + 1) (fc.set idx c) (ss.set idx 1) true
          (by omega) (by rw [List.length_set]; omega)
          (by rw [List.length_set]; omega)
      refine ⟨fc', ss', ?_, hfc', hss', ?_, ?_⟩
      · simp only [NormalizedDistribution.fromPredefinedGo]
        rw [if_neg hidx, if_pos hc, hrun, hlen, List.any_cons,
          decide_eq_true hc]
        rw [show idx + 1 + rest.length = idx + (rest.length + 1) from
          by omega]
        rw [Bool.true_or, Bool.or_true]
      · intro i hi
        rw [hlen] at hi
        obtain ⟨h1, h2⟩ := huntouched i (by omega)
        rw [h1, h2, listGetD_set_any, listGetD_set_any,
          if_neg (by omega), if_neg (by omega)]
        exact ⟨rfl, rfl⟩
      · intro i hi1 hi2
        rw [hlen] at hi2
        by_cases hie : i = idx
        · subst hie
          obtain ⟨h1, h2⟩ := huntouched i (by omega)
          rw [h1, h2, listGetD_set_any, listGetD_set_any,
            if_pos ⟨rfl, by omega⟩, if_pos ⟨rfl, by omega⟩,
            show i - i = 0 from by omega, List.getD_cons_zero,
            if_pos hc, hc]
          exact ⟨rfl, rfl⟩
        · obtain ⟨h1, h2⟩ := hwritten i (by omega) (by omega)
          rw [h1, h2,
            show i - idx = (i - (idx + 1)) + 1 from by omega,
            List.getD_cons_succ]
          exact ⟨rfl, rfl⟩
    · obtain ⟨fc', ss', hrun, hfc', hss', huntouched, hwritten⟩ :=
        ih (idx + 1) (fc.set idx c) (ss.set idx ((c % 65536).toNat)) low0
          (by omega) (by rw [List.length_set]; omega)
          (by rw [List.length_set]; omega)
      refine ⟨fc', ss', ?_, hfc', hss', ?_, ?_⟩
      · simp only [NormalizedDistribution.fromPredefinedGo]
        rw [if_neg hidx, if_neg hc, hrun, hlen, List.any_cons,
          decide_eq_false hc]
        rw [show idx + 1 + rest.length = idx + (rest.length + 1) from
          by omega]
        rw [Bool.false_or]
      · intro i hi
        rw [hlen] at hi
        obtain ⟨h1, h2⟩ := huntouched i (by omega)
        rw [h1, h2, listGetD_set_any, listGetD_set_any,
          if_neg (by omega), if_neg (by omega)]
        exact ⟨rfl, rfl⟩
      · intro i hi1 hi2
        rw [hlen] at hi2
        by_cases hie : i = idx
        · subst hie
          obtain ⟨h1, h2⟩ := huntouched i (by omega)
          rw [h1, h2, listGetD_set_any, listGetD_set_any,
            if_pos ⟨rfl, by omega⟩, if_pos ⟨rfl, by omega⟩,
            show i - i = 0 from by omega, List.getD_cons_zero,
            if_neg hc]
          exact ⟨rfl, rfl⟩
        · obtain ⟨h1, h2⟩ := hwritten i (by omega) (by omega)
          rw [h1, h2,
            show i - idx = (i - (idx + 1)) + 1 from by omega,
            List.getD_cons_succ]
          exact ⟨rfl, rfl⟩

theorem clz16_nBits_pos (a state : Nat) (ha : 1 ≤ a) (ha15 : a ≤ 15)
    (h1 : 1 ≤ state) (h2 : state < 2 ^ a) :
    1 ≤ a + FseDecodingTable.clz16 state - 15 := by
  have h64 : state < 2 ^ 64 := by
    calc state < 2 ^ a := h2
    _ ≤ 2 ^ 64 := Nat.pow_le_pow_right (by omega) (by omega)
  have hlog := (Nat.log2_lt (show state ≠ 0 from by omega)).mpr h2
  unfold FseDecodingTable.clz16
  rw [if_neg (show ¬ state = 0 from by omega), log2w_eq_log2 state h64]
  omega

theorem finalizeGo_spec (a n M : Nat) (ha : 1 ≤ a) (ha15 : a ≤ 15)
    (hM : M ≤ 2 ^ 16) :
    ∀ (l : List FseEntry) (states : List Nat),
    (∀ e ∈ l, ¬ e.nBits = 0) →
    (∀ s, states.getD s 0 + l.countP (fun e => decide (e.symbol = s)) ≤ M) →
    (∀ s, 1 ≤ l.countP (fun e => decide (e.symbol = s)) →
      1 ≤ states.getD s 0) →
    ∃ l' states',
      FseDecodingTable.finalizeGo a n l states = .ok (l', states') ∧
      l'.length = l.length ∧
      (∀ s, l'.countP (fun e => decide (e.symbol = s)) =
        l.countP (fun e => decide (e.symbol = s))) ∧
      (M ≤ 2 ^ a → ∀ e ∈ l', 1 ≤ e.nBits) := by
  intro l
  induction l with
  | nil =>
    intro states _ _ _
    exact ⟨[], states, rfl, rfl, fun s => rfl, fun _ e he => by simp at he⟩
  | cons e rest ih =>
    intro states hnb hbound hpos1
    have he0 : ¬ e.nBits = 0 := hnb e (List.mem_cons_self e rest)
    have hocc : (e :: rest).countP (fun x => decide (x.symbol = e.symbol)) =
        rest.countP (fun x => decide (x.symbol = e.symbol)) + 1 := by
      rw [List.countP_cons]
      simp
    have hst1 : 1 ≤ states.getD e.symbol 0 := by
      refine hpos1 e.symbol ?_
      omega
    have hb_e := hbound e.symbol
    rw [hocc] at hb_e
    obtain ⟨l', states', hrun, hlen, hcnt, hposout⟩ :=
      ih (states.set e.symbol ((states.getD e.symbol 0 + 1) % 2 ^ 16))
        (fun x hx => hnb x (List.mem_cons_of_mem e hx))
        (by
          intro s
          rw [listGetD_set_any]
          have hcp := hbound s
          rw [List.countP_cons] at hcp
          by_cases hes : e.symbol = s
          · subst hes
            rw [decide_eq_true rfl] at hcp
            by_cases hin : e.symbol < states.length
            · rw [if_pos ⟨rfl, hin⟩]
              by_cases hr : 1 ≤ rest.countP
                  (fun x => decide (x.symbol = e.symbol))
              · rw [Nat.mod_eq_of_lt (by omega)]
                omega
              · have := Nat.mod_le (states.getD e.symbol 0 + 1) (2 ^ 16)
                omega
            · rw [if_neg (by
                intro hcontra
                exact hin hcontra.2)]
              omega
          · rw [if_neg (by
              intro hcontra
              exact hes hcontra.1)]
            rw [decide_eq_false hes] at hcp
            omega)
        (by
          intro s hr
          rw [listGetD_set_any]
          by_cases hes : e.symbol = s
          · subst hes
            by_cases hin : e.symbol < states.length
            · rw [if_pos ⟨rfl, hin⟩,
                Nat.mod_eq_of_lt (by omega)]
              omega
            · rw [if_neg (by
                intro hcontra
                exact hin hcontra.2)]
              omega
          · rw [if_neg (by
              intro hcontra
              exact hes hcontra.1)]
            refine hpos1 s ?_
            rw [List.countP_cons]
            omega)
    refine ⟨(⟨((states.getD e.symbol 0 <<<
          (a + FseDecodingTable.clz16 (states.getD e.symbol 0) - 15)) %
          2 ^ 16 + (2 ^ 16 - n % 2 ^ 16)) % 2 ^ 16,
        a + FseDecodingTable.clz16 (states.getD e.symbol 0) - 15,
        e.symbol⟩ : FseEntry) :: l', states', ?_, ?_, ?_, ?_⟩
    · simp only [FseDecodingTable.finalizeGo]
      rw [if_neg he0]
      rw [if_neg (show ¬ states.getD e.symbol 0 = 0 from by omega), hrun]
    · rw [List.length_cons, List.length_cons, hlen]
    · intro s
      rw [List.countP_cons, List.countP_cons, hcnt s]
    · intro hMa x hx
      rcases List.mem_cons.mp hx with hx | hx
      · subst hx
        exact clz16_nBits_pos a (states.getD e.symbol 0) ha ha15 hst1
          (by omega)
      · exact hposout hMa x hx

theorem sumNatAbs_mem_le : ∀ (l : List Int) (c : Int), c ∈ l →
    c.natAbs ≤ (l.map Int.natAbs).sum := by
  intro l
  induction l with
  | nil =>
    intro c hc
    simp at hc
  | cons x rest ih =>
    intro c hc
    rw [List.map_cons, List.sum_cons]
    rcases List.mem_cons.mp hc with hc | hc
    · subst hc
      omega
    · have := ih c hc
      omega

theorem sumNatAbs_split : ∀ (l : List Int), (∀ c ∈ l, -1 ≤ c) →
    (l.map Int.natAbs).sum =
      (l.map Int.toNat).sum + l.countP (fun c => decide (c = -1)) := by
  intro l
  induction l with
  | nil =>
    intro _
    rfl
  | cons x rest ih =>
    intro hge
    rw [List.map_cons, List.sum_cons, List.map_cons, List.sum_cons,
      List.countP_cons, ih (fun c hc => hge c (List.mem_cons_of_mem x hc))]
    have hx : -1 ≤ x := hge x (List.mem_cons_self x rest)
    by_cases hm : x = -1
    · rw [decide_eq_true hm, if_pos rfl, hm]
      omega
    · rw [decide_eq_false hm, if_neg (by simp)]
      have : x.natAbs = x.toNat := by omega
      omega

theorem listTakeEq {α : Type} (l res : List α) (d : α)
    (hlen : l.length ≤ res.length)
    (h : ∀ i, i < l.length → res.getD i d = l.getD i d) :
    res.take l.length = l := by
  refine List.ext_getElem (by rw [List.length_take]; omega) ?_
  intro i h1 h2
  have hgd : (res.take l.length).getD i d = l.getD i d := by
    rw [List.getD_eq_getElem?_getD, List.getElem?_take_of_lt h2,
      ← List.getD_eq_getElem?_getD]
    exact h i h2
  rw [List.getD_eq_getElem _ d h1, List.getD_eq_getElem _ d h2] at hgd
  exact hgd

theorem finalizeTable_stage (a : Nat) (ha5 : 5 ≤ a) (ha15 : a ≤ 15)
    (counts : List Int) (hge : ∀ c ∈ counts, -1 ≤ c)
    (hsum : (counts.map Int.natAbs).sum = 2 ^ a)
    (hlen : counts.length ≤ 256)
    (ss : List Nat)
    (hssval : ∀ s, s < counts.length →
      ss.getD s 0 = if counts.getD s 0 = -1 then 1
        else (counts.getD s 0).toNat)
    (hss0 : ∀ s, counts.length ≤ s → ss.getD s 0 = 0)
    (t2 : List FseEntry) (hlen2 : t2.length = 2 ^ a)
    (h255 : ∀ e ∈ t2, e.nBits = 255)
    (hocc : ∀ s, t2.countP (fun e => decide (e.symbol = s)) =
      (counts.getD s 0).natAbs) :
    ∃ l' states', FseDecodingTable.finalizeTable a t2 ss = .ok (l', states') ∧
      l'.length = 2 ^ a ∧
      (∀ s, l'.countP (fun e => decide (e.symbol = s)) =
        (counts.getD s 0).natAbs) ∧
      ((∀ c ∈ counts, c.natAbs ≤ 2 ^ (a - 1)) → ∀ e ∈ l', 1 ≤ e.nBits) := by
  have hmem_le : ∀ s, s < counts.length → (counts.getD s 0).natAbs ≤ 2 ^ a := by
    intro s hs
    rw [← hsum]
    refine sumNatAbs_mem_le counts (counts.getD s 0) ?_
    rw [List.getD_eq_getElem counts 0 hs]
    exact List.getElem_mem hs
  have h2a15 : (2 : Nat) ^ a ≤ 2 ^ 15 := Nat.pow_le_pow_right (by omega) ha15
  have hoccd : ∀ s, counts.length ≤ s →
      (counts.getD s 0).natAbs = 0 := by
    intro s hs
    rw [List.getD_eq_default counts 0 hs]
    rfl
  have hbound16 : ∀ s, ss.getD s 0 +
      t2.countP (fun e => decide (e.symbol = s)) ≤ 2 ^ 16 := by
    intro s
    rw [hocc s]
    by_cases hs : s < counts.length
    · rw [hssval s hs]
      by_cases hm : counts.getD s 0 = -1
      · rw [if_pos hm, hm]
        norm_num
      · rw [if_neg hm]
        have h1 := hmem_le s hs
        have h2 : -1 ≤ counts.getD s 0 := by
          have : counts.getD s 0 ∈ counts := by
            rw [List.getD_eq_getElem counts 0 hs]
            exact List.getElem_mem hs
          exact hge _ this
        have h3 : (2 : Nat) ^ 15 + 2 ^ 15 ≤ 2 ^ 16 := by norm_num
        omega
    · rw [hss0 s (by omega), hoccd s (by omega)]
      omega
  have hpos1 : ∀ s, 1 ≤ t2.countP (fun e => decide (e.symbol = s)) →
      1 ≤ ss.getD s 0 := by
    intro s h1
    rw [hocc s] at h1
    by_cases hs : s < counts.length
    · have h2 : -1 ≤ counts.getD s 0 := by
        have : counts.getD s 0 ∈ counts := by
          rw [List.getD_eq_getElem counts 0 hs]
          exact List.getElem_mem hs
        exact hge _ this
      rw [hssval s hs]
      by_cases hm : counts.getD s 0 = -1
      · rw [if_pos hm]
      · rw [if_neg hm]
        omega
    · rw [hoccd s (by omega)] at h1
      omega
  have hnb : ∀ e ∈ t2, ¬ e.nBits = 0 := by
    intro e he
    rw [h255 e he]
    omega
  obtain ⟨l', states', hrun, hlenout, hcnt, _⟩ :=
    finalizeGo_spec a (2 ^ a) (2 ^ 16) (by omega) ha15 (le_refl _)
      t2 ss hnb hbound16 hpos1
  have hm4 : (2 : Nat) ^ a / 4 * 4 = 2 ^ a := by
    refine Nat.div_mul_cancel ?_
    have : (4 : Nat) = 2 ^ 2 := by norm_num
    rw [this]
    exact pow_dvd_pow 2 (by omega)
  have hrunT : FseDecodingTable.finalizeTable a t2 ss = .ok (l', states') := by
    unfold FseDecodingTable.finalizeTable
    rw [hlen2]
    dsimp only
    rw [hm4, List.take_of_length_le (by omega),
      List.drop_eq_nil_of_le (by omega), hrun]
    dsimp only
    rw [List.append_nil]
  refine ⟨l', states', hrunT, by rw [hlenout, hlen2], ?_, ?_⟩
  · intro s
    rw [hcnt s, hocc s]
  · intro hbnd e he
    have hbound2a : ∀ s, ss.getD s 0 +
        t2.countP (fun e => decide (e.symbol = s)) ≤ 2 ^ a := by
      intro s
      rw [hocc s]
      by_cases hs : s < counts.length
      · have hmemc : counts.getD s 0 ∈ counts := by
          rw [List.getD_eq_getElem counts 0 hs]
          exact List.getElem_mem hs
        have h1 := hbnd _ hmemc
        have h2 := hge _ hmemc
        rw [hssval s hs]
        by_cases hm : counts.getD s 0 = -1
        · rw [if_pos hm, hm]
          have : (2 : Nat) ≤ 2 ^ a := by
            calc (2 : Nat) = 2 ^ 1 := by norm_num
            _ ≤ 2 ^ a := Nat.pow_le_pow_right (by omega) (by omega)
          omega
        · rw [if_neg hm]
          have h3 : 2 ^ (a - 1) + 2 ^ (a - 1) = 2 ^ a := by
            have : a - 1 + 1 = a := by omega
            calc 2 ^ (a - 1) + 2 ^ (a - 1) = 2 ^ (a - 1) * 2 := by omega
            _ = 2 ^ (a - 1 + 1) := by rw [Nat.pow_succ]
            _ = 2 ^ a := by rw [this]
          omega
      · rw [hss0 s (by omega), hoccd s (by omega)]
        omega
    obtain ⟨l2, states2, hrun2, _, _, hposout2⟩ :=
      finalizeGo_spec a (2 ^ a) (2 ^ a) (by omega) ha15
        (Nat.pow_le_pow_right (by omega) (by omega))
        t2 ss hnb hbound2a hpos1
    have heq : l2 = l' := by
      rw [hrun] at hrun2
      have hpair := Except.ok.inj hrun2
      exact (Prod.ext_iff.mp hpair).1.symm
    rw [← heq] at he
    exact hposout2 (le_refl _) e he

theorem spread_stage (a : Nat) (ha5 : 5 ≤ a)
    (dist : NormalizedDistribution) (counts : List Int)
    (hcs_eq : dist.finalCounts.take dist.symbolCount = counts)
    (hlow : dist.hasLowProb = counts.any (fun c => decide (c = -1)))
    (hcnt : dist.symbolCount ≤ 256)
    (hge : ∀ c ∈ counts, -1 ≤ c)
    (hsum : (counts.map Int.natAbs).sum = 2 ^ a) :
    ∃ t2, (if ¬ dist.hasLowProb then
        some (FseDecodingTable.spreadWeights dist
          (List.replicate (2 ^ a) ⟨0, 0, 0⟩))
      else FseDecodingTable.spreadSymbolsLowProb dist
        (List.replicate (2 ^ a) ⟨0, 0, 0⟩)) = some (.ok t2) ∧
      t2.length = 2 ^ a ∧
      (∀ e ∈ t2, e.nBits = 255) ∧
      (∀ s, t2.countP (fun e => decide (e.symbol = s)) =
        (counts.getD s 0).natAbs) := by
  have hsplit := sumNatAbs_split counts hge
  by_cases hlowb : counts.any (fun c => decide (c = -1)) = true
  · have hL : 1 ≤ counts.countP (fun c => decide (c = -1)) :=
      List.countP_pos_iff.mpr (List.any_eq_true.mp hlowb)
    obtain ⟨t2, hrun2, hlen2, hsym2, _, h255s⟩ :=
      spreadSymbolsLowProb_spec a (by omega) dist
        (by rw [hcs_eq]; omega)
        (by rw [hcs_eq]; exact hL)
        (by rw [hcs_eq]; exact hge) hcnt
    rw [hcs_eq] at hsym2
    refine ⟨t2, ?_, hlen2, h255s, ?_⟩
    · rw [if_neg (not_not_intro (hlow.trans hlowb))]
      exact hrun2
    · intro s
      have hcg : t2.countP (fun e => decide (e.symbol = s)) =
          t2.countP (fun e => decide (e.nBits = 255 ∧ e.symbol = s)) := by
        refine List.countP_congr ?_
        intro x hx
        simp [h255s x hx]
      rw [hcg, hsym2 s]
      by_cases hs : s < counts.length
      · rw [if_pos hs]
      · rw [if_neg hs, List.getD_eq_default counts 0 (by omega)]
        rfl
  · have hlowf : counts.any (fun c => decide (c = -1)) = false :=
      Bool.eq_false_iff.mpr hlowb
    have hnone : ∀ c ∈ counts, ¬ c = -1 := by
      intro c hc
      have := List.any_eq_false.mp hlowf c hc
      simpa using this
    have hL0 : counts.countP (fun c => decide (c = -1)) = 0 :=
      List.countP_eq_zero.mpr (by
        intro c hc
        simpa using hnone c hc)
    obtain ⟨t2, hrun2, hlen2, hcover, hsym2⟩ :=
      spreadWeights_spec a (by omega) dist
        (List.replicate (2 ^ a) ⟨0, 0, 0⟩)
        (List.length_replicate _ _)
        (by
          intro q hq
          rw [List.getD_eq_getElem?_getD, List.getElem?_replicate, if_pos hq]
          rfl)
        (by rw [hcs_eq]; omega) hcnt
    rw [hcs_eq] at hsym2
    have h255m : ∀ e ∈ t2, e.nBits = 255 := by
      intro e he
      obtain ⟨i, hi, hig⟩ := List.getElem_of_mem he
      have hcv := hcover i (by rw [← hlen2]; exact hi)
      rw [List.getD_eq_getElem t2 ⟨0, 0, 0⟩ hi, hig] at hcv
      exact hcv
    refine ⟨t2, ?_, hlen2, h255m, ?_⟩
    · rw [if_pos (show ¬ dist.hasLowProb from by
        rw [hlow, hlowf]
        simp), hrun2]
    · intro s
      have hcg : t2.countP (fun e => decide (e.symbol = s)) =
          t2.countP (fun e => decide (e.nBits = 255 ∧ e.symbol = s)) := by
        refine List.countP_congr ?_
        intro x hx
        simp [h255m x hx]
      have hrepl0 : (List.replicate (2 ^ a) (⟨0, 0, 0⟩ : FseEntry)).countP
          (fun e => decide (e.nBits = 255 ∧ e.symbol = s)) = 0 := by
        rw [countP_replicate_elem, if_neg (by simp)]
      rw [hcg, hsym2 s, hrepl0]
      by_cases hs : s < counts.length
      · rw [if_pos hs]
        have hmem : counts.getD s 0 ∈ counts := by
          rw [List.getD_eq_getElem counts 0 hs]
          exact List.getElem_mem hs
        have h1 := hge _ hmem
        have h2 := hnone _ hmem
        omega
      · rw [if_neg hs, List.getD_eq_default counts 0 (by omega)]
        rfl

/-- C2 (amended): for the normalized distribution built by
`NormalizedDistribution::from_predefined` from counts that are each at least
`-1`, number at most 256, and whose absolute values sum to `2^a` with
`5 <= a <= 15`, `DecodingTable::from_distribution::<2^a>` succeeds, the table
has `2^a` entries, and for every symbol `s` exactly `|counts[s]|` slots carry
`s`.  The claim's "every slot has `n_bits > 0`" additionally needs every count
bounded by `2^(a-1)`; without that bound it is refuted (a per-symbol state can
reach `2^a`, making `accuracy_log + clz16(state) - 15` zero). -/
theorem C2_from_distribution (a : Nat) (counts : List Int)
    (ha5 : 5 ≤ a) (ha15 : a ≤ 15)
    (hlen : counts.length ≤ 256)
    (hge : ∀ c ∈ counts, -1 ≤ c)
    (hsum : (counts.map Int.natAbs).sum = 2 ^ a) :
    ∃ dist t,
      NormalizedDistribution.fromPredefined counts a = .ok dist ∧
      FseDecodingTable.fromDistribution (2 ^ a) dist = some (.ok t) ∧
      t.entries.length = 2 ^ a ∧
      (∀ s, t.entries.countP (fun e => decide (e.symbol = s)) =
        (counts.getD s 0).natAbs) ∧
      ((∀ c ∈ counts, c.natAbs ≤ 2 ^ (a - 1)) →
        ∀ e ∈ t.entries, 1 ≤ e.nBits) := by
  obtain ⟨fc, ss, hgorun, hfc256, hss256, huntouched, hwritten⟩ :=
    fromPredefinedGo_spec counts 0 (List.replicate 256 0)
      (List.replicate 256 0) false (by omega)
      (List.length_replicate _ _) (List.length_replicate _ _)
  rw [Nat.zero_add, Bool.false_or] at hgorun
  have hfp : NormalizedDistribution.fromPredefined counts a =
      .ok ⟨fc, ss, counts.length,
        counts.any (fun c => decide (c = -1)), a⟩ := by
    unfold NormalizedDistribution.fromPredefined
    rw [hgorun]
  have htake : fc.take counts.length = counts := by
    refine listTakeEq counts fc 0 (by omega) ?_
    intro i hi
    have h1 := (hwritten i (by omega) (by omega)).1
    rw [show i - 0 = i from by omega] at h1
    exact h1
  have h2a15 : (2 : Nat) ^ a ≤ 2 ^ 15 := Nat.pow_le_pow_right (by omega) ha15
  have hssval : ∀ s, s < counts.length →
      ss.getD s 0 = if counts.getD s 0 = -1 then 1
        else (counts.getD s 0).toNat := by
    intro s hs
    have h2 := (hwritten s (by omega) (by omega)).2
    rw [show s - 0 = s from by omega] at h2
    rw [h2]
    by_cases hm : counts.getD s 0 = -1
    · rw [if_pos hm, if_pos hm]
    · rw [if_neg hm, if_neg hm]
      have hmem : counts.getD s 0 ∈ counts := by
        rw [List.getD_eq_getElem counts 0 hs]
        exact List.getElem_mem hs
      have hge1 := hge _ hmem
      have hle := sumNatAbs_mem_le counts _ hmem
      rw [hsum] at hle
      have hmod : counts.getD s 0 % 65536 = counts.getD s 0 :=
        Int.emod_eq_of_lt (by omega) (by omega)
      rw [hmod]
  have hss0 : ∀ s, counts.length ≤ s → ss.getD s 0 = 0 := by
    intro s hs
    by_cases h256 : s < 256
    · have h2 := (huntouched s (by omega)).2
      rw [h2, List.getD_eq_getElem?_getD, List.getElem?_replicate,
        if_pos h256]
      rfl
    · rw [List.getD_eq_default _ _ (by rw [hss256]; omega)]
  set dist : NormalizedDistribution :=
    ⟨fc, ss, counts.length, counts.any (fun c => decide (c = -1)), a⟩
    with hdistdef
  have hcs_eq : dist.finalCounts.take dist.symbolCount = counts := htake
  obtain ⟨t2, hspread, hlen2, h255, hocc⟩ :=
    spread_stage a ha5 dist counts hcs_eq rfl hlen hge hsum
  obtain ⟨l2, states2, hrunT, hlenT, hcntT, hposT⟩ :=
    finalizeTable_stage a ha5 ha15 counts hge hsum hlen ss hssval hss0
      t2 hlen2 h255 hocc
  have hfd : FseDecodingTable.fromDistribution (2 ^ a) dist =
      some (.ok ⟨l2, a⟩) := by
    have hn1 : (1 : Nat) ≤ 2 ^ a := Nat.one_le_two_pow
    have hand : 2 ^ a &&& (2 ^ a - 1) = 0 := by
      rw [Nat.and_pow_two_sub_one_eq_mod]
      exact Nat.mod_self _
    unfold FseDecodingTable.fromDistribution
    rw [if_neg (not_not_intro ⟨by omega, hand⟩)]
    dsimp only
    rw [if_neg (not_not_intro ⟨ha5, ha15⟩), if_neg (lt_irrefl _)]
    rw [List.take_replicate, min_self, hspread]
    dsimp only
    rw [hrunT]
    dsimp only
    rw [List.drop_eq_nil_of_le (le_of_eq (List.length_replicate _ _)),
      List.append_nil]
  refine ⟨dist, ⟨l2, a⟩, hfp, hfd, ?_, ?_, ?_⟩
  · exact hlenT
  · intro s
    rw [hcntT s]
  · intro hbnd e he
    exact hposT hbnd e he

/-- C2 witness: the amended theorem applied to counts `[16, 14, -1, -1]` at
accuracy log 5 (which exercises the low-probability spread path). -/
theorem C2_from_distribution_witness :
    (5 ≤ 5 ∧ 5 ≤ 15 ∧ ([16, 14, -1, -1] : List Int).length ≤ 256 ∧
      (∀ c ∈ ([16, 14, -1, -1] : List Int), -1 ≤ c) ∧
      (([16, 14, -1, -1] : List Int).map Int.natAbs).sum = 2 ^ 5) ∧
    (∃ dist t,
      NormalizedDistribution.fromPredefined [16, 14, -1, -1] 5 = .ok dist ∧
      FseDecodingTable.fromDistribution (2 ^ 5) dist = some (.ok t) ∧
      t.entries.length = 2 ^ 5 ∧
      (∀ s, t.entries.countP (fun e => decide (e.symbol = s)) =
        (([16, 14, -1, -1] : List Int).getD s 0).natAbs) ∧
      ((∀ c ∈ ([16, 14, -1, -1] : List Int), c.natAbs ≤ 2 ^ (5 - 1)) →
        ∀ e ∈ t.entries, 1 ≤ e.nBits)) :=
  ⟨⟨by omega, by omega, by decide, by decide, by decide⟩,
   C2_from_distribution 5 [16, 14, -1, -1] (by omega) (by omega)
     (by decide) (by decide) (by decide)⟩

end RZstd
